import Mathlib

/-!
Verification of the pipeline-manager graph core (frontend/src/custom/Editor.js,
frontend/src/core/EditorManager.js) against its natural-language specification.

The JavaScript code is shallowly embedded: plain objects become structures,
mutation becomes explicit state passing, JS numbers become rationals (with
`Option` marking an absent or non-finite value), and a call that can throw a
`TypeError` (or, for the `async` entry point `load`, reject its promise)
returns a `JSOutcome`/`Option` failure instead of a value.

Object identity and the heap are modelled as follows: the editor's registered
graphs form a tree rooted at the instantiated root graph (each subgraph-owning
node embeds its live `graphState`), and the navigation stack of
`[parentGraphId, subgraphNode]` pairs is represented by the path of
subgraph-owning node ids from the root to the active graph; mutating a node
reached through a stack frame is modelled by rewriting the tree at that path.
-/

/-- Serialized/live node interface: `id`, `name` and the optional
`subgraphNodeId` linking a subgraph-owning node's interface to the boundary
marker inside the subgraph (spec section 3, Editor.js `backFromSubgraph`). -/
structure SIntf where
  id : String
  name : String
  subgraphNodeId : Option String
deriving DecidableEq, Repr

/-- Endpoint of a connection: interface id, owning node id and the interface
name (`connection.from.id/.nodeId/.name` in `unwrapSubgraph`). -/
structure ConnEnd where
  id : String
  nodeId : String
  name : String
deriving DecidableEq, Repr

/-- Connection between two interfaces (`from`/`to` are Lean keywords, hence
`cfrom`/`cto`). -/
structure SConn where
  cfrom : ConnEnd
  cto : ConnEnd
deriving DecidableEq, Repr

/-- Scalar fields of a node: identifier, display name, node type, the optional
subgraph template reference (a template id, `node.subgraph` in serialized
form), its interface lists, the boundary interface it contributes when it is a
subgraph input/output marker node, and its optional position.  Coordinates are
rationals; `position = none` models both an absent position (auto-layout
pending) and a non-finite one. -/
structure NodeCore where
  id : String
  name : String
  type : String
  subgraph : Option String
  inputs : List SIntf
  outputs : List SIntf
  boundary : Option SIntf
  position : Option (ℚ × ℚ)
deriving DecidableEq, Repr

/-- Scalar fields of a graph: identifier, name, connections, boundary
interface lists (`inputs`/`outputs`; the empty list models a deleted/absent
field) and the view transform (`panning`/`scaling`). -/
structure GraphCore where
  id : String
  name : String
  connections : List SConn
  inputs : List SIntf
  outputs : List SIntf
  panning : Option (ℚ × ℚ)
  scaling : Option ℚ
deriving DecidableEq, Repr

/-- A node together with its optional live `graphState` (the instantiated
subgraph).  Serialized documents carry `graphState = none`; `load` fills it in
and `save` strips it. -/
inductive SNode where
  | mk (core : NodeCore) (graphState : Option (GraphCore × List SNode)) : SNode

/-- A graph: scalar fields plus its node list. -/
structure SGraph where
  core : GraphCore
  nodes : List SNode

def SNode.core : SNode → NodeCore
  | .mk c _ => c

def SNode.graphState : SNode → Option SGraph
  | .mk _ none => none
  | .mk _ (some (g, ns)) => some ⟨g, ns⟩

/-- Node-type names of the synthetic subgraph boundary marker nodes
(`subgraphInterface.js`; the exact string values are not visible in the core
sources, only their role is, so representative constants are used). -/
def SUBGRAPH_INPUT_NODE_TYPE : String := "__baklava_SubgraphInputNode"

def SUBGRAPH_OUTPUT_NODE_TYPE : String := "__baklava_SubgraphOutputNode"

def SUBGRAPH_INOUT_NODE_TYPE : String := "__baklava_SubgraphInoutNode"

/-- The root object of a dataflow document: either the multi-graph form
`{entryGraph: id}` or the single-graph form holding the graph itself. -/
inductive DocRoot where
  | entry (id : String) : DocRoot
  | single (g : SGraph) : DocRoot

/-- A dataflow document.  `graph = none` models an input whose `graph` field
is `undefined` (for example a raw string or `{}` handed to `load`);
`subgraphs = none` models an absent `subgraphs` field. -/
structure Document where
  graph : Option DocRoot
  subgraphs : Option (List SGraph)

/-- Editor state (`PipelineManagerEditor`): the instantiated graph tree
(`root`), the navigation path encoding the subgraph stack, the `_readonly`
flag, the displayed `graphName`, and the `subgraphNodePositions` cache. -/
structure EState where
  root : SGraph
  path : List String
  readonly : Bool
  graphName : Option String
  subgraphNodePositions : List (String × (ℚ × ℚ))

/-- Outcome of a JavaScript call: a returned value or a thrown error (for the
`async` `load`, a rejected promise). -/
inductive JSOutcome (α : Type) where
  | ret (a : α) : JSOutcome α
  | thrown (msg : String) : JSOutcome α
deriving DecidableEq, Repr

/-- Find a node by id in a node list (`graph.nodes.find(...)`). -/
def findNode (ns : List SNode) (nid : String) : Option SNode :=
  ns.find? (fun n => n.core.id = nid)

/-- Follow a navigation path from a graph down through `graphState`s. -/
def descend (g : SGraph) : List String → Option SGraph
  | [] => some g
  | nid :: rest =>
    match findNode g.nodes nid with
    | none => none
    | some n =>
      match n.graphState with
      | none => none
      | some sg => descend sg rest

/-- The graph the editor currently displays (`this._graph`). -/
def activeOf (st : EState) : Option SGraph :=
  descend st.root st.path

/-- Rewrite the graph at the end of a navigation path (models mutating the
live graph object reached through the stack). -/
def modifyAt (g : SGraph) (f : SGraph → SGraph) : List String → SGraph
  | [] => f g
  | nid :: rest =>
    { g with nodes := g.nodes.map (fun n =>
      if n.core.id = nid then
        match n with
        | .mk c none => .mk c none
        | .mk c (some (gc, gns)) =>
          let sg' := modifyAt ⟨gc, gns⟩ f rest
          .mk c (some (sg'.core, sg'.nodes))
      else n) }

/-! ### Document load: subgraph instantiation (Editor.js `recurrentSubgraphLoad`)

The JS recursion terminates because every descent adds a fresh template id to
`usedInstances`; the embedding makes that explicit with a fuel argument that
`loadE` instantiates with `subgraphs.length + 1`, which is never exhausted on
any reachable path (a pigeonhole on the used-id set). -/

/-- One step of `recurrentSubgraphLoad`: returns the node with `graphState`
instantiated, the accumulated error list, and the updated `usedInstances`
set.  `none` models the `TypeError` thrown when `state.subgraphs` is
`undefined` but a node carries a `subgraph` reference. -/
def instNode (subs : Option (List SGraph)) : Nat → List String → SNode →
    Option (SNode × List String × List String)
  | 0, used, n => some (n, ["instantiation fuel exhausted"], used)
  | fuel + 1, used, .mk c gs =>
    match c.subgraph with
    | none => some (.mk c gs, [], used)
    | some sid =>
      match subs with
      | none => none
      | some templates =>
        match templates.filter (fun t => t.core.id = sid) with
        | [t] =>
          if sid ∈ used then
            some (.mk c gs,
              ["Subgraph " ++ sid ++
               " has multiple nodes pointing to it - only unique IDs are allowed"],
              used)
          else
            match t.nodes.foldl
                (fun acc n =>
                  match acc with
                  | none => none
                  | some accv =>
                    match instNode subs fuel accv.2.2 n with
                    | none => none
                    | some (n', e1, u1) =>
                      some (accv.1 ++ [n'], accv.2.1 ++ e1, u1))
                (some ([], [], used ++ [sid])) with
            | none => none
            | some (ns', errs, used') =>
              some (.mk c (some (t.core, ns')), errs, used')
        | fs =>
          some (.mk c gs,
            ["Expected exactly one template with ID " ++ c.name ++ ", got " ++
             toString fs.length],
            used)

/-- `recurrentSubgraphLoad` folded over a node list, threading the
`usedInstances` set and concatenating errors (the JS `forEach` keeps going
after child errors). -/
def instNodes (subs : Option (List SGraph)) (fuel : Nat) (used : List String)
    (ns : List SNode) : Option (List SNode × List String × List String) :=
  ns.foldl
    (fun acc n =>
      match acc with
      | none => none
      | some accv =>
        match instNode subs fuel accv.2.2 n with
        | none => none
        | some (n', e1, u1) =>
          some (accv.1 ++ [n'], accv.2.1 ++ e1, u1))
    (some ([], [], used))

/-! ### Document save: graphState collection (Editor.js `recurrentSubgraphSave`) -/

mutual
/-- `recurrentSubgraphSave` on one node: push the node's `graphState` (whose
own nodes get stripped by the recursion before the document is returned) and
delete `graphState` from the node.  `none` models the `TypeError` on a node
whose `subgraph` is set but whose `graphState` is missing. -/
def stripNode : SNode → Option (SNode × List SGraph)
  | .mk c gs =>
    match c.subgraph, gs with
    | some _, some (g, ns) =>
      match stripNodes ns with
      | none => none
      | some (ns', collected) => some (.mk c none, ⟨g, ns'⟩ :: collected)
    | some _, none => none
    | none, _ => some (.mk c none, [])

/-- `recurrentSubgraphSave` over a node list, collecting templates in
document order (preorder). -/
def stripNodes : List SNode → Option (List SNode × List SGraph)
  | [] => some ([], [])
  | n :: ns =>
    match stripNode n with
    | none => none
    | some (n', c1) =>
      match stripNodes ns with
      | none => none
      | some (ns', c2) => some (n' :: ns', c1 ++ c2)
end

/-! ### Navigation and interface reconciliation -/

/-- True for the three synthetic boundary marker node types. -/
def isMarkerType (ty : String) : Bool :=
  ty = SUBGRAPH_INPUT_NODE_TYPE || ty = SUBGRAPH_OUTPUT_NODE_TYPE ||
    ty = SUBGRAPH_INOUT_NODE_TYPE

/-- Modelled from the spec: the boundary-input interface list of a subgraph,
recomputed from its input/inout marker nodes (`CustomGraph.updateInterfaces`
is not among the core sources; spec section 4.2 describes it as recomputing
the boundary-interface set from the live content). -/
def boundaryInputsOf (ns : List SNode) : List SIntf :=
  ns.filterMap (fun n =>
    if n.core.type = SUBGRAPH_INPUT_NODE_TYPE ∨
        n.core.type = SUBGRAPH_INOUT_NODE_TYPE then
      n.core.boundary
    else none)

/-- Modelled from the spec: the boundary-output interface list of a subgraph,
recomputed from its output marker nodes. -/
def boundaryOutputsOf (ns : List SNode) : List SIntf :=
  ns.filterMap (fun n =>
    if n.core.type = SUBGRAPH_OUTPUT_NODE_TYPE then n.core.boundary else none)

/-- Modelled from the spec: `this._graph.updateInterfaces()` recomputes the
graph's `inputs`/`outputs` from its boundary marker nodes. -/
def updateInterfacesG (g : SGraph) : SGraph :=
  { g with core := { g.core with
      inputs := boundaryInputsOf g.nodes,
      outputs := boundaryOutputsOf g.nodes } }

/-- The string `Object.fromEntries` uses as key for an interface: its
`subgraphNodeId`, with JS stringification of `undefined`. -/
def keyOf (i : SIntf) : String := i.subgraphNodeId.getD "undefined"

/-- One side of the interface diff in `backFromSubgraph`: drop node
interfaces whose `subgraphNodeId` is not among the reconciled keys, then walk
the reconciled entries updating the matching interface in place
(`Object.assign` overwrites every field, so the update is replacement) or
appending a fresh one. -/
def reconcileSide (nodeSide : List SIntf) (res : List SIntf)
    : List SIntf :=
  let keys := res.map keyOf
  let kept := nodeSide.filter (fun k =>
    match k.subgraphNodeId with
    | none => false
    | some s => keys.contains s)
  res.foldl (fun acc intf =>
    if acc.any (fun w => w.subgraphNodeId = some (keyOf intf)) then
      acc.map (fun w => if w.subgraphNodeId = some (keyOf intf) then intf else w)
    else acc ++ [intf]) kept

/-- The body of `backFromSubgraph` acting on the subgraph-owning node: update
the subgraph's interfaces from its markers, apply the side-position pass
(`applySidePositions` is not among the core sources; spec section 4.2 treats
it as recomputing per-side positions, modelled as the identity — its error
result for inconsistent sides is not exercised by any claim), then diff the
result against the node's interfaces. -/
def reconcileNode (n : SNode) : Option SNode :=
  match n with
  | .mk _ none => none
  | .mk c (some (gc, gns)) =>
    let sg' := updateInterfacesG ⟨gc, gns⟩
    some (.mk { c with
        inputs := reconcileSide c.inputs sg'.core.inputs,
        outputs := reconcileSide c.outputs sg'.core.outputs }
      (some (sg'.core, sg'.nodes)))

/-- Modelled from the spec: `subgraphNode.propagateInterfaces()`
(`CustomGraphNode.js` is not among the core sources; spec section 4.2 says it
propagates the node's current interface values into the subgraph's boundary
markers, matched by `subgraphNodeId`). -/
def propagateIntoGraph (c : NodeCore) (g : SGraph) : SGraph :=
  { g with nodes := g.nodes.map (fun m =>
    match m with
    | .mk mc mgs =>
      if isMarkerType mc.type then
        match mc.boundary with
        | none => .mk mc mgs
        | some b =>
          match (c.inputs ++ c.outputs).find?
              (fun i => i.subgraphNodeId = b.subgraphNodeId) with
          | none => .mk mc mgs
          | some i => .mk { mc with boundary := some { b with name := i.name } } mgs
      else .mk mc mgs) }

/-- Position restoration in `switchGraph`: nodes of the entered subgraph whose
id is cached in `subgraphNodePositions` get their cached position back, and
the cache entry is deleted. -/
def restorePositions (cache : List (String × (ℚ × ℚ))) (g : SGraph) :
    SGraph × List (String × (ℚ × ℚ)) :=
  ({ g with nodes := g.nodes.map (fun n =>
      match n with
      | .mk c gs =>
        match cache.find? (fun e => e.1 = c.id) with
        | some e => .mk { c with position := some e.2 } gs
        | none => .mk c gs) },
   cache.filter (fun e => (findNode g.nodes e.1).isNone))

/-- `switchToSubgraph(subgraphNode)`: push the frame and switch to the node's
subgraph, after propagating interfaces and restoring cached positions.  The
asynchronous layout recomputation scheduled on `nextTick` is external (spec
section 4.5) and does not change the structural state.  `none` models the
`TypeError` when the node is missing or has no subgraph. -/
def switchToSubgraphE (st : EState) (nid : String) : Option EState :=
  match activeOf st with
  | none => none
  | some ag =>
    match findNode ag.nodes nid with
    | none => none
    | some n =>
      match n.graphState with
      | none => none
      | some sg =>
        let sg1 := propagateIntoGraph n.core sg
        let (sg2, cache') := restorePositions st.subgraphNodePositions sg1
        let root' := modifyAt st.root (fun g =>
          { g with nodes := g.nodes.map (fun m =>
            if m.core.id = nid then
              (match m with
               | .mk mc _ => .mk mc (some (sg2.core, sg2.nodes)))
            else m) }) st.path
        some { st with
          root := root',
          path := st.path ++ [nid],
          graphName := some sg2.core.name,
          subgraphNodePositions := cache' }

/-- `backFromSubgraph()`: pop the top frame, reconcile the subgraph-owning
node's interfaces against the subgraph's recomputed boundary set, and switch
back to the parent graph.  `none` models the `TypeError` on an empty stack or
a broken frame. -/
def backFromSubgraphE (st : EState) : Option EState :=
  match st.path.getLast? with
  | none => none
  | some nid =>
    let parentPath := st.path.dropLast
    match descend st.root parentPath with
    | none => none
    | some pg =>
      match findNode pg.nodes nid with
      | none => none
      | some n =>
        match reconcileNode n with
        | none => none
        | some n' =>
          let root' := modifyAt st.root (fun g =>
            { g with nodes := g.nodes.map (fun m =>
              if m.core.id = nid then n' else m) }) parentPath
          some { st with
            root := root',
            path := parentPath,
            graphName := some pg.core.name }

/-- `unregisterGraphs()`: every registered graph except the currently
displayed one is dropped and the subgraph stack is emptied; in the tree
model the active graph becomes the new root and the path empties. -/
def unregisterGraphsE (st : EState) : EState :=
  { st with root := (activeOf st).getD st.root, path := [] }

/-- `cleanEditor()` on the editor: remove every connection and node of the
currently displayed graph. -/
def cleanEditorE (st : EState) : EState :=
  { st with root := (modifyAt st.root
      (fun g => { core := { g.core with connections := [] }, nodes := [] })
      st.path) }

/-! ### load (Editor.js lines 192-345) -/

/-- Development-mode flag `process.env.VUE_APP_GRAPH_DEVELOPMENT_MODE`; the
deployed default (the flag unset) is modelled. -/
def devGraphMode : Bool := false

/-- The set of template ids referenced by some node of some graph in the
`subgraphs` list (the `usedSubgraphs` set computed by `load`). -/
def usedSubgraphIds (subs : List SGraph) : List String :=
  subs.foldl (fun acc g => acc ++ g.nodes.filterMap (fun n => n.core.subgraph)) []

/-- Fuel passed to the instantiation recursion; one more than the number of
templates, which a pigeonhole on the `usedInstances` set shows is never
exhausted (the JS recursion needs no fuel for the same reason). -/
def fuelOf (D : Document) : Nat :=
  (match D.subgraphs with | some l => l.length | none => 0) + 1

/-- Modelled from the spec: `this._graph.load(rootGraph)`
(`CustomGraph.load`, not among the core sources) applies the instantiated
root graph and returns a list of user-facing error strings; spec sections 3
and 7 name broken connection endpoints as the representative failure, so the
model validates that each connection endpoint resolves to an interface of an
existing node. -/
def graphLoadErrors (g : SGraph) : List String :=
  g.core.connections.filterMap (fun cn =>
    let res := fun (e : ConnEnd) =>
      match findNode g.nodes e.nodeId with
      | none => false
      | some n => (n.core.inputs ++ n.core.outputs).any (fun i => i.id = e.id)
    if res cn.cfrom && res cn.cto then none
    else some ("Could not load connection from " ++ cn.cfrom.id ++ " to " ++
      cn.cto.id))

mutual
/-- The `dfs` helper inside `load` on one node: a subgraph-owning node whose
live subgraph is the entry graph ends the path; otherwise the search
descends into the subgraph. -/
def dfsNode (eid : String) : SNode → List String → List String
  | .mk _ none, _ => []
  | .mk c (some (gc, gns)), path =>
    if gc.id = eid then path ++ [c.id]
    else dfsNodes eid gns (path ++ [c.id])

/-- The `dfs` helper inside `load` over a node list: the path (as node ids)
of subgraph-owning nodes leading to the entry graph, in depth-first order,
or `[]` when the entry graph is not reachable. -/
def dfsNodes (eid : String) : List SNode → List String → List String
  | [], _ => []
  | n :: ns, path =>
    match dfsNode eid n path with
    | [] => dfsNodes eid ns path
    | rp => rp
end

/-- Replay `switchToSubgraph` along the path found by `dfs`; a failure is a
`TypeError` escaping the (try-block-free) tail of `load`. -/
def switchAlong (st : EState) : List String → Option EState
  | [] => some st
  | nid :: rest =>
    match switchToSubgraphE st nid with
    | none => none
    | some st' => switchAlong st' rest

/-- The pan/zoom epilogue of `load`: apply the saved `panning`/`scaling` to
the displayed graph; when both are absent `centerZoom()` is called, which
returns immediately outside a browser (`typeof document === 'undefined'`),
so it leaves the state unchanged. -/
def applyViewState (st : EState) (pan : Option (ℚ × ℚ)) (scal : Option ℚ) :
    EState :=
  let st1 := match pan with
    | some p => { st with root := (modifyAt st.root
        (fun g => { g with core := { g.core with panning := some p } }) st.path) }
    | none => st
  match scal with
  | some s => { st1 with root := (modifyAt st1.root
      (fun g => { g with core := { g.core with scaling := some s } }) st1.path) }
  | none => st1

/-- The shared tail of `load` from the `try` block on: instantiate subgraphs
(errors returned without restoring `readonly` — Editor.js lines 275-277),
apply the root graph, tear down on failure, then set the graph name, restore
`readonly`, replay the navigation path to the entry graph and apply the view
state.  Layout is skipped: the model runs with the `NoLayout` algorithm
(`layoutManager` is an external collaborator, spec section 4.5). -/
def loadBody (D : Document) (st : EState) (ro : Bool) (root : SGraph)
    (eidOpt : Option String) (pan : Option (ℚ × ℚ)) (scal : Option ℚ)
    (entryName : String) : JSOutcome (List String) × EState :=
  match instNodes D.subgraphs (fuelOf D) [] root.nodes with
  | none =>
    (.ret ["TypeError: Cannot read properties of undefined (reading filter)"],
     { cleanEditorE st with readonly := ro })
  | some (ns', errs, _) =>
    if errs ≠ [] then (.ret errs, st)
    else
      let root' : SGraph :=
        { core := { root.core with inputs := [], outputs := [] }, nodes := ns' }
      let loadErrs := graphLoadErrors root'
      let st1 : EState := { st with root := root', path := [] }
      if loadErrs ≠ [] ∧ devGraphMode = false then
        (.ret loadErrs, { cleanEditorE st1 with readonly := ro })
      else
        let st2 : EState := { st1 with graphName := some entryName, readonly := ro }
        let st3opt := match eidOpt with
          | some eid => switchAlong st2 (dfsNodes eid st2.root.nodes [])
          | none => some st2
        match st3opt with
        | none =>
          (.thrown "TypeError in switchGraph", st2)
        | some st3 => (.ret loadErrs, applyViewState st3 pan scal)

/-- `PipelineManagerEditor.load(state)`: unregister stale graphs, set the
editor read-only, resolve root and entry graphs (multi-graph form) and run
the load body.  A `.thrown` outcome models the `async` function rejecting —
the accesses `state.graph.entryGraph` and `state.subgraphs.forEach` happen
before the `try` block, so a document without those fields escapes as a
`TypeError` rejection. -/
def loadE (D : Document) (st0 : EState) : JSOutcome (List String) × EState :=
  let stu := unregisterGraphsE st0
  let ro := stu.readonly
  let st : EState := { stu with readonly := true }
  match D.graph with
  | none =>
    (.thrown "TypeError: Cannot read properties of undefined (reading entryGraph)",
     st)
  | some (.entry eid) =>
    match D.subgraphs with
    | none =>
      (.thrown "TypeError: Cannot read properties of undefined (reading forEach)",
       st)
    | some subs =>
      let used := usedSubgraphIds subs
      match subs.find? (fun g => !(used.contains g.core.id)) with
      | none =>
        (.ret ["No root graph found. Make sure you graph does not have any reccurency"],
         st)
      | some root =>
        match subs.find? (fun g => g.core.id = eid) with
        | none => (.ret ["No entry graph found of id " ++ eid], st)
        | some entry =>
          loadBody D st ro root (some eid) entry.core.panning entry.core.scaling
            entry.core.name
  | some (.single g) => loadBody D st ro g none g.core.panning g.core.scaling
      g.core.name

/-- `EditorManager.loadDataflow(dataflow)`: the `try`/`catch` around the call
cannot intercept a rejection of the `async` `load` (an `async` function never
throws synchronously), so the embedding is the call itself; a `.thrown`
outcome reaches the caller. -/
def loadDataflowE (D : Document) (st : EState) :
    JSOutcome (List String) × EState :=
  loadE D st

/-! ### save (Editor.js lines 85-136) -/

/-- Pop every stacked frame (`stackCopy.forEach(this.backFromSubgraph)`). -/
def popAll : Nat → EState → Option EState
  | 0, st => some st
  | k + 1, st =>
    match backFromSubgraphE st with
    | none => none
    | some st' => popAll k st'

/-- Re-enter the stacked subgraphs in order
(`stackCopy.forEach(([_, subgraphNode]) => this.switchToSubgraph(...))`). -/
def pushAll : List String → EState → Option EState
  | [], st => some st
  | nid :: rest, st =>
    match switchToSubgraphE st nid with
    | none => none
    | some st' => pushAll rest st'

/-- `PipelineManagerEditor.save()`: record the active graph id, pop the whole
subgraph stack (reconciling interfaces level by level), serialize the root
graph (`this.graph.save()` — baklava serialization is the identity on the
tree model), collect every `graphState` into the flat `subgraphs` list while
stripping it from the nodes, delete the root graph's `inputs`/`outputs`,
package the single- or multi-graph document and re-enter the stacked
subgraphs.  `none` models a `TypeError` escaping `save`. -/
def saveE (st : EState) : Option (Document × EState) :=
  match activeOf st with
  | none => none
  | some ag =>
    let currentGraphId := ag.core.id
    let frames := st.path
    match popAll st.path.length st with
    | none => none
    | some st1 =>
      match activeOf st1 with
      | none => none
      | some g =>
        match stripNodes g.nodes with
        | none => none
        | some (ns', tmpl) =>
          let rootSer : SGraph :=
            { core := { g.core with inputs := [], outputs := [] }, nodes := ns' }
          match pushAll frames st1 with
          | none => none
          | some st2 =>
            if tmpl.length = 0 then
              some (⟨some (.single rootSer), none⟩, st2)
            else
              some (⟨some (.entry currentGraphId), some (tmpl ++ [rootSer])⟩, st2)

/-! ### Inliner (Editor.js `unwrapSubgraph`, `findInterface`) -/

/-- A resolved connection endpoint stored in the `subgraphNodeToNode` map
(`{nodeId, id}`). -/
structure ResolvedEnd where
  nodeId : String
  id : String
deriving DecidableEq, Repr

/-- `findInterface(nodeId, intfId)` (the two-argument use in
`unwrapSubgraph`; the optional `subgraphNodeId` fallback is not passed
there): find the node, then an interface of it with the given id. -/
def findInterfaceIn (ns : List SNode) (nodeId intfId : String) : Option SIntf :=
  match findNode ns nodeId with
  | none => none
  | some n => (n.core.inputs ++ n.core.outputs).find? (fun i => i.id = intfId)

/-- The `subgraphNodeToNode` map of `unwrapSubgraph`: for each interface of
the subgraph-owning node, the internal interface reached by the subgraph
connection touching the matching boundary marker (inputs first try the
`from` side, then — for inouts — the `to` side; outputs use the `to`
side). -/
def buildBoundaryMap (node : SNode) (sg : SGraph) :
    List (String × ResolvedEnd) :=
  let conns := sg.core.connections
  let ins := node.core.inputs.filterMap (fun input =>
    match conns.find? (fun cn => some cn.cfrom.id = input.subgraphNodeId) with
    | some cn => some (input.id, ResolvedEnd.mk cn.cto.nodeId cn.cto.id)
    | none =>
      match conns.find? (fun cn => some cn.cto.id = input.subgraphNodeId) with
      | some cn => some (input.id, ResolvedEnd.mk cn.cfrom.nodeId cn.cfrom.id)
      | none => none)
  let outs := node.core.outputs.filterMap (fun output =>
    match conns.find? (fun cn => some cn.cto.id = output.subgraphNodeId) with
    | some cn => some (output.id, ResolvedEnd.mk cn.cfrom.nodeId cn.cfrom.id)
    | none => none)
  ins ++ outs

/-- `this.subgraphNodePositions[id] = pos` (JS object upsert). -/
def upsertPos (cache : List (String × (ℚ × ℚ))) (k : String) (v : ℚ × ℚ) :
    List (String × (ℚ × ℚ)) :=
  if cache.any (fun e => e.1 = k) then
    cache.map (fun e => if e.1 = k then (k, v) else e)
  else cache ++ [(k, v)]

/-- Sequence the positions of a node list (the JS `map((n) => n.position.x)`
crashes on a missing position; `none` models that). -/
def seqPositions : List SNode → Option (List (ℚ × ℚ))
  | [] => some []
  | n :: ns =>
    match n.core.position, seqPositions ns with
    | some p, some ps => some (p :: ps)
    | _, _ => none

/-- The non-marker nodes of a subgraph (the `subgraphNodes` of
`unwrapSubgraph`). -/
def subgraphNodesOf (sg : SGraph) : List SNode :=
  sg.nodes.filter (fun n => !(isMarkerType n.core.type))

/-- The centroid of the non-marker subgraph nodes (`meanX`/`meanY` in
`unwrapSubgraph`).  The division `sum / subgraphNodes.length` carries no
guard in the source; with zero non-marker nodes it is JavaScript `0/0`,
i.e. `NaN`, modelled as `none` (as is a missing position, which would be a
`TypeError` on `n.position.x`). -/
def centroidOf (sg : SGraph) : Option (ℚ × ℚ) :=
  match seqPositions (subgraphNodesOf sg) with
  | none => none
  | some ps =>
    if (subgraphNodesOf sg).length = 0 then none
    else some ((ps.map Prod.fst).sum / ((subgraphNodesOf sg).length : ℚ),
               (ps.map Prod.snd).sum / ((subgraphNodesOf sg).length : ℚ))

/-- One iteration of the connection-recreation loop of `unwrapSubgraph`:
skip connections touching an open boundary interface (name `Connection`),
resolve both endpoints through the `subgraphNodeToNode` map, and add the
connection only when `findInterface` resolves both endpoints in the current
graph. -/
def unwrapConnStep (bmap : List (String × ResolvedEnd)) (g : SGraph)
    (cn : SConn) : SGraph :=
  if cn.cfrom.name = "Connection" ∨ cn.cto.name = "Connection" then g
  else
    let rf := match bmap.find? (fun e => e.1 = cn.cfrom.id) with
      | some e => e.2
      | none => ResolvedEnd.mk cn.cfrom.nodeId cn.cfrom.id
    let rt := match bmap.find? (fun e => e.1 = cn.cto.id) with
      | some e => e.2
      | none => ResolvedEnd.mk cn.cto.nodeId cn.cto.id
    match findInterfaceIn g.nodes rf.nodeId rf.id,
        findInterfaceIn g.nodes rt.nodeId rt.id with
    | some fi, some ti =>
      let newConn := SConn.mk (ConnEnd.mk rf.id rf.nodeId fi.name)
        (ConnEnd.mk rt.id rt.nodeId ti.name)
      let conns' := g.core.connections ++ [newConn]
      { g with core := { g.core with connections := conns' } }
    | _, _ => g

/-- `unwrapSubgraph(node)` on the displayed graph `pg`: map boundary
interfaces to internal endpoints, copy the non-marker subgraph nodes into
the parent translated so their centroid lands on the removed node's
position, remove the subgraph-owning node with its connections, and re-add
every internal/external connection whose resolved endpoints both exist
(`findInterface`) and whose ends are not the synthetic open boundary
interfaces (name `Connection`).  The selection and interface connection
counters are rendering state and not modelled.  The centroid division has no
guard: with zero non-marker nodes the mean is `0/0`, modelled as `none`
(NaN); `none` as overall result models a `TypeError` (missing node,
subgraph or position). -/
def unwrapSubgraph (pg : SGraph) (cache : List (String × (ℚ × ℚ)))
    (nid : String) : Option (SGraph × List (String × (ℚ × ℚ))) :=
  match findNode pg.nodes nid with
  | none => none
  | some node =>
    match node.graphState with
    | none => none
    | some sg =>
      let bmap := buildBoundaryMap node sg
      let subgraphNodes := subgraphNodesOf sg
      match seqPositions subgraphNodes with
      | none => none
      | some ps =>
        let cnt := subgraphNodes.length
        let mean : Option (ℚ × ℚ) := centroidOf sg
        let addStep : Option (List SNode × List (String × (ℚ × ℚ))) :=
          if cnt = 0 then some ([], cache)
          else
            match node.core.position, mean with
            | some npos, some m =>
              let pairs := subgraphNodes.zip ps
              let cache' := pairs.foldl
                (fun c pr => upsertPos c pr.1.core.id pr.2) cache
              let added := pairs.map (fun pr =>
                match pr.1 with
                | .mk c gs =>
                  let newPos := (pr.2.1 + npos.1 - m.1, pr.2.2 + npos.2 - m.2)
                  SNode.mk { c with position := some newPos } gs)
              some (added, cache')
            | _, _ => none
        match addStep with
        | none => none
        | some (added, cache') =>
          let pg1 : SGraph := { pg with nodes := pg.nodes ++ added }
          let subgraphNodeConnections := pg.core.connections.filter
            (fun c => c.cfrom.nodeId = nid ∨ c.cto.nodeId = nid)
          let remainingConns := pg1.core.connections.filter
            (fun c => ¬(c.cfrom.nodeId = nid ∨ c.cto.nodeId = nid))
          let pg2 : SGraph :=
            { core := { pg1.core with connections := remainingConns },
              nodes := pg1.nodes.filter (fun n => ¬(n.core.id = nid)) }
          let pgFinal := (sg.core.connections ++ subgraphNodeConnections).foldl
            (unwrapConnStep bmap) pg2
          some (pgFinal, cache')

/-! ### Specification manager (EditorManager.js) -/

/-- A node entry of a specification (`{name, category, inputs, outputs,
properties}`; the interface/property payload is consumed by the external
`NodeFactory` and does not influence the registry bookkeeping the claims
are about). -/
structure SpecNode where
  name : String
  category : String
deriving DecidableEq, Repr

/-- Specification metadata (`{readonly?, allowLoopbacks?, interfaces?}`). -/
structure SpecMeta where
  readonlyFlag : Option Bool
  allowLoopbacks : Option Bool
  interfaces : Option (List (String × String))
deriving DecidableEq, Repr

/-- A specification document. -/
structure Specification where
  nodes : List SpecNode
  metadata : SpecMeta
deriving DecidableEq, Repr

/-- A node-type registry entry (`{category, title}`; the constructor itself
is behaviour, not state). -/
structure NodeTypeEntry where
  category : String
  title : String
deriving DecidableEq, Repr

/-- State of the `EditorManager` and the editor pieces it manages: the
node-type registry (`editor._nodeTypes`, a `Map` keyed by type name), the
registered subgraph template ids (`editor._graphTemplates`), the injected
interface-color stylesheet (`document.getElementById('interfaces-style')`),
the `specificationLoaded` flag, the editor flags, and the current graph
content (node/connection ids). -/
structure MgrState where
  nodeTypes : List (String × NodeTypeEntry)
  graphTemplates : List String
  interfacesStyle : Option (List (String × String))
  specificationLoaded : Bool
  editorReadonly : Bool
  editorAllowLoopbacks : Bool
  graphNodeIds : List String
  graphConnectionIds : List String
deriving DecidableEq, Repr

/-- `editor.registerNodeType` (Map.set semantics on the type name). -/
def registerNodeTypeE (m : MgrState) (tyName category title : String) :
    MgrState :=
  { m with nodeTypes :=
      if m.nodeTypes.any (fun e => e.1 = tyName) then
        m.nodeTypes.map (fun e =>
          if e.1 = tyName then (tyName, NodeTypeEntry.mk category title) else e)
      else m.nodeTypes ++ [(tyName, NodeTypeEntry.mk category title)] }

/-- `EditorManager.cleanEditor()`: remove all connections and nodes of the
current graph, unregister every node type, and remove the interfaces
stylesheet.  Registered subgraph templates are not touched. -/
def cleanEditorMgr (m : MgrState) : MgrState :=
  { m with
    graphConnectionIds := [],
    graphNodeIds := [],
    nodeTypes := [],
    interfacesStyle := none }

/-- `updateInterfacesStyle(metadata)`: inject a stylesheet when the metadata
carries an `interfaces` color map. -/
def updateInterfacesStyleE (meta : SpecMeta) (m : MgrState) : MgrState :=
  match meta.interfaces with
  | some l => { m with interfacesStyle := some l }
  | none => m

/-- `EditorManager.updateEditorSpecification(spec)`: tear down the previous
specification when one is loaded, inject the interface style, register one
node type per specification entry (`NodeFactory` names the type after the
node), and apply the metadata flags.  The interface-type registration on
`BaklavaInterfaceTypes` is external state not owned by the manager. -/
def updateEditorSpecificationE (spec : Specification) (m : MgrState) :
    MgrState :=
  let m1 := if m.specificationLoaded then cleanEditorMgr m else m
  let m2 := updateInterfacesStyleE spec.metadata m1
  let m3 := spec.nodes.foldl
    (fun acc nd => registerNodeTypeE acc nd.name nd.category nd.name) m2
  { m3 with
    editorReadonly := spec.metadata.readonlyFlag.getD false,
    editorAllowLoopbacks := spec.metadata.allowLoopbacks.getD false,
    specificationLoaded := true }

/-! ### Well-formedness and consistency predicates

The reconciliation and round-trip theorems hold on structurally valid
documents (spec section 3 invariants): boundary keys unique and present,
node interfaces in sync with the referenced template's boundary set, node
ids unique per graph, template ids unique, serialized nodes free of live
`graphState`. -/

mutual
/-- Nesting depth of a node (1 for a plain node); bounds the instantiation
fuel needed to rebuild a saved tree. -/
def depthNode : SNode → Nat
  | .mk _ none => 1
  | .mk _ (some (_, gns)) => 1 + depthNodes gns

/-- Nesting depth of a node list. -/
def depthNodes : List SNode → Nat
  | [] => 0
  | n :: ns => max (depthNode n) (depthNodes ns)
end

/-- The boundary interfaces of a subgraph all carry a `subgraphNodeId`, and
those keys are unique across the joint input/output boundary set (spec
invariant 5). -/
def boundaryKeysOk (ns : List SNode) : Bool :=
  let bs := boundaryInputsOf ns ++ boundaryOutputsOf ns
  bs.all (fun b => b.subgraphNodeId.isSome) &&
    decide ((bs.map keyOf).Nodup)

mutual
/-- Deep consistency of a live node: a node without live graph state has no
subgraph reference (otherwise `save` crashes on it), and a node with one has
its interface lists coinciding with the subgraph's boundary sets (as
`updateInterfaces` would recompute them), the subgraph's recorded boundary
lists agreeing, keys well-formed, node ids inside the subgraph unique, and
the subgraph's nodes recursively consistent. -/
def consDeepN : SNode → Bool
  | .mk c none => c.subgraph.isNone
  | .mk c (some (gc, gns)) =>
    decide (c.inputs = boundaryInputsOf gns) &&
    decide (c.outputs = boundaryOutputsOf gns) &&
    decide (gc.inputs = boundaryInputsOf gns) &&
    decide (gc.outputs = boundaryOutputsOf gns) &&
    boundaryKeysOk gns &&
    decide ((gns.map (fun n => n.core.id)).Nodup) &&
    consDeepNs gns

/-- Deep consistency of a node list. -/
def consDeepNs : List SNode → Bool
  | [] => true
  | n :: ns => consDeepN n && consDeepNs ns
end

/-- Deep consistency of a graph: unique node ids plus consistent nodes. -/
def consDeepG (g : SGraph) : Bool :=
  decide ((g.nodes.map (fun n => n.core.id)).Nodup) && consDeepNs g.nodes

/-- Document-side consistency of one serialized node: if it references a
template, exactly one template carries that id and the node's interfaces
match that template's boundary sets. -/
def ownerOK (subs : List SGraph) (c : NodeCore) : Bool :=
  match c.subgraph with
  | none => true
  | some sid =>
    match subs.filter (fun t => t.core.id = sid) with
    | [t] =>
      decide (c.inputs = boundaryInputsOf t.nodes) &&
      decide (c.outputs = boundaryOutputsOf t.nodes) &&
      boundaryKeysOk t.nodes
    | _ => false

/-- A serialized graph is flat-well-formed with respect to a template list:
unique node ids, no live `graphState` on any node, and every
template-referencing node consistent with its template. -/
def flatOK (subs : List SGraph) (g : SGraph) : Bool :=
  decide ((g.nodes.map (fun n => n.core.id)).Nodup) &&
  g.nodes.all (fun n => n.graphState.isNone && ownerOK subs n.core)

/-- A serialized template is well-formed: flat-well-formed and its recorded
boundary lists agree with its marker nodes. -/
def templateOK (subs : List SGraph) (t : SGraph) : Bool :=
  flatOK subs t &&
  decide (t.core.inputs = boundaryInputsOf t.nodes) &&
  decide (t.core.outputs = boundaryOutputsOf t.nodes)

/-- Structural validity of a dataflow document (spec section 3 invariants
1-5 plus the serialization rule that documents reference templates by id
only). -/
def structValidB (D : Document) : Bool :=
  match D.graph with
  | some (.entry _) =>
    match D.subgraphs with
    | some subs =>
      subs.all (templateOK subs) &&
      decide ((subs.map (fun g => g.core.id)).Nodup)
    | none => false
  | some (.single g) =>
    let subs := D.subgraphs.getD []
    flatOK subs g && subs.all (templateOK subs) &&
    decide (((g.core.id :: subs.map (fun t => t.core.id))).Nodup) &&
    !((usedSubgraphIds (g :: subs)).contains g.core.id)
  | none => false

/-! ### Rebuild machinery: auxiliary forms used to reason about the
load/save round trip -/

mutual
/-- Linkage invariant of an instantiated tree: a node carries live graph
state exactly when it references a subgraph, and then the referenced id is
the live graph's id (this is how `recurrentSubgraphLoad` attaches states). -/
def linkedN : SNode → Bool
  | .mk c none => c.subgraph.isNone
  | .mk c (some (gc, gns)) => decide (c.subgraph = some gc.id) && linkedNs gns

/-- Linkage invariant over a node list. -/
def linkedNs : List SNode → Bool
  | [] => true
  | n :: ns => linkedN n && linkedNs ns
end

/-- Sequential (cons-recursive) form of the instantiation fold of
`recurrentSubgraphLoad` over a node list; equal to the `foldl` the code
uses (`instFold_eq`). -/
def instSeq (subs : Option (List SGraph)) (fuel : Nat) :
    List String → List SNode → Option (List SNode × List String × List String)
  | used, [] => some ([], [], used)
  | used, n :: ns =>
    match instNode subs fuel used n with
    | none => none
    | some (n', e1, u1) =>
      match instSeq subs fuel u1 ns with
      | none => none
      | some (ns', e2, u2) => some (n' :: ns', e1 ++ e2, u2)

/-- `pathOk` phrased on a node list (a graph's path validity only depends on
its nodes). -/
def pathN : List SNode → List String → Bool
  | _, [] => true
  | ns, nid :: rest =>
    decide ((ns.map (fun n => n.core.id)).Nodup) &&
    (match findNode ns nid with
     | none => false
     | some n =>
       match n.graphState with
       | none => false
       | some sg => pathN sg.nodes rest)

/-- `descend` phrased on a node list, for nonempty paths. -/
def descendN : List SNode → List String → Option SGraph
  | _, [] => none
  | ns, nid :: rest =>
    match findNode ns nid with
    | none => none
    | some n =>
      match n.graphState with
      | none => none
      | some sg =>
        match rest with
        | [] => some sg
        | _ => descendN sg.nodes rest

/-! ### Concrete documents and states used by witnesses and counterexamples -/

/-- A graph with the given id and name and no content. -/
def mtGraph (gid nm : String) : SGraph :=
  ⟨⟨gid, nm, [], [], [], none, none⟩, []⟩

/-- A fresh editor state (empty start graph, nothing stacked). -/
def initE : EState :=
  ⟨mtGraph "init" "init", [], false, none, []⟩

/-- A plain serialized node with a position. -/
def plainNode (nid ty : String) : SNode :=
  .mk ⟨nid, nid, ty, none, [], [], none, some (1, 2)⟩ none

/-- A serialized subgraph-owning node (no live graph state yet). -/
def ownNode (nid sid : String) : SNode :=
  .mk ⟨nid, nid, "graphnode", some sid, [], [], none, some (0, 0)⟩ none

/-- A multi-graph document with two unreferenced templates. -/
def docTwoRoots : Document :=
  ⟨some (.entry "G1"), some [mtGraph "G1" "g1", mtGraph "G2" "g2"]⟩

/-- A multi-graph document whose only template references itself, so no
unreferenced template exists. -/
def docSelfRef : Document :=
  ⟨some (.entry "A"),
   some [⟨⟨"A", "a", [], [], [], none, none⟩, [ownNode "L" "A"]⟩]⟩

/-- A multi-graph document with one template, one subgraph-owning node and
the entry graph inside the subgraph. -/
def docNest : Document :=
  ⟨some (.entry "T"),
   some [⟨⟨"T", "tname", [], [], [], none, none⟩, [plainNode "X" "A"]⟩,
         ⟨⟨"R", "rname", [], [], [], none, none⟩, [ownNode "N" "T"]⟩]⟩

/-! Pass-through inlining example: a subgraph whose single boundary input is
wired directly to its single boundary output, owned by a node with one
external incoming and one external outgoing connection. -/

/-- Boundary input interface of the pass-through subgraph. -/
def bIn : SIntf := ⟨"k_in", "in", some "k_in"⟩

/-- Boundary output interface of the pass-through subgraph. -/
def bOut : SIntf := ⟨"k_out", "out", some "k_out"⟩

/-- The input boundary marker node. -/
def markerIn : SNode :=
  .mk ⟨"MI", "in", SUBGRAPH_INPUT_NODE_TYPE, none, [], [], some bIn, none⟩ none

/-- The output boundary marker node. -/
def markerOut : SNode :=
  .mk ⟨"MO", "out", SUBGRAPH_OUTPUT_NODE_TYPE, none, [], [], some bOut, none⟩ none

/-- The single internal connection: input marker wired straight to the
output marker (marker interfaces carry the synthetic name `Connection`). -/
def passConn : SConn := ⟨⟨"k_in", "MI", "Connection"⟩, ⟨"k_out", "MO", "Connection"⟩⟩

/-- The pass-through subgraph. -/
def passSg : SGraph :=
  ⟨⟨"S", "sub", [passConn], [bIn], [bOut], none, none⟩, [markerIn, markerOut]⟩

/-- The subgraph-owning node with its live pass-through subgraph. -/
def ownN : SNode :=
  .mk ⟨"N", "N", "graphnode", some "S",
    [⟨"ni", "in", some "k_in"⟩], [⟨"no", "out", some "k_out"⟩], none,
    some (10, 10)⟩
  (some (passSg.core, passSg.nodes))

/-- External producer node `A`. -/
def nodeA : SNode :=
  .mk ⟨"A", "A", "T", none, [], [⟨"ao", "aout", none⟩], none, some (0, 0)⟩ none

/-- External consumer node `B`. -/
def nodeB : SNode :=
  .mk ⟨"B", "B", "T", none, [⟨"bi", "bin", none⟩], [], none, some (20, 0)⟩ none

/-- External connection into the subgraph-owning node. -/
def extIn : SConn := ⟨⟨"ao", "A", "aout"⟩, ⟨"ni", "N", "in"⟩⟩

/-- External connection out of the subgraph-owning node. -/
def extOut : SConn := ⟨⟨"no", "N", "out"⟩, ⟨"bi", "B", "bin"⟩⟩

/-- The parent graph holding `A`, `B` and the subgraph-owning node. -/
def parentP : SGraph :=
  ⟨⟨"P", "parent", [extIn, extOut], [], [], none, none⟩, [nodeA, nodeB, ownN]⟩

/-! ### Claim C2 — root detection on multi-graph documents -/

/-- C2, counterexample: the claim says a multi-graph document with more than
one un-referenced template fails load with a root-detection error; on
`docTwoRoots` (two unreferenced templates) `load` returns the empty error
list and applies the first template as root. -/
theorem c2_counterexample :
    (loadE docTwoRoots initE).1 = .ret [] ∧
    (loadE docTwoRoots initE).2.root.core.id = "G1" := ⟨rfl, rfl⟩

/-- C2, amended: only the zero-candidate case fails.  When every template id
is referenced by some node, `load` returns exactly the root-detection error,
leaves the pre-existing graph content untouched (only the graph registry and
navigation stack were cleared by `unregisterGraphs`) and — as the code
actually behaves — leaves the readonly flag set. -/
theorem c2_root_detection_amended (eid : String) (subs : List SGraph)
    (st : EState)
    (hall : ∀ g ∈ subs, g.core.id ∈ usedSubgraphIds subs) :
    loadE ⟨some (.entry eid), some subs⟩ st =
      (.ret ["No root graph found. Make sure you graph does not have any reccurency"],
       { unregisterGraphsE st with readonly := true }) := by
  have hfind : subs.find? (fun g => !((usedSubgraphIds subs).contains g.core.id))
      = none := by
    rw [List.find?_eq_none]
    intro g hg
    simp only [Bool.not_eq_true', Bool.not_eq_false]
    exact List.elem_eq_true_of_mem (hall g hg)
  simp only [loadE, hfind]

/-- C2, witness for the amended theorem on the self-referencing document. -/
theorem c2_amended_witness :
    loadE docSelfRef initE =
      (.ret ["No root graph found. Make sure you graph does not have any reccurency"],
       { unregisterGraphsE initE with readonly := true }) :=
  c2_root_detection_amended "A" _ initE (by decide)

/-! ### Claim C3 — load contract: error lists, never throwing -/

/-- C3: `load` accesses `state.graph.entryGraph` before its `try` block, so a
document without a `graph` object makes the `async` function reject with a
`TypeError` instead of returning an error list, and the `try`/`catch` in
`loadDataflow` cannot intercept the rejection (an `async` callee never throws
synchronously), so the rejection reaches `loadDataflow`'s caller. -/
theorem c3_load_rejects_on_missing_graph :
    (loadDataflowE ⟨none, none⟩ initE).1 =
      .thrown "TypeError: Cannot read properties of undefined (reading entryGraph)" ∧
    (loadE ⟨some (.entry "x"), none⟩ initE).1 =
      .thrown "TypeError: Cannot read properties of undefined (reading forEach)" :=
  ⟨rfl, rfl⟩

/-! ### Claim C4 — readonly flag restoration -/

/-- C4: on the root-detection failure path `load` returns without restoring
the readonly flag: starting from a non-readonly editor, after the failed
load the editor is still readonly. -/
theorem c4_readonly_left_set :
    initE.readonly = false ∧
    (loadE ⟨some (.entry "x"), some []⟩ initE).1 =
      .ret ["No root graph found. Make sure you graph does not have any reccurency"] ∧
    (loadE ⟨some (.entry "x"), some []⟩ initE).2.readonly = true :=
  ⟨rfl, rfl, rfl⟩

/-! ### Claim C8 — pass-through subgraph inlining -/

/-- C8: inlining the pass-through subgraph drops both rewired external
connections (their mapped endpoints are the boundary-marker interfaces,
which do not exist in the parent graph), so no connection joining `A` and
`B` is created; the subgraph-owning node itself is removed. -/
theorem c8_passthrough_inlining_drops_connection :
    ∃ pr, unwrapSubgraph parentP [] "N" = some pr ∧
      pr.1.nodes.map (fun n => n.core.id) = ["A", "B"] ∧
      pr.1.core.connections = [] :=
  ⟨_, rfl, rfl, rfl⟩

/-! ### Claim C9 — specification replacement -/

/-- Registering one node type preserves the other manager fields. -/
theorem registerNodeTypeE_fields (m : MgrState) (ty c t : String) :
    (registerNodeTypeE m ty c t).graphTemplates = m.graphTemplates ∧
    (registerNodeTypeE m ty c t).interfacesStyle = m.interfacesStyle ∧
    (registerNodeTypeE m ty c t).graphNodeIds = m.graphNodeIds ∧
    (registerNodeTypeE m ty c t).graphConnectionIds = m.graphConnectionIds := by
  exact ⟨rfl, rfl, rfl, rfl⟩

/-- Registering one node type adds at most the registered key. -/
theorem registerNodeTypeE_keys (m : MgrState) (ty c t : String) :
    ∀ k ∈ (registerNodeTypeE m ty c t).nodeTypes.map Prod.fst,
      k ∈ m.nodeTypes.map Prod.fst ∨ k = ty := by
  intro k hk
  simp only [registerNodeTypeE] at hk
  by_cases h : m.nodeTypes.any (fun e => e.1 = ty)
  · rw [if_pos h] at hk
    simp only [List.map_map, List.mem_map, Function.comp] at hk
    obtain ⟨e, he, hke⟩ := hk
    by_cases h2 : e.1 = ty
    · right
      rw [← hke]
      simp [h2]
    · left
      rw [← hke]
      simp only [if_neg h2]
      exact List.mem_map_of_mem Prod.fst he
  · rw [if_neg h] at hk
    simp only [List.map_append, List.mem_append, List.map_cons, List.map_nil,
      List.mem_cons] at hk
    rcases hk with hk | hk
    · exact Or.inl hk
    · simp only [List.not_mem_nil, or_false] at hk
      exact Or.inr hk

/-- The node-type registration loop of `updateEditorSpecification` preserves
the other manager fields. -/
theorem foldl_register_fields (nds : List SpecNode) :
    ∀ m : MgrState,
      ((nds.foldl (fun acc nd => registerNodeTypeE acc nd.name nd.category nd.name)
        m)).graphTemplates = m.graphTemplates ∧
      ((nds.foldl (fun acc nd => registerNodeTypeE acc nd.name nd.category nd.name)
        m)).interfacesStyle = m.interfacesStyle ∧
      ((nds.foldl (fun acc nd => registerNodeTypeE acc nd.name nd.category nd.name)
        m)).graphNodeIds = m.graphNodeIds ∧
      ((nds.foldl (fun acc nd => registerNodeTypeE acc nd.name nd.category nd.name)
        m)).graphConnectionIds = m.graphConnectionIds := by
  induction nds with
  | nil => intro m; exact ⟨rfl, rfl, rfl, rfl⟩
  | cons nd nds ih =>
    intro m
    simp only [List.foldl_cons]
    obtain ⟨h1, h2, h3, h4⟩ := ih (registerNodeTypeE m nd.name nd.category nd.name)
    obtain ⟨g1, g2, g3, g4⟩ := registerNodeTypeE_fields m nd.name nd.category nd.name
    exact ⟨h1.trans g1, h2.trans g2, h3.trans g3, h4.trans g4⟩

/-- The node-type registration loop introduces only keys named by the
specification. -/
theorem foldl_register_keys (nds : List SpecNode) :
    ∀ m : MgrState,
      ∀ k ∈ ((nds.foldl (fun acc nd => registerNodeTypeE acc nd.name nd.category nd.name)
        m)).nodeTypes.map Prod.fst,
        k ∈ m.nodeTypes.map Prod.fst ∨ k ∈ nds.map SpecNode.name := by
  induction nds with
  | nil => intro m k hk; exact Or.inl hk
  | cons nd nds ih =>
    intro m k hk
    simp only [List.foldl_cons] at hk
    rcases ih (registerNodeTypeE m nd.name nd.category nd.name) k hk with h | h
    · rcases registerNodeTypeE_keys m nd.name nd.category nd.name k h with h2 | h2
      · exact Or.inl h2
      · right
        simp [h2]
    · right
      simp [h]

/-- C9, counterexample: with a specification already active and one subgraph
template registered, applying a new specification leaves the template
registered — the subgraph template of the first specification survives into
the second. -/
theorem c9_counterexample :
    (updateEditorSpecificationE ⟨[⟨"New", "cat2"⟩], ⟨none, none, none⟩⟩
      ⟨[("Old", ⟨"cat", "Old"⟩)], ["T1"], some [("t1", "red")], true, false,
        false, ["n1"], ["c1"]⟩).graphTemplates = ["T1"] := rfl

/-- C9, amended: with a specification already active,
`updateEditorSpecification` removes the node-type registry (every surviving
key is named by the new specification), the current graph content, and the
injected interface stylesheet (replaced by exactly the new specification's
color map), but the registered subgraph templates are not removed. -/
theorem c9_teardown_amended (spec : Specification) (m : MgrState)
    (h : m.specificationLoaded = true) :
    (∀ k ∈ (updateEditorSpecificationE spec m).nodeTypes.map Prod.fst,
      k ∈ spec.nodes.map SpecNode.name) ∧
    (updateEditorSpecificationE spec m).interfacesStyle = spec.metadata.interfaces ∧
    (updateEditorSpecificationE spec m).graphNodeIds = [] ∧
    (updateEditorSpecificationE spec m).graphConnectionIds = [] ∧
    (updateEditorSpecificationE spec m).graphTemplates = m.graphTemplates := by
  simp only [updateEditorSpecificationE, h, if_pos]
  set m2 := updateInterfacesStyleE spec.metadata (cleanEditorMgr m) with hm2
  have hm2types : m2.nodeTypes = [] := by
    simp only [hm2, updateInterfacesStyleE]
    cases spec.metadata.interfaces <;> simp [cleanEditorMgr]
  have hm2style : m2.interfacesStyle = spec.metadata.interfaces := by
    simp only [hm2, updateInterfacesStyleE]
    cases hi : spec.metadata.interfaces <;> simp [cleanEditorMgr, hi]
  have hm2nodes : m2.graphNodeIds = [] := by
    simp only [hm2, updateInterfacesStyleE]
    cases spec.metadata.interfaces <;> simp [cleanEditorMgr]
  have hm2conns : m2.graphConnectionIds = [] := by
    simp only [hm2, updateInterfacesStyleE]
    cases spec.metadata.interfaces <;> simp [cleanEditorMgr]
  have hm2tmpl : m2.graphTemplates = m.graphTemplates := by
    simp only [hm2, updateInterfacesStyleE]
    cases spec.metadata.interfaces <;> simp [cleanEditorMgr]
  obtain ⟨f1, f2, f3, f4⟩ := foldl_register_fields spec.nodes m2
  refine ⟨?_, ?_, ?_, ?_, ?_⟩
  · intro k hk
    rcases foldl_register_keys spec.nodes m2 k hk with h2 | h2
    · rw [hm2types] at h2
      simp at h2
    · exact h2
  · exact f2.trans hm2style
  · exact f3.trans hm2nodes
  · exact f4.trans hm2conns
  · exact f1.trans hm2tmpl

/-- C9, witness for the amended theorem at a concrete pair of
specifications. -/
theorem c9_amended_witness :
    (∀ k ∈ (updateEditorSpecificationE ⟨[⟨"New", "cat2"⟩], ⟨none, none, none⟩⟩
        ⟨[("Old", ⟨"cat", "Old"⟩)], ["T1"], some [("t1", "red")], true, false,
          false, ["n1"], ["c1"]⟩).nodeTypes.map Prod.fst,
      k ∈ ([⟨"New", "cat2"⟩] : List SpecNode).map SpecNode.name) ∧
    (updateEditorSpecificationE ⟨[⟨"New", "cat2"⟩], ⟨none, none, none⟩⟩
      ⟨[("Old", ⟨"cat", "Old"⟩)], ["T1"], some [("t1", "red")], true, false,
        false, ["n1"], ["c1"]⟩).interfacesStyle = none ∧
    (updateEditorSpecificationE ⟨[⟨"New", "cat2"⟩], ⟨none, none, none⟩⟩
      ⟨[("Old", ⟨"cat", "Old"⟩)], ["T1"], some [("t1", "red")], true, false,
        false, ["n1"], ["c1"]⟩).graphTemplates = ["T1"] := by
  obtain ⟨k1, k2, k3, k4, k5⟩ := c9_teardown_amended
    ⟨[⟨"New", "cat2"⟩], ⟨none, none, none⟩⟩
    ⟨[("Old", ⟨"cat", "Old"⟩)], ["T1"], some [("t1", "red")], true, false,
      false, ["n1"], ["c1"]⟩ rfl
  exact ⟨k1, k2, k5⟩

/-! ### Claim C10 — centroid computation in the inliner -/

/-- A node list whose members all carry positions maps to a position list. -/
theorem seqPositions_isSome (l : List SNode)
    (h : l.all (fun n => (n.core.position).isSome) = true) :
    ∃ ps, seqPositions l = some ps := by
  induction l with
  | nil => exact ⟨[], rfl⟩
  | cons n ns ih =>
    simp only [List.all_cons, Bool.and_eq_true] at h
    obtain ⟨p, hp⟩ := Option.isSome_iff_exists.mp h.1
    obtain ⟨ps, hps⟩ := ih h.2
    exact ⟨p :: ps, by simp [seqPositions, hp, hps]⟩

/-- A fold whose step keeps the node list fixed keeps the node list fixed. -/
theorem foldl_preserves_nodes {f : SGraph → SConn → SGraph}
    (hf : ∀ g cn, (f g cn).nodes = g.nodes) :
    ∀ (l : List SConn) (g : SGraph), (l.foldl f g).nodes = g.nodes := by
  intro l
  induction l with
  | nil => intro g; rfl
  | cons cn l ih =>
    intro g
    rw [List.foldl_cons, ih, hf]

/-- The connection-recreation step never changes the node list. -/
theorem unwrapConnStep_nodes (bmap : List (String × ResolvedEnd))
    (g : SGraph) (cn : SConn) : (unwrapConnStep bmap g cn).nodes = g.nodes := by
  unfold unwrapConnStep
  split
  · rfl
  · split <;> split <;> (dsimp only; split <;> rfl)

/-- C10: with at least one non-marker node in the subgraph the centroid
divisor is its nonzero count, so the centroid and every copied node's
translated position are well-defined; the division carries no guard, so with
zero non-marker nodes it is `0/0` (`none`). -/
theorem c10_centroid_divisor (pg : SGraph) (cache : List (String × (ℚ × ℚ)))
    (nid : String) (node : SNode) (sg : SGraph)
    (hn : findNode pg.nodes nid = some node)
    (hgs : node.graphState = some sg)
    (hpos : (subgraphNodesOf sg).all (fun n => (n.core.position).isSome) = true)
    (hnpos : (node.core.position).isSome = true)
    (hne : (subgraphNodesOf sg).length ≠ 0) :
    (centroidOf sg).isSome = true ∧
    (∃ pr, unwrapSubgraph pg cache nid = some pr ∧
      ∀ n' ∈ pr.1.nodes, n' ∈ pg.nodes ∨ (n'.core.position).isSome = true) ∧
    (∀ sg' : SGraph, subgraphNodesOf sg' = [] → centroidOf sg' = none) := by
  obtain ⟨ps, hps⟩ := seqPositions_isSome _ hpos
  have hcent : centroidOf sg =
      some ((ps.map Prod.fst).sum / ((subgraphNodesOf sg).length : ℚ),
            (ps.map Prod.snd).sum / ((subgraphNodesOf sg).length : ℚ)) := by
    simp only [centroidOf, hps]
    rw [if_neg hne]
  obtain ⟨npos, hnp⟩ := Option.isSome_iff_exists.mp hnpos
  refine ⟨by simp [hcent], ?_, ?_⟩
  · simp only [unwrapSubgraph, hn, hgs, hps, hcent, hnp, if_neg hne]
    refine ⟨_, rfl, ?_⟩
    intro n' hn'
    rw [foldl_preserves_nodes (unwrapConnStep_nodes _)] at hn'
    simp only [List.mem_filter, List.mem_append] at hn'
    rcases hn'.1 with hmem | hmem
    · exact Or.inl hmem
    · right
      simp only [List.mem_map] at hmem
      obtain ⟨pr, _, hpr⟩ := hmem
      rcases pr with ⟨⟨c, gs⟩, p⟩
      · rw [← hpr]
        rfl
  · intro sg' h0
    simp [centroidOf, h0, seqPositions]

/-- A small subgraph with one positioned non-marker node, for the centroid
witness. -/
def wSg : SGraph := ⟨⟨"WS", "ws", [], [], [], none, none⟩, [plainNode "X" "A"]⟩

/-- Its subgraph-owning node. -/
def wOwn : SNode :=
  .mk ⟨"W", "W", "graphnode", some "WS", [], [], none, some (0, 0)⟩
    (some (wSg.core, wSg.nodes))

/-- Parent graph for the centroid witness. -/
def wParent : SGraph := ⟨⟨"WP", "wp", [], [], [], none, none⟩, [wOwn]⟩

/-- C10, witness at a subgraph with one non-marker node. -/
theorem c10_witness :
    (centroidOf wSg).isSome = true ∧
    (∃ pr, unwrapSubgraph wParent [] "W" = some pr ∧
      ∀ n' ∈ pr.1.nodes, n' ∈ wParent.nodes ∨ (n'.core.position).isSome = true) ∧
    (∀ sg' : SGraph, subgraphNodesOf sg' = [] → centroidOf sg' = none) :=
  c10_centroid_divisor wParent [] "W" wOwn wSg rfl rfl rfl rfl (by decide)

/-! ### Identity of the navigation round trip on consistent states -/

/-- The navigation path is well-formed in a graph: unique node ids at each
level and a subgraph-owning node with live graph state at each step. -/
def pathOk : SGraph → List String → Bool
  | _, [] => true
  | g, nid :: rest =>
    decide ((g.nodes.map (fun n => n.core.id)).Nodup) &&
    (match findNode g.nodes nid with
     | none => false
     | some n =>
       match n.graphState with
       | none => false
       | some sg => pathOk sg rest)

/-- Membership form of `consDeepNs`. -/
theorem consDeepNs_mem : ∀ (ns : List SNode), consDeepNs ns = true →
    ∀ n ∈ ns, consDeepN n = true := by
  intro ns
  induction ns with
  | nil => intro _ n hn; cases hn
  | cons m ms ih =>
    intro h n hn
    rw [consDeepNs, Bool.and_eq_true] at h
    rcases List.mem_cons.mp hn with hn | hn
    · subst hn; exact h.1
    · exact ih h.2 n hn

/-- The components of a consistent subgraph-owning node. -/
theorem consDeepN_some {c : NodeCore} {gc : GraphCore} {gns : List SNode}
    (h : consDeepN (.mk c (some (gc, gns))) = true) :
    c.inputs = boundaryInputsOf gns ∧ c.outputs = boundaryOutputsOf gns ∧
    gc.inputs = boundaryInputsOf gns ∧ gc.outputs = boundaryOutputsOf gns ∧
    boundaryKeysOk gns = true ∧ (gns.map (fun n => n.core.id)).Nodup ∧
    consDeepNs gns = true := by
  rw [consDeepN] at h
  simp only [Bool.and_eq_true, decide_eq_true_eq] at h
  exact ⟨h.1.1.1.1.1.1, h.1.1.1.1.1.2, h.1.1.1.1.2, h.1.1.1.2, h.1.1.2, h.1.2, h.2⟩

/-- With a unique-id node list, any member carrying the looked-up id is the
found node. -/
theorem findNode_unique {ns : List SNode} {nid : String} {n : SNode}
    (hf : findNode ns nid = some n)
    (hnd : (ns.map (fun m => m.core.id)).Nodup) :
    ∀ m ∈ ns, m.core.id = nid → m = n := by
  intro m hm hid
  have hmemn := List.mem_of_find?_eq_some hf
  have hidn : n.core.id = nid := by
    have := List.find?_some hf
    simpa using this
  exact List.inj_on_of_nodup_map hnd hm hmemn (by rw [hid, hidn])

/-- Rewriting along a well-formed path with a function that fixes the target
graph is the identity. -/
theorem modifyAt_of (p : List String) : ∀ (g h : SGraph) (f : SGraph → SGraph),
    pathOk g p = true → descend g p = some h → f h = h → modifyAt g f p = g := by
  induction p with
  | nil =>
    intro g h f _ hd hf
    rw [descend] at hd
    cases hd
    exact hf
  | cons nid rest ih =>
    intro g h f hp hd hf
    rw [pathOk, Bool.and_eq_true, decide_eq_true_eq] at hp
    obtain ⟨hnd, hp⟩ := hp
    rw [descend] at hd
    rcases hfn : findNode g.nodes nid with _ | n
    · simp only [hfn] at hd
      cases hd
    · simp only [hfn] at hd hp
      rcases hgs : n.graphState with _ | sg
      · simp only [hgs] at hd
        cases hd
      · simp only [hgs] at hd hp
        rw [modifyAt]
        have h' : ∀ m ∈ g.nodes, (if m.core.id = nid then
            match m with
            | SNode.mk c none => SNode.mk c none
            | SNode.mk c (some (gc, gns)) =>
              let sg' := modifyAt ⟨gc, gns⟩ f rest
              SNode.mk c (some (sg'.core, sg'.nodes))
          else m) = id m := by
          intro m hm
          by_cases hid : m.core.id = nid
          · rw [if_pos hid]
            have hmn : m = n := findNode_unique hfn hnd m hm hid
            subst hmn
            rcases m with ⟨c, _ | ⟨gc, gns⟩⟩
            · rw [SNode.graphState] at hgs
              cases hgs
            · rw [SNode.graphState] at hgs
              injection hgs with hgs
              subst hgs
              dsimp only [id]
              have hrec : modifyAt ⟨gc, gns⟩ f rest = ⟨gc, gns⟩ :=
                ih ⟨gc, gns⟩ h f hp hd hf
              rw [hrec]
          · rw [if_neg hid]
            rfl
        rw [List.map_congr_left h', List.map_id]

/-- Interfaces with present, pairwise distinct keys reconcile to themselves:
nothing is removed, each entry updates the identical interface in place, and
nothing is appended. -/
theorem reconcileSide_self (l : List SIntf)
    (hsome : l.all (fun b => b.subgraphNodeId.isSome) = true)
    (hnodup : (l.map keyOf).Nodup) :
    reconcileSide l l = l := by
  have hkey : ∀ b ∈ l, b.subgraphNodeId = some (keyOf b) := by
    intro b hb
    obtain ⟨s, hs⟩ := Option.isSome_iff_exists.mp (List.all_eq_true.mp hsome b hb)
    simp [keyOf, hs]
  have hone : ∀ b ∈ l,
      (if l.any (fun w => w.subgraphNodeId = some (keyOf b)) then
        l.map (fun w => if w.subgraphNodeId = some (keyOf b) then b else w)
      else l ++ [b]) = l := by
    intro b hb
    have hany : l.any (fun w => w.subgraphNodeId = some (keyOf b)) = true := by
      rw [List.any_eq_true]
      exact ⟨b, hb, by simp [hkey b hb]⟩
    rw [if_pos hany]
    have : ∀ w ∈ l,
        (if w.subgraphNodeId = some (keyOf b) then b else w) = id w := by
      intro w hw
      by_cases hwb : w.subgraphNodeId = some (keyOf b)
      · rw [if_pos hwb]
        have hkw : keyOf w = keyOf b := by
          rw [keyOf, hwb]
          rfl
        exact (List.inj_on_of_nodup_map hnodup hw hb hkw).symm ▸ rfl
      · rw [if_neg hwb]
        rfl
    rw [List.map_congr_left this, List.map_id]
  have hkept : l.filter (fun k =>
      match k.subgraphNodeId with
      | none => false
      | some s => (l.map keyOf).contains s) = l := by
    rw [List.filter_eq_self]
    intro b hb
    rw [hkey b hb]
    exact List.elem_eq_true_of_mem (List.mem_map_of_mem keyOf hb)
  have hfold : ∀ (res : List SIntf), (∀ b ∈ res, b ∈ l) →
      res.foldl (fun acc intf =>
        if acc.any (fun w => w.subgraphNodeId = some (keyOf intf)) then
          acc.map (fun w => if w.subgraphNodeId = some (keyOf intf) then intf else w)
        else acc ++ [intf]) l = l := by
    intro res
    induction res with
    | nil => intro _; rfl
    | cons b res ih =>
      intro hsub
      rw [List.foldl_cons, hone b (hsub b (List.mem_cons_self b res))]
      exact ih (fun x hx => hsub x (List.mem_cons_of_mem b hx))
  rw [reconcileSide]
  rw [hkept]
  exact hfold l (fun _ hb => hb)

/-- On a consistent subgraph-owning node, `backFromSubgraph`'s interface
reconciliation is the identity. -/
theorem reconcileNode_self (c : NodeCore) (gc : GraphCore) (gns : List SNode)
    (hcons : consDeepN (.mk c (some (gc, gns))) = true) :
    reconcileNode (.mk c (some (gc, gns))) = some (.mk c (some (gc, gns))) := by
  obtain ⟨h1, h2, h3, h4, h5, _, _⟩ := consDeepN_some hcons
  simp only [boundaryKeysOk, Bool.and_eq_true, decide_eq_true_eq] at h5
  obtain ⟨hall, hnd⟩ := h5
  rw [List.all_append, Bool.and_eq_true] at hall
  rw [List.map_append] at hnd
  have hri : reconcileSide c.inputs (boundaryInputsOf gns) = c.inputs := by
    rw [h1]
    exact reconcileSide_self _ hall.1 hnd.of_append_left
  have hro : reconcileSide c.outputs (boundaryOutputsOf gns) = c.outputs := by
    rw [h2]
    exact reconcileSide_self _ hall.2 hnd.of_append_right
  rw [reconcileNode]
  simp only [updateInterfacesG]
  rw [hri, hro, ← h3, ← h4]

/-- Case analysis on a marker node type. -/
theorem isMarkerType_cases {ty : String} (h : isMarkerType ty = true) :
    ty = SUBGRAPH_INPUT_NODE_TYPE ∨ ty = SUBGRAPH_OUTPUT_NODE_TYPE ∨
      ty = SUBGRAPH_INOUT_NODE_TYPE := by
  rw [isMarkerType, Bool.or_eq_true, Bool.or_eq_true] at h
  rcases h with (h | h) | h
  · exact Or.inl (of_decide_eq_true h)
  · exact Or.inr (Or.inl (of_decide_eq_true h))
  · exact Or.inr (Or.inr (of_decide_eq_true h))

/-- On a consistent subgraph-owning node, entering the subgraph propagates
only values the boundary markers already carry: the propagation is the
identity. -/
theorem propagateIntoGraph_self (c : NodeCore) (gc : GraphCore) (gns : List SNode)
    (hcons : consDeepN (.mk c (some (gc, gns))) = true) :
    propagateIntoGraph c ⟨gc, gns⟩ = ⟨gc, gns⟩ := by
  obtain ⟨h1, h2, _, _, h5, _, _⟩ := consDeepN_some hcons
  simp only [boundaryKeysOk, Bool.and_eq_true, decide_eq_true_eq] at h5
  obtain ⟨hall, hnd⟩ := h5
  rw [propagateIntoGraph]
  have h' : ∀ m ∈ gns, (fun m =>
      match m with
      | SNode.mk mc mgs =>
        if isMarkerType mc.type then
          match mc.boundary with
          | none => SNode.mk mc mgs
          | some b =>
            match (c.inputs ++ c.outputs).find?
                (fun i => i.subgraphNodeId = b.subgraphNodeId) with
            | none => SNode.mk mc mgs
            | some i => SNode.mk { mc with boundary := some { b with name := i.name } } mgs
        else SNode.mk mc mgs) m = id m := by
    intro m hm
    rcases m with ⟨mc, mgs⟩
    dsimp only [id]
    by_cases hmk : isMarkerType mc.type
    · rw [if_pos hmk]
      rcases hb : mc.boundary with _ | b
      · rfl
      · have hbs : b ∈ boundaryInputsOf gns ++ boundaryOutputsOf gns := by
          rw [List.mem_append]
          rcases isMarkerType_cases hmk with hmk2 | hmk2 | hmk2
          · left
            rw [boundaryInputsOf, List.mem_filterMap]
            refine ⟨.mk mc mgs, hm, ?_⟩
            rw [SNode.core, if_pos (Or.inl hmk2)]
            exact hb
          · right
            rw [boundaryOutputsOf, List.mem_filterMap]
            refine ⟨.mk mc mgs, hm, ?_⟩
            rw [SNode.core, if_pos hmk2]
            exact hb
          · left
            rw [boundaryInputsOf, List.mem_filterMap]
            refine ⟨.mk mc mgs, hm, ?_⟩
            rw [SNode.core, if_pos (Or.inr hmk2)]
            exact hb
        have hco : c.inputs ++ c.outputs =
            boundaryInputsOf gns ++ boundaryOutputsOf gns := by
          rw [h1, h2]
        have hfs : ((c.inputs ++ c.outputs).find?
            (fun i => i.subgraphNodeId = b.subgraphNodeId)).isSome = true := by
          rw [List.find?_isSome]
          exact ⟨b, by rw [hco]; exact hbs, by simp⟩
        obtain ⟨w, hw⟩ := Option.isSome_iff_exists.mp hfs
        have hwp : w.subgraphNodeId = b.subgraphNodeId := by
          have := List.find?_some hw
          simpa using this
        have hwm : w ∈ boundaryInputsOf gns ++ boundaryOutputsOf gns := by
          rw [← hco]
          exact List.mem_of_find?_eq_some hw
        have hkw : keyOf w = keyOf b := by
          rw [keyOf, keyOf, hwp]
        have hwb : w = b := List.inj_on_of_nodup_map hnd hwm hbs hkw
        simp only [hw, hwb]
        show SNode.mk { mc with boundary := some b } mgs = SNode.mk mc mgs
        rw [← hb]
    · rw [if_neg hmk]
  rw [List.map_congr_left h', List.map_id]

/-- Restoring positions from an empty cache changes nothing. -/
theorem restorePositions_nil (g : SGraph) : restorePositions [] g = (g, []) := by
  rw [restorePositions]
  have h' : ∀ n ∈ g.nodes, (fun n =>
      match n with
      | SNode.mk c gs =>
        match ([] : List (String × (ℚ × ℚ))).find? (fun e => e.1 = c.id) with
        | some e => SNode.mk { c with position := some e.2 } gs
        | none => SNode.mk c gs) n = id n := by
    intro n _
    rcases n with ⟨c, gs⟩
    rfl
  rw [List.map_congr_left h', List.map_id]
  rfl

/-- Splitting a descent at a path concatenation. -/
theorem descend_append (p q : List String) : ∀ g : SGraph,
    descend g (p ++ q) = (descend g p).bind (fun h => descend h q) := by
  induction p with
  | nil => intro g; rfl
  | cons nid rest ih =>
    intro g
    rw [List.cons_append, descend, descend]
    rcases hfn : findNode g.nodes nid with _ | n
    · rfl
    · rcases hgs : n.graphState with _ | sg
      · simp only [hgs]
        rfl
      · simp only [hgs]
        exact ih sg

/-- Decomposing a well-formed path ending in one more step. -/
theorem pathOk_concat (p0 : List String) (a : String) : ∀ g : SGraph,
    pathOk g (p0 ++ [a]) = true →
    pathOk g p0 = true ∧ ∃ parent n sg, descend g p0 = some parent ∧
      (parent.nodes.map (fun m => m.core.id)).Nodup ∧
      findNode parent.nodes a = some n ∧ n.graphState = some sg := by
  induction p0 with
  | nil =>
    intro g h
    rw [List.nil_append, pathOk, Bool.and_eq_true, decide_eq_true_eq] at h
    obtain ⟨hnd, h⟩ := h
    rcases hfn : findNode g.nodes a with _ | n
    · simp only [hfn] at h
      exact absurd h Bool.false_ne_true
    · simp only [hfn] at h
      rcases hgs : n.graphState with _ | sg
      · simp only [hgs] at h
        exact absurd h Bool.false_ne_true
      · exact ⟨rfl, g, n, sg, rfl, hnd, hfn, hgs⟩
  | cons nid rest ih =>
    intro g h
    rw [List.cons_append, pathOk, Bool.and_eq_true, decide_eq_true_eq] at h
    obtain ⟨hnd, h⟩ := h
    rcases hfn : findNode g.nodes nid with _ | n
    · simp only [hfn] at h
      exact absurd h Bool.false_ne_true
    · simp only [hfn] at h
      rcases hgs : n.graphState with _ | sg
      · simp only [hgs] at h
        exact absurd h Bool.false_ne_true
      · simp only [hgs] at h
        obtain ⟨hrest, parent, n2, sg2, hdesc, hnd2, hfn2, hgs2⟩ := ih sg h
        refine ⟨?_, parent, n2, sg2, ?_, hnd2, hfn2, hgs2⟩
        · rw [pathOk, Bool.and_eq_true, decide_eq_true_eq]
          refine ⟨hnd, ?_⟩
          simp only [hfn, hgs]
          exact hrest
        · rw [descend]
          simp only [hfn, hgs]
          exact hdesc

/-- Deep consistency is inherited along a descent. -/
theorem consDeepG_descend : ∀ (p : List String) (g h : SGraph),
    consDeepG g = true → descend g p = some h → consDeepG h = true := by
  intro p
  induction p with
  | nil =>
    intro g h hg hd
    rw [descend] at hd
    cases hd
    exact hg
  | cons nid rest ih =>
    intro g h hg hd
    rw [descend] at hd
    rcases hfn : findNode g.nodes nid with _ | n
    · simp only [hfn] at hd
      cases hd
    · simp only [hfn] at hd
      rcases hgs : n.graphState with _ | sg
      · simp only [hgs] at hd
        cases hd
      · simp only [hgs] at hd
        rw [consDeepG, Bool.and_eq_true] at hg
        have hn := consDeepNs_mem g.nodes hg.2 n (List.mem_of_find?_eq_some hfn)
        rcases n with ⟨c, _ | ⟨gc, gns⟩⟩
        · rw [SNode.graphState] at hgs
          cases hgs
        · rw [SNode.graphState] at hgs
          injection hgs with hgs
          obtain ⟨_, _, _, _, _, hnd, hcs⟩ := consDeepN_some hn
          have hsg : consDeepG sg = true := by
            rw [← hgs, consDeepG, Bool.and_eq_true]
            exact ⟨decide_eq_true hnd, hcs⟩
          exact ih sg h hsg hd

/-- On a consistent state, entering a subgraph only pushes the frame and
switches the displayed graph: the tree is unchanged. -/
theorem switchToSubgraphE_consistent (st : EState) (ag : SGraph) (nid : String)
    (n : SNode) (sg : SGraph)
    (hag : activeOf st = some ag)
    (hfn : findNode ag.nodes nid = some n)
    (hgs : n.graphState = some sg)
    (hcons : consDeepN n = true)
    (hpOk : pathOk st.root st.path = true)
    (hnd : (ag.nodes.map (fun m => m.core.id)).Nodup)
    (hcache : st.subgraphNodePositions = []) :
    switchToSubgraphE st nid =
      some { st with path := st.path ++ [nid], graphName := some sg.core.name } := by
  rw [switchToSubgraphE]
  simp only [hag, hfn, hgs, hcache]
  rcases n with ⟨c, _ | ⟨gc, gns⟩⟩
  · rw [SNode.graphState] at hgs
    cases hgs
  · rw [SNode.graphState] at hgs
    injection hgs with hgs
    subst hgs
    have hprop : propagateIntoGraph (SNode.mk c (some (gc, gns))).core ⟨gc, gns⟩ =
        ⟨gc, gns⟩ := by
      rw [SNode.core]
      exact propagateIntoGraph_self c gc gns hcons
    rw [hprop, restorePositions_nil]
    have hroot : modifyAt st.root (fun g =>
        { g with nodes := g.nodes.map (fun m =>
          if m.core.id = nid then
            (match m with
             | .mk mc _ => SNode.mk mc
                 (some ((⟨gc, gns⟩ : SGraph).core, (⟨gc, gns⟩ : SGraph).nodes)))
          else m) }) st.path = st.root := by
      apply modifyAt_of st.path st.root ag _ hpOk hag
      have h' : ∀ m ∈ ag.nodes, (fun m =>
          if m.core.id = nid then
            (match m with
             | .mk mc _ => SNode.mk mc
                 (some ((⟨gc, gns⟩ : SGraph).core, (⟨gc, gns⟩ : SGraph).nodes)))
          else m) m = id m := by
        intro m hm
        dsimp only
        by_cases hid : m.core.id = nid
        · rw [if_pos hid]
          have hmn : m = SNode.mk c (some (gc, gns)) := findNode_unique hfn hnd m hm hid
          rw [hmn]
          rfl
        · rw [if_neg hid]
          rfl
      show ({ ag with nodes := ag.nodes.map _ } : SGraph) = ag
      rw [List.map_congr_left h', List.map_id]
    rw [hroot]

/-- On a consistent state, leaving a subgraph reconciles nothing: it only
pops the frame and switches back to the parent. -/
theorem backFromSubgraphE_consistent (st : EState) (p0 : List String)
    (nid : String) (parent : SGraph) (n : SNode)
    (hpath : st.path = p0 ++ [nid])
    (hparent : descend st.root p0 = some parent)
    (hfn : findNode parent.nodes nid = some n)
    (hgsSome : (n.graphState).isSome = true)
    (hcons : consDeepN n = true)
    (hpOk : pathOk st.root p0 = true)
    (hnd : (parent.nodes.map (fun m => m.core.id)).Nodup) :
    backFromSubgraphE st =
      some { st with path := p0, graphName := some parent.core.name } := by
  rw [backFromSubgraphE, hpath]
  simp only [List.getLast?_concat, List.dropLast_concat, hparent, hfn]
  rcases n with ⟨c, _ | ⟨gc, gns⟩⟩
  · rw [SNode.graphState] at hgsSome
    cases hgsSome
  · have hrec := reconcileNode_self c gc gns hcons
    simp only [hrec]
    have hroot : modifyAt st.root (fun g =>
        { g with nodes := g.nodes.map (fun m =>
          if m.core.id = nid then SNode.mk c (some (gc, gns)) else m) }) p0 =
        st.root := by
      apply modifyAt_of p0 st.root parent _ hpOk hparent
      have h' : ∀ m ∈ parent.nodes,
          (if m.core.id = nid then SNode.mk c (some (gc, gns)) else m) = id m := by
        intro m hm
        by_cases hid : m.core.id = nid
        · rw [if_pos hid]
          exact (findNode_unique hfn hnd m hm hid).symm
        · rw [if_neg hid]
          rfl
      show ({ parent with nodes := parent.nodes.map _ } : SGraph) = parent
      rw [List.map_congr_left h', List.map_id]
    rw [hroot]

/-! ### Claim C7 — enter then leave a subgraph without edits -/

/-- C7: on a consistent state, `switchToSubgraph` followed immediately by
`backFromSubgraph` (no edits in between) restores the graph tree and the
navigation stack exactly, so the subgraph-owning node — interfaces
included — is unchanged (it is the same node `n` found at the same place in
the unchanged tree). -/
theorem c7_enter_leave_identity (st : EState) (ag : SGraph) (nid : String)
    (n : SNode) (sg : SGraph)
    (hag : activeOf st = some ag)
    (hfn : findNode ag.nodes nid = some n)
    (hgs : n.graphState = some sg)
    (hcons : consDeepN n = true)
    (hpOk : pathOk st.root st.path = true)
    (hnd : (ag.nodes.map (fun m => m.core.id)).Nodup)
    (hcache : st.subgraphNodePositions = []) :
    ∃ st1 st2, switchToSubgraphE st nid = some st1 ∧
      backFromSubgraphE st1 = some st2 ∧
      st2.root = st.root ∧ st2.path = st.path ∧
      activeOf st2 = some ag ∧ findNode ag.nodes nid = some n := by
  have h1 := switchToSubgraphE_consistent st ag nid n sg hag hfn hgs hcons hpOk
    hnd hcache
  have h2 := backFromSubgraphE_consistent
    { st with path := st.path ++ [nid], graphName := some sg.core.name }
    st.path nid ag n rfl hag hfn (by rw [hgs]; rfl) hcons hpOk hnd
  exact ⟨_, _, h1, h2, rfl, rfl, hag, hfn⟩

/-- C7, witness: entering and leaving the nested subgraph of the loaded
`docNest` editor state. -/
theorem c7_witness :
    ∃ st1 st2,
      switchToSubgraphE ⟨(loadE docNest initE).2.root, [], false, none, []⟩ "N" =
        some st1 ∧
      backFromSubgraphE st1 = some st2 ∧
      st2.root = (loadE docNest initE).2.root ∧ st2.path = [] ∧
      activeOf st2 = some (loadE docNest initE).2.root ∧
      findNode (loadE docNest initE).2.root.nodes "N" =
        some (SNode.mk ⟨"N", "N", "graphnode", some "T", [], [], none, some (0, 0)⟩
          (some (⟨"T", "tname", [], [], [], none, none⟩, [plainNode "X" "A"]))) :=
  c7_enter_leave_identity
    ⟨(loadE docNest initE).2.root, [], false, none, []⟩
    (loadE docNest initE).2.root "N"
    (SNode.mk ⟨"N", "N", "graphnode", some "T", [], [], none, some (0, 0)⟩
      (some (⟨"T", "tname", [], [], [], none, none⟩, [plainNode "X" "A"])))
    ⟨⟨"T", "tname", [], [], [], none, none⟩, [plainNode "X" "A"]⟩
    rfl rfl rfl rfl rfl (by decide) rfl

/-- Extending a well-formed path by one valid step. -/
theorem pathOk_snoc (q : List String) (a : String) : ∀ (g h : SGraph)
    (n : SNode) (sg : SGraph),
    pathOk g q = true → descend g q = some h →
    (h.nodes.map (fun m => m.core.id)).Nodup →
    findNode h.nodes a = some n → n.graphState = some sg →
    pathOk g (q ++ [a]) = true := by
  induction q with
  | nil =>
    intro g h n sg _ hd hnd hfn hgs
    rw [descend] at hd
    cases hd
    rw [List.nil_append, pathOk, Bool.and_eq_true, decide_eq_true_eq]
    refine ⟨hnd, ?_⟩
    simp only [hfn, hgs]
    rfl
  | cons b rest ih =>
    intro g h n sg hq hd hnd hfn hgs
    rw [pathOk, Bool.and_eq_true, decide_eq_true_eq] at hq
    obtain ⟨hndg, hq⟩ := hq
    rw [descend] at hd
    rcases hfb : findNode g.nodes b with _ | m
    · simp only [hfb] at hd
      cases hd
    · simp only [hfb] at hd hq
      rcases hgb : m.graphState with _ | sgb
      · simp only [hgb] at hd
        cases hd
      · simp only [hgb] at hd hq
        rw [List.cons_append, pathOk, Bool.and_eq_true, decide_eq_true_eq]
        refine ⟨hndg, ?_⟩
        simp only [hfb, hgb]
        exact ih sgb h n sg hq hd hnd hfn hgs

/-- One-step tail of a descent. -/
theorem descend_snoc (g h : SGraph) (q : List String) (a : String) (n : SNode)
    (sg : SGraph) (hd : descend g q = some h) (hfn : findNode h.nodes a = some n)
    (hgs : n.graphState = some sg) : descend g (q ++ [a]) = some sg := by
  rw [descend_append, hd]
  show descend h [a] = some sg
  rw [descend]
  simp only [hfn, hgs]
  rfl

/-- Popping the whole stack of a consistent state leaves the tree unchanged
and lands on the root. -/
theorem popAll_consistent : ∀ (p : List String) (st : EState),
    consDeepG st.root = true → pathOk st.root p = true → st.path = p →
    popAll p.length st =
      some { st with path := [], graphName := if p.isEmpty then st.graphName else some st.root.core.name } := by
  intro p
  induction p using List.reverseRecOn with
  | nil =>
    intro st _ _ hpath
    obtain ⟨r, pp, ro, gn, sp⟩ := st
    simp only at hpath
    subst hpath
    rfl
  | append_singleton p0 a ih =>
    intro st hg hp hpath
    obtain ⟨hp0, parent, n, sg, hdesc, hnd, hfn, hgs⟩ := pathOk_concat p0 a st.root hp
    have hconsP : consDeepG parent = true := consDeepG_descend p0 st.root parent hg hdesc
    have hcons : consDeepN n = true := by
      rw [consDeepG, Bool.and_eq_true] at hconsP
      exact consDeepNs_mem parent.nodes hconsP.2 n (List.mem_of_find?_eq_some hfn)
    have hback := backFromSubgraphE_consistent st p0 a parent n hpath hdesc hfn
      (by rw [hgs]; rfl) hcons hp0 hnd
    have hlen : (p0 ++ [a]).length = p0.length + 1 := by simp
    rw [hlen, popAll]
    simp only [hback]
    have hrec := ih { st with path := p0, graphName := some parent.core.name }
      hg hp0 rfl
    rw [hrec]
    rcases hp0e : p0 with _ | ⟨b, p1⟩
    · rw [hp0e] at hdesc
      rw [descend] at hdesc
      injection hdesc with hdesc
      rw [hdesc]
      rfl
    · rfl

/-- Re-entering a well-formed chain of subgraphs from a consistent state
extends the path without touching the tree. -/
theorem pushAll_consistent : ∀ (p q : List String) (st : EState) (h : SGraph),
    consDeepG st.root = true → st.subgraphNodePositions = [] →
    descend st.root q = some h → pathOk st.root q = true →
    pathOk h p = true → st.path = q →
    ∃ hfin, descend st.root (q ++ p) = some hfin ∧
      pushAll p st = some { st with path := q ++ p, graphName := if p.isEmpty then st.graphName else some hfin.core.name } := by
  intro p
  induction p with
  | nil =>
    intro q st h _ _ hd _ _ hpath
    refine ⟨h, by rw [List.append_nil]; exact hd, ?_⟩
    rw [pushAll]
    obtain ⟨r, pp, ro, gn, sp⟩ := st
    simp only at hpath
    subst hpath
    simp
  | cons a rest ih =>
    intro q st h hg hcc hd hqOk hp hpath
    rw [pathOk, Bool.and_eq_true, decide_eq_true_eq] at hp
    obtain ⟨hnd, hp⟩ := hp
    rcases hfn : findNode h.nodes a with _ | n
    · simp only [hfn] at hp
      exact absurd hp Bool.false_ne_true
    · simp only [hfn] at hp
      rcases hgs : n.graphState with _ | sg
      · simp only [hgs] at hp
        exact absurd hp Bool.false_ne_true
      · simp only [hgs] at hp
        have hconsH : consDeepG h = true := consDeepG_descend q st.root h hg hd
        have hcons : consDeepN n = true := by
          rw [consDeepG, Bool.and_eq_true] at hconsH
          exact consDeepNs_mem h.nodes hconsH.2 n (List.mem_of_find?_eq_some hfn)
        have hag : activeOf st = some h := by
          rw [activeOf, hpath]
          exact hd
        have hsw := switchToSubgraphE_consistent st h a n sg hag hfn hgs hcons
          (by rw [hpath]; exact hqOk) hnd hcc
        have hdsg : descend st.root (q ++ [a]) = some sg :=
          descend_snoc st.root h q a n sg hd hfn hgs
        have hqaOk : pathOk st.root (q ++ [a]) = true :=
          pathOk_snoc q a st.root h n sg hqOk hd
            (by
              rw [consDeepG, Bool.and_eq_true] at hconsH
              exact of_decide_eq_true hconsH.1) hfn hgs
        have hrec := ih (q ++ [a])
          { st with path := st.path ++ [a], graphName := some sg.core.name }
          sg hg hcc hdsg hqaOk hp (by rw [hpath])
        obtain ⟨hfin, hdfin, hpush⟩ := hrec
        refine ⟨hfin, ?_, ?_⟩
        · rw [show q ++ a :: rest = (q ++ [a]) ++ rest by simp]
          exact hdfin
        · rw [pushAll]
          simp only [hsw]
          rw [hpath] at hpush hdfin
          rw [hpath, hpush]
          rcases rest with _ | ⟨b, p1⟩
          · rw [List.append_nil] at hdfin
            rw [hdsg] at hdfin
            injection hdfin with hdfin
            subst hdfin
            simp
          · simp [List.append_assoc]

/-- A well-formed path can be descended. -/
theorem descend_of_pathOk : ∀ (p : List String) (g : SGraph),
    pathOk g p = true → ∃ h, descend g p = some h := by
  intro p
  induction p with
  | nil => intro g _; exact ⟨g, rfl⟩
  | cons nid rest ih =>
    intro g hp
    rw [pathOk, Bool.and_eq_true] at hp
    obtain ⟨_, hp⟩ := hp
    rcases hfn : findNode g.nodes nid with _ | n
    · simp only [hfn] at hp
      exact absurd hp Bool.false_ne_true
    · simp only [hfn] at hp
      rcases hgs : n.graphState with _ | sg
      · simp only [hgs] at hp
        exact absurd hp Bool.false_ne_true
      · simp only [hgs] at hp
        obtain ⟨h, hd⟩ := ih sg hp
        refine ⟨h, ?_⟩
        rw [descend]
        simp only [hfn, hgs]
        exact hd

/-- On consistent nodes `recurrentSubgraphSave` never crashes (a node with a
subgraph reference always carries its live graph state). -/
theorem strip_sound : ∀ ns : List SNode, consDeepNs ns = true →
    ∃ r, stripNodes ns = some r := by
  refine stripNodes.induct
    (fun n => consDeepN n = true → ∃ r, stripNode n = some r)
    (fun ns => consDeepNs ns = true → ∃ r, stripNodes ns = some r)
    ?_ ?_ ?_ ?_ ?_ ?_ ?_ ?_
  · intro c val g ns hsub hstrip ih hcons
    obtain ⟨_, _, _, _, _, _, hcs⟩ := consDeepN_some hcons
    obtain ⟨r, hr⟩ := ih hcs
    rw [hr] at hstrip
    cases hstrip
  · intro c val g ns hsub ns' collected hstrip _ _
    refine ⟨(.mk c none, ⟨g, ns'⟩ :: collected), ?_⟩
    rw [stripNode.eq_def]
    simp only [hsub, hstrip]
  · intro c val hsub hcons
    rw [consDeepN, hsub] at hcons
    cases hcons
  · intro c gs hsub _
    refine ⟨(.mk c none, []), ?_⟩
    rw [stripNode.eq_def]
    simp only [hsub]
  · intro _
    exact ⟨([], []), rfl⟩
  · intro n ns hn ihn hcons
    rw [consDeepNs, Bool.and_eq_true] at hcons
    obtain ⟨r, hr⟩ := ihn hcons.1
    rw [hr] at hn
    cases hn
  · intro n ns n' c1 hn hns ihn ihns hcons
    rw [consDeepNs, Bool.and_eq_true] at hcons
    obtain ⟨r, hr⟩ := ihns hcons.2
    rw [hr] at hns
    cases hns
  · intro n ns n' c1 hn ns' collected hns _ _ _
    refine ⟨(n' :: ns', c1 ++ collected), ?_⟩
    rw [stripNodes, hn, hns]

/-- `recurrentSubgraphSave` strips every `graphState`: the returned node list
and every collected template are `graphState`-free at the top level. -/
theorem strip_output : ∀ ns : List SNode, ∀ r, stripNodes ns = some r →
    (∀ m ∈ r.1, m.graphState = none) ∧
      ∀ t ∈ r.2, ∀ m ∈ t.nodes, m.graphState = none := by
  refine stripNodes.induct
    (fun n => ∀ r, stripNode n = some r → r.1.graphState = none ∧
      ∀ t ∈ r.2, ∀ m ∈ t.nodes, m.graphState = none)
    (fun ns => ∀ r, stripNodes ns = some r → (∀ m ∈ r.1, m.graphState = none) ∧
      ∀ t ∈ r.2, ∀ m ∈ t.nodes, m.graphState = none)
    ?_ ?_ ?_ ?_ ?_ ?_ ?_ ?_
  · intro c val g ns hsub hstrip _ r hr
    rw [stripNode.eq_def] at hr
    simp only [hsub, hstrip] at hr
    cases hr
  · intro c val g ns hsub ns' collected hstrip ih r hr
    rw [stripNode.eq_def] at hr
    simp only [hsub, hstrip] at hr
    obtain ⟨h1, h2⟩ := ih (ns', collected) hstrip
    cases hr
    refine ⟨rfl, ?_⟩
    intro t ht m hm
    rcases List.mem_cons.mp ht with ht | ht
    · subst ht
      exact h1 m hm
    · exact h2 t ht m hm
  · intro c val hsub r hr
    rw [stripNode.eq_def] at hr
    simp only [hsub] at hr
    cases hr
  · intro c gs hsub r hr
    rw [stripNode.eq_def] at hr
    simp only [hsub] at hr
    cases hr
    refine ⟨rfl, ?_⟩
    intro t ht
    cases ht
  · intro r hr
    rw [stripNodes] at hr
    cases hr
    refine ⟨?_, ?_⟩
    · intro m hm
      cases hm
    · intro t ht
      cases ht
  · intro n ns hn _ r hr
    rw [stripNodes.eq_def] at hr
    simp only [hn] at hr
    cases hr
  · intro n ns n' c1 hn hns _ _ r hr
    rw [stripNodes.eq_def] at hr
    simp only [hn, hns] at hr
    cases hr
  · intro n ns n' c1 hn ns' collected hns ihn ihns r hr
    rw [stripNodes.eq_def] at hr
    simp only [hn, hns] at hr
    cases hr
    obtain ⟨hn1, hn2⟩ := ihn (n', c1) hn
    obtain ⟨hl1, hl2⟩ := ihns (ns', collected) hns
    refine ⟨?_, ?_⟩
    · intro m hm
      rcases List.mem_cons.mp hm with hm | hm
      · subst hm
        exact hn1
      · exact hl1 m hm
    · intro t ht m hm
      rcases List.mem_append.mp ht with ht | ht
      · exact hn2 t ht m hm
      · exact hl2 t ht m hm

/-- `save()` on a consistent state: the stack is popped and re-pushed without
touching the tree, the root is stripped successfully and packaged in single-
or multi-graph form with the pre-save active graph id as `entryGraph`. -/
theorem saveE_spec (st : EState) (ag : SGraph)
    (hg : consDeepG st.root = true)
    (hp : pathOk st.root st.path = true)
    (hcc : st.subgraphNodePositions = [])
    (hag : activeOf st = some ag) :
    ∃ ns₂ tmpl st2,
      stripNodes st.root.nodes = some (ns₂, tmpl) ∧
      saveE st = some
        ((if tmpl.length = 0 then
          ⟨some (.single ⟨{ st.root.core with inputs := [], outputs := [] }, ns₂⟩),
           none⟩
        else
          ⟨some (.entry ag.core.id),
           some (tmpl ++
             [⟨{ st.root.core with inputs := [], outputs := [] }, ns₂⟩])⟩ :
          Document), st2) ∧
      st2.root = st.root ∧ st2.path = st.path ∧
      st2.subgraphNodePositions = st.subgraphNodePositions ∧
      st2.readonly = st.readonly ∧ activeOf st2 = some ag := by
  have hconsNs : consDeepNs st.root.nodes = true := by
    rw [consDeepG, Bool.and_eq_true] at hg
    exact hg.2
  obtain ⟨⟨ns₂, tmpl⟩, hstrip⟩ := strip_sound st.root.nodes hconsNs
  have hpop := popAll_consistent st.path st hg hp rfl
  have hpush := pushAll_consistent st.path [] { st with path := [], graphName := if st.path.isEmpty then st.graphName else some st.root.core.name } st.root hg hcc rfl rfl hp rfl
  obtain ⟨hfin, hdfin, hpush⟩ := hpush
  rw [List.nil_append] at hdfin hpush
  have hfeq : hfin = ag := by
    rw [activeOf] at hag
    rw [hag] at hdfin
    injection hdfin with hdfin
    exact hdfin.symm
  subst hfeq
  have hact : activeOf { st with path := ([] : List String), graphName := if st.path.isEmpty then st.graphName else some st.root.core.name } = some st.root := rfl
  have hex : ∃ st2, pushAll st.path { st with path := ([] : List String), graphName := if st.path.isEmpty then st.graphName else some st.root.core.name } = some st2 ∧ st2.root = st.root ∧ st2.path = st.path ∧ st2.subgraphNodePositions = st.subgraphNodePositions ∧ st2.readonly = st.readonly ∧ activeOf st2 = some hfin := by
    refine ⟨_, hpush, rfl, rfl, rfl, rfl, ?_⟩
    exact hag
  obtain ⟨st2v, hpushv, h1, h2, h3, h4, h5⟩ := hex
  refine ⟨ns₂, tmpl, st2v, hstrip, ?_, h1, h2, h3, h4, h5⟩
  rw [saveE.eq_def]
  simp only [hag, hpop, hact, hstrip, hpushv]
  split <;> rfl

/-- C5: on every consistent state, `save()` produces a single `{graph}`
document when no subgraph templates were collected, else a multi-graph
document whose `entryGraph` is the id of the graph active at save time;
every node of the output has its live `graphState` stripped (root nodes and
template nodes alike) and the serialized root graph carries empty
`inputs`/`outputs`. -/
theorem c5_save_document_shape (st : EState) (ag : SGraph)
    (hg : consDeepG st.root = true)
    (hp : pathOk st.root st.path = true)
    (hcc : st.subgraphNodePositions = [])
    (hag : activeOf st = some ag) :
    ∃ ns₂ tmpl st2,
      stripNodes st.root.nodes = some (ns₂, tmpl) ∧
      (∀ m ∈ ns₂, m.graphState = none) ∧
      (∀ t ∈ tmpl, ∀ m ∈ t.nodes, m.graphState = none) ∧
      saveE st = some
        ((if tmpl.length = 0 then
          ⟨some (.single ⟨{ st.root.core with inputs := [], outputs := [] }, ns₂⟩),
           none⟩
        else
          ⟨some (.entry ag.core.id),
           some (tmpl ++
             [⟨{ st.root.core with inputs := [], outputs := [] }, ns₂⟩])⟩ :
          Document), st2) := by
  obtain ⟨ns₂, tmpl, st2, hstrip, hsave, _⟩ := saveE_spec st ag hg hp hcc hag
  obtain ⟨h1, h2⟩ := strip_output st.root.nodes (ns₂, tmpl) hstrip
  exact ⟨ns₂, tmpl, st2, hstrip, h1, h2, hsave⟩

/-- C5, witness: saving an editor holding one subgraph-owning node produces
the multi-graph form with the template collected and stripped. -/
theorem c5_witness :
    ∃ ns₂ tmpl st2,
      stripNodes (⟨wParent, [], false, none, []⟩ : EState).root.nodes =
        some (ns₂, tmpl) ∧
      (∀ m ∈ ns₂, m.graphState = none) ∧
      (∀ t ∈ tmpl, ∀ m ∈ t.nodes, m.graphState = none) ∧
      saveE ⟨wParent, [], false, none, []⟩ = some
        ((if tmpl.length = 0 then
          ⟨some (.single ⟨{ (⟨wParent, [], false, none, []⟩ :
              EState).root.core with inputs := [], outputs := [] }, ns₂⟩),
           none⟩
        else
          ⟨some (.entry wParent.core.id),
           some (tmpl ++
             [⟨{ (⟨wParent, [], false, none, []⟩ :
                 EState).root.core with inputs := [], outputs := [] }, ns₂⟩])⟩ :
          Document), st2) :=
  c5_save_document_shape ⟨wParent, [], false, none, []⟩ wParent
    (by decide) (by decide) rfl rfl

/-- C6: `save()` is side-effect-free on navigation state — on every
consistent state it succeeds and returns with the same graph tree, the same
subgraph navigation stack and the same active graph as before the call. -/
theorem c6_save_restores_navigation (st : EState) (ag : SGraph)
    (hg : consDeepG st.root = true)
    (hp : pathOk st.root st.path = true)
    (hcc : st.subgraphNodePositions = [])
    (hag : activeOf st = some ag) :
    ∃ D st2, saveE st = some (D, st2) ∧
      st2.root = st.root ∧ st2.path = st.path ∧ activeOf st2 = some ag := by
  obtain ⟨ns₂, tmpl, st2, _, hsave, hroot, hpath, _, _, hact⟩ :=
    saveE_spec st ag hg hp hcc hag
  exact ⟨_, st2, hsave, hroot, hpath, hact⟩

/-- C6, witness: saving while a nested subgraph is displayed restores the
navigation stack and active graph. -/
theorem c6_witness :
    ∃ D st2, saveE ⟨wParent, ["W"], false, some "ws", []⟩ = some (D, st2) ∧
      st2.root = (⟨wParent, ["W"], false, some "ws", []⟩ : EState).root ∧
      st2.path = (⟨wParent, ["W"], false, some "ws", []⟩ : EState).path ∧
      activeOf st2 = some wSg :=
  c6_save_restores_navigation ⟨wParent, ["W"], false, some "ws", []⟩ wSg
    (by decide) (by decide) rfl rfl

/-! ### Bridging the instantiation fold to its sequential form -/

/-- The instantiation fold ignores everything after a `none` accumulator. -/
theorem instFold_none (subs : Option (List SGraph)) (fuel : Nat) :
    ∀ ns : List SNode, ns.foldl
      (fun acc n =>
        match acc with
        | none => none
        | some accv =>
          match instNode subs fuel accv.2.2 n with
          | none => none
          | some (n', e1, u1) =>
            some (accv.1 ++ [n'], accv.2.1 ++ e1, u1))
      none = none := by
  intro ns
  induction ns with
  | nil => rfl
  | cons n ns ih =>
    rw [List.foldl_cons]
    exact ih

/-- The instantiation fold equals the sequential recursion `instSeq`. -/
theorem instFold_eq (subs : Option (List SGraph)) (fuel : Nat) :
    ∀ (ns : List SNode) (acc : List SNode) (errs used : List String),
    ns.foldl
      (fun acc n =>
        match acc with
        | none => none
        | some accv =>
          match instNode subs fuel accv.2.2 n with
          | none => none
          | some (n', e1, u1) =>
            some (accv.1 ++ [n'], accv.2.1 ++ e1, u1))
      (some (acc, errs, used)) =
    match instSeq subs fuel used ns with
    | none => none
    | some (ns', e2, u2) => some (acc ++ ns', errs ++ e2, u2) := by
  intro ns
  induction ns with
  | nil =>
    intro acc errs used
    rw [instSeq]
    simp
  | cons n ns ih =>
    intro acc errs used
    rw [List.foldl_cons, instSeq]
    rcases hi : instNode subs fuel used n with _ | ⟨n', e1, u1⟩
    · simp only [hi]
      exact instFold_none subs fuel ns
    · simp only [hi]
      rw [ih (acc ++ [n']) (errs ++ e1) u1]
      rcases hs : instSeq subs fuel u1 ns with _ | ⟨ns', e2, u2⟩
      · rfl
      · simp

/-- `recurrentSubgraphLoad` over a list, in sequential form. -/
theorem instNodes_eq_instSeq (subs : Option (List SGraph)) (fuel : Nat)
    (used : List String) (ns : List SNode) :
    instNodes subs fuel used ns = instSeq subs fuel used ns := by
  rw [instNodes, instFold_eq]
  rcases hs : instSeq subs fuel used ns with _ | ⟨ns', e2, u2⟩
  · rfl
  · simp

/-- A node without a subgraph reference is returned unchanged. -/
theorem instNode_plain {c : NodeCore} (gs : Option (GraphCore × List SNode))
    (subs : Option (List SGraph)) (k : Nat) (used : List String)
    (h : c.subgraph = none) :
    instNode subs (k + 1) used (.mk c gs) = some (.mk c gs, [], used) := by
  rw [instNode.eq_def]
  simp only [h]

/-- A subgraph-referencing node with a unique fresh template instantiates by
recursing over the template's nodes with one less fuel. -/
theorem instNode_owner {c : NodeCore} (gs : Option (GraphCore × List SNode))
    (T : List SGraph) (k : Nat) (used : List String) (sid : String) (t : SGraph)
    (h : c.subgraph = some sid)
    (hfil : T.filter (fun x => x.core.id = sid) = [t])
    (hnu : sid ∉ used) :
    instNode (some T) (k + 1) used (.mk c gs) =
      match instSeq (some T) k (used ++ [sid]) t.nodes with
      | none => none
      | some (ns', errs, used') =>
        some (.mk c (some (t.core, ns')), errs, used') := by
  rw [instNode.eq_def]
  simp only [h, hfil]
  rw [if_neg hnu, instFold_eq]
  rcases hs : instSeq (some T) k (used ++ [sid]) t.nodes with _ | ⟨ns', errs, used'⟩
  · rfl
  · simp

/-! ### Small list utilities for root/entry resolution -/

/-- `find?` skips a prefix on which the predicate fails. -/
theorem find_append_right {α : Type} (p : α → Bool) :
    ∀ (l1 l2 : List α), (∀ x ∈ l1, p x = false) →
    (l1 ++ l2).find? p = l2.find? p := by
  intro l1
  induction l1 with
  | nil => intro l2 _; rfl
  | cons a l1 ih =>
    intro l2 hf
    rw [List.cons_append, List.find?]
    rw [hf a (List.mem_cons_self a l1)]
    exact ih l2 (fun x hx => hf x (List.mem_cons_of_mem a hx))

/-- `find?` ignores a suffix once the prefix already produced a hit. -/
theorem find_append_left {α : Type} (p : α → Bool) :
    ∀ (l1 l2 : List α) (x : α), l1.find? p = some x →
    (l1 ++ l2).find? p = some x := by
  intro l1
  induction l1 with
  | nil => intro l2 x h; cases h
  | cons a l1 ih =>
    intro l2 x h
    rw [List.find?] at h
    rw [List.cons_append, List.find?]
    rcases hp : p a with _ | _
    · rw [hp] at h
      exact ih l2 x h
    · rw [hp] at h
      exact h

/-- In a graph list with unique ids, filtering by a member's id gives
exactly that member. -/
theorem filter_id_unique : ∀ (l : List SGraph) (u : SGraph), u ∈ l →
    (l.map (fun g => g.core.id)).Nodup →
    l.filter (fun x => x.core.id = u.core.id) = [u] := by
  intro l
  induction l with
  | nil => intro u hu; cases hu
  | cons g l ih =>
    intro u hu hnd
    rw [List.map_cons, List.nodup_cons] at hnd
    obtain ⟨hg, hnd⟩ := hnd
    rcases List.mem_cons.mp hu with hu | hu
    · subst hu
      rw [List.filter_cons_of_pos (by simp)]
      have hnone : l.filter (fun x => x.core.id = u.core.id) = [] := by
        rw [List.filter_eq_nil_iff]
        intro x hx hcon
        apply hg
        rw [← of_decide_eq_true hcon]
        exact List.mem_map_of_mem (fun g => g.core.id) hx
      rw [hnone]
    · have hne : (decide (g.core.id = u.core.id)) = false := by
        rw [decide_eq_false_iff_not]
        intro hcon
        apply hg
        rw [hcon]
        exact List.mem_map_of_mem (fun g => g.core.id) hu
      rw [List.filter_cons_of_neg (by simp only [hne]; exact Bool.false_ne_true)]
      exact ih u hu hnd

/-- In a graph list with unique ids, `find?` by a member's id returns that
member. -/
theorem find_id_unique : ∀ (l : List SGraph) (u : SGraph) (eid : String),
    u ∈ l → (l.map (fun g => g.core.id)).Nodup → u.core.id = eid →
    l.find? (fun x => x.core.id = eid) = some u := by
  intro l
  induction l with
  | nil => intro u eid hu; cases hu
  | cons g l ih =>
    intro u eid hu hnd heq
    rw [List.map_cons, List.nodup_cons] at hnd
    obtain ⟨hg, hnd⟩ := hnd
    rw [List.find?]
    rcases List.mem_cons.mp hu with hu | hu
    · subst hu
      rw [decide_eq_true heq]
    · have hne : (decide (g.core.id = eid)) = false := by
        rw [decide_eq_false_iff_not]
        intro hcon
        apply hg
        rw [hcon, ← heq]
        exact List.mem_map_of_mem (fun g => g.core.id) hu
      rw [hne]
      exact ih u eid hu hnd heq

/-- Membership in the `usedSubgraphs` set collected by `load`. -/
theorem mem_usedSubgraphIds : ∀ (subs : List SGraph) (i : String),
    i ∈ usedSubgraphIds subs ↔
      ∃ g ∈ subs, ∃ n ∈ g.nodes, n.core.subgraph = some i := by
  have hgen : ∀ (subs : List SGraph) (acc : List String) (i : String),
      i ∈ subs.foldl
        (fun acc g => acc ++ g.nodes.filterMap (fun n => n.core.subgraph)) acc ↔
      i ∈ acc ∨ ∃ g ∈ subs, ∃ n ∈ g.nodes, n.core.subgraph = some i := by
    intro subs
    induction subs with
    | nil =>
      intro acc i
      simp
    | cons g subs ih =>
      intro acc i
      rw [List.foldl_cons, ih]
      rw [List.mem_append, List.mem_filterMap]
      constructor
      · rintro ((h | ⟨n, hn, hs⟩) | ⟨g', hg', n, hn, hs⟩)
        · exact Or.inl h
        · exact Or.inr ⟨g, List.mem_cons_self g subs, n, hn, hs⟩
        · exact Or.inr ⟨g', List.mem_cons_of_mem g hg', n, hn, hs⟩
      · rintro (h | ⟨g', hg', n, hn, hs⟩)
        · exact Or.inl (Or.inl h)
        · rcases List.mem_cons.mp hg' with hg' | hg'
          · subst hg'
            exact Or.inl (Or.inr ⟨n, hn, hs⟩)
          · exact Or.inr ⟨g', hg', n, hn, hs⟩
  intro subs i
  rw [usedSubgraphIds, hgen]
  simp

/-! ### Path predicates phrased on node lists -/

/-- Membership form of `linkedNs`. -/
theorem linkedNs_mem : ∀ (ns : List SNode), linkedNs ns = true →
    ∀ n ∈ ns, linkedN n = true := by
  intro ns
  induction ns with
  | nil => intro _ n hn; cases hn
  | cons m ms ih =>
    intro h n hn
    rw [linkedNs, Bool.and_eq_true] at h
    rcases List.mem_cons.mp hn with hn | hn
    · subst hn; exact h.1
    · exact ih h.2 n hn

/-- `pathOk` only depends on the graph's nodes. -/
theorem pathOk_eq_pathN : ∀ (q : List String) (g : SGraph),
    pathOk g q = pathN g.nodes q := by
  intro q
  induction q with
  | nil => intro g; rfl
  | cons nid rest ih =>
    intro g
    rw [pathOk, pathN]
    rcases hfn : findNode g.nodes nid with _ | n
    · simp only [hfn]
    · simp only [hfn]
      rcases hgs : n.graphState with _ | sg
      · simp only [hgs]
      · simp only [hgs, ih sg]

/-- `descend` on a nonempty path only depends on the graph's nodes. -/
theorem descend_eq_descendN : ∀ (q : List String), q ≠ [] → ∀ (g : SGraph),
    descend g q = descendN g.nodes q := by
  intro q
  induction q with
  | nil => intro h; exact absurd rfl h
  | cons nid rest ih =>
    intro _ g
    rw [descend, descendN]
    rcases hfn : findNode g.nodes nid with _ | n
    · simp only [hfn]
    · simp only [hfn]
      rcases hgs : n.graphState with _ | sg
      · simp only [hgs]
      · simp only [hgs]
        rcases rest with _ | ⟨b, rest'⟩
        · rfl
        · exact ih (by simp) sg

/-- A list of plain nodes instantiates to itself. -/
theorem instSeq_plain (subs : Option (List SGraph)) (k : Nat) :
    ∀ (ns : List SNode) (used : List String),
    (∀ n ∈ ns, n.core.subgraph = none) →
    instSeq subs (k + 1) used ns = some (ns, [], used) := by
  intro ns
  induction ns with
  | nil => intro used _; rfl
  | cons n ns ih =>
    intro used hp
    rcases n with ⟨c, gs⟩
    have hc : c.subgraph = none := hp _ (List.mem_cons_self _ ns)
    rw [instSeq, instNode_plain gs subs k used hc]
    simp [ih used (fun m hm => hp m (List.mem_cons_of_mem _ hm))]

/-! ### Structure of the collected template list -/

/-- A live subgraph of a member node is collected by `recurrentSubgraphSave`,
together with everything it collects itself. -/
theorem strip_member : ∀ (ns ns₂ : List SNode) (coll : List SGraph),
    stripNodes ns = some (ns₂, coll) → linkedNs ns = true →
    ∀ (c : NodeCore) (gc : GraphCore) (gns : List SNode),
    SNode.mk c (some (gc, gns)) ∈ ns →
    ∃ gns' collI, stripNodes gns = some (gns', collI) ∧
      (⟨gc, gns'⟩ : SGraph) ∈ coll ∧ ∀ v ∈ collI, v ∈ coll := by
  intro ns
  induction ns with
  | nil => intro ns₂ coll _ _ c gc gns hm; cases hm
  | cons n ns ih =>
    intro ns₂ coll h hl c gc gns hm
    rw [stripNodes.eq_def] at h
    rcases hn : stripNode n with _ | ⟨n', c1⟩
    · simp only [hn] at h
      cases h
    · simp only [hn] at h
      rcases hns : stripNodes ns with _ | ⟨ns', c2⟩
      · simp only [hns] at h
        cases h
      · simp only [hns] at h
        injection h with h
        rw [Prod.mk.injEq] at h
        obtain ⟨h1, h2⟩ := h
        subst h1
        subst h2
        rw [linkedNs, Bool.and_eq_true] at hl
        rcases List.mem_cons.mp hm with hm | hm
        · subst hm
          have hln := hl.1
          rw [linkedN, Bool.and_eq_true, decide_eq_true_eq] at hln
          rw [stripNode.eq_def] at hn
          simp only [hln.1] at hn
          rcases hst : stripNodes gns with _ | ⟨gns', collI⟩
          · simp only [hst] at hn
            cases hn
          · simp only [hst] at hn
            injection hn with hn
            rw [Prod.mk.injEq] at hn
            obtain ⟨hn1, hn2⟩ := hn
            subst hn2
            refine ⟨gns', collI, rfl, ?_, ?_⟩
            · exact List.mem_append_left c2 (List.mem_cons_self _ collI)
            · intro v hv
              exact List.mem_append_left c2 (List.mem_cons_of_mem _ hv)
        · obtain ⟨gns', collI, hst, hmem, hsub⟩ := ih ns' c2 hns hl.2 c gc gns hm
          exact ⟨gns', collI, hst,
            List.mem_append_right c1 hmem,
            fun v hv => List.mem_append_right c1 (hsub v hv)⟩

/-- Descending a linked tree lands on a graph whose serialization is among
the collected templates. -/
theorem strip_descend : ∀ (q : List String) (ns ns₂ : List SNode)
    (coll : List SGraph) (h : SGraph),
    stripNodes ns = some (ns₂, coll) → linkedNs ns = true →
    descendN ns q = some h →
    ∃ hns₂ hcoll, stripNodes h.nodes = some (hns₂, hcoll) ∧
      (⟨h.core, hns₂⟩ : SGraph) ∈ coll ∧ ∀ v ∈ hcoll, v ∈ coll := by
  intro q
  induction q with
  | nil =>
    intro ns ns₂ coll h _ _ hd
    rw [descendN] at hd
    cases hd
  | cons nid rest ih =>
    intro ns ns₂ coll h hstrip hl hd
    rw [descendN] at hd
    rcases hfn : findNode ns nid with _ | n
    · simp only [hfn] at hd
      cases hd
    · simp only [hfn] at hd
      rcases hgs : n.graphState with _ | sg
      · simp only [hgs] at hd
        cases hd
      · simp only [hgs] at hd
        rcases n with ⟨c, _ | ⟨gc, gns⟩⟩
        · rw [SNode.graphState] at hgs
          cases hgs
        · rw [SNode.graphState] at hgs
          injection hgs with hgs
          subst hgs
          have hmem := List.mem_of_find?_eq_some hfn
          obtain ⟨gns', collI, hst, hcm, hsubc⟩ :=
            strip_member ns ns₂ coll hstrip hl c gc gns hmem
          have hlg : linkedNs gns = true := by
            have hln := linkedNs_mem ns hl _ hmem
            rw [linkedN, Bool.and_eq_true] at hln
            exact hln.2
          rcases rest with _ | ⟨b, rest'⟩
          · injection hd with hd
            subst hd
            exact ⟨gns', collI, hst, hcm, hsubc⟩
          · obtain ⟨hns₂, hcoll, hsh, hmm, hsb⟩ :=
              ih gns gns' collI h hst hlg hd
            exact ⟨hns₂, hcoll, hsh, hsubc _ hmm,
              fun v hv => hsubc v (hsb v hv)⟩

/-- Every collected template has an owner: a serialized node referencing its
id, either at the top level or inside another collected template. -/
theorem strip_refs : ∀ ns : List SNode, linkedNs ns = true →
    ∀ ns₂ coll, stripNodes ns = some (ns₂, coll) →
    ∀ u ∈ coll, (∃ m ∈ ns₂, m.core.subgraph = some u.core.id) ∨
      ∃ v ∈ coll, ∃ m ∈ v.nodes, m.core.subgraph = some u.core.id := by
  refine stripNodes.induct
    (fun n => linkedN n = true → ∀ n' c1, stripNode n = some (n', c1) →
      ∀ u ∈ c1, n'.core.subgraph = some u.core.id ∨
        ∃ v ∈ c1, ∃ m ∈ v.nodes, m.core.subgraph = some u.core.id)
    (fun ns => linkedNs ns = true → ∀ ns₂ coll, stripNodes ns = some (ns₂, coll) →
      ∀ u ∈ coll, (∃ m ∈ ns₂, m.core.subgraph = some u.core.id) ∨
        ∃ v ∈ coll, ∃ m ∈ v.nodes, m.core.subgraph = some u.core.id)
    ?_ ?_ ?_ ?_ ?_ ?_ ?_ ?_
  · intro c val g ns hsub hstrip _ _ n' c1 hn
    rw [stripNode.eq_def] at hn
    simp only [hsub, hstrip] at hn
    cases hn
  · intro c val g ns hsub ns' collected hstrip ih hl n' c1 hn
    rw [stripNode.eq_def] at hn
    simp only [hsub, hstrip] at hn
    injection hn with hn
    rw [Prod.mk.injEq] at hn
    obtain ⟨hn1, hn2⟩ := hn
    subst hn1
    subst hn2
    rw [linkedN, Bool.and_eq_true, decide_eq_true_eq] at hl
    intro u hu
    rcases List.mem_cons.mp hu with hu | hu
    · subst hu
      left
      rw [SNode.core, hl.1]
    · rcases ih hl.2 ns' collected hstrip u hu with ⟨m, hm, hr⟩ | ⟨v, hv, m, hm, hr⟩
      · exact Or.inr ⟨⟨g, ns'⟩, List.mem_cons_self _ collected, m, hm, hr⟩
      · exact Or.inr ⟨v, List.mem_cons_of_mem _ hv, m, hm, hr⟩
  · intro c val hsub _ n' c1 hn
    rw [stripNode.eq_def] at hn
    simp only [hsub] at hn
    cases hn
  · intro c gs hsub _ n' c1 hn
    rw [stripNode.eq_def] at hn
    simp only [hsub] at hn
    injection hn with hn
    rw [Prod.mk.injEq] at hn
    obtain ⟨hn1, hn2⟩ := hn
    subst hn2
    intro u hu
    cases hu
  · intro _ ns₂ coll h
    rw [stripNodes] at h
    injection h with h
    rw [Prod.mk.injEq] at h
    obtain ⟨h1, h2⟩ := h
    subst h2
    intro u hu
    cases hu
  · intro n ns hn _ _ ns₂ coll h
    rw [stripNodes.eq_def] at h
    simp only [hn] at h
    cases h
  · intro n ns n' c1 hn hns _ _ _ ns₂ coll h
    rw [stripNodes.eq_def] at h
    simp only [hn, hns] at h
    cases h
  · intro n ns n' c1 hn ns' collected hns ihn ihns hl ns₂ coll h
    rw [stripNodes.eq_def] at h
    simp only [hn, hns] at h
    injection h with h
    rw [Prod.mk.injEq] at h
    obtain ⟨h1, h2⟩ := h
    subst h1
    subst h2
    rw [linkedNs, Bool.and_eq_true] at hl
    intro u hu
    rcases List.mem_append.mp hu with hu | hu
    · rcases ihn hl.1 n' c1 hn u hu with hr | ⟨v, hv, m, hm, hr⟩
      · exact Or.inl ⟨n', List.mem_cons_self _ ns', hr⟩
      · exact Or.inr ⟨v, List.mem_append_left collected hv, m, hm, hr⟩
    · rcases ihns hl.2 ns' collected hns u hu with ⟨m, hm, hr⟩ | ⟨v, hv, m, hm, hr⟩
      · exact Or.inl ⟨m, List.mem_cons_of_mem _ hm, hr⟩
      · exact Or.inr ⟨v, List.mem_append_right c1 hv, m, hm, hr⟩

/-- Every subgraph reference appearing anywhere in the serialized output is
the id of some collected template. -/
theorem strip_refs_sub : ∀ ns : List SNode, linkedNs ns = true →
    ∀ ns₂ coll, stripNodes ns = some (ns₂, coll) →
    (∀ m ∈ ns₂, ∀ sid, m.core.subgraph = some sid →
      sid ∈ coll.map (fun t => t.core.id)) ∧
    (∀ v ∈ coll, ∀ m ∈ v.nodes, ∀ sid, m.core.subgraph = some sid →
      sid ∈ coll.map (fun t => t.core.id)) := by
  refine stripNodes.induct
    (fun n => linkedN n = true → ∀ n' c1, stripNode n = some (n', c1) →
      (∀ sid, n'.core.subgraph = some sid → sid ∈ c1.map (fun t => t.core.id)) ∧
      (∀ v ∈ c1, ∀ m ∈ v.nodes, ∀ sid, m.core.subgraph = some sid →
        sid ∈ c1.map (fun t => t.core.id)))
    (fun ns => linkedNs ns = true → ∀ ns₂ coll, stripNodes ns = some (ns₂, coll) →
      (∀ m ∈ ns₂, ∀ sid, m.core.subgraph = some sid →
        sid ∈ coll.map (fun t => t.core.id)) ∧
      (∀ v ∈ coll, ∀ m ∈ v.nodes, ∀ sid, m.core.subgraph = some sid →
        sid ∈ coll.map (fun t => t.core.id)))
    ?_ ?_ ?_ ?_ ?_ ?_ ?_ ?_
  · intro c val g ns hsub hstrip _ _ n' c1 hn
    rw [stripNode.eq_def] at hn
    simp only [hsub, hstrip] at hn
    cases hn
  · intro c val g ns hsub ns' collected hstrip ih hl n' c1 hn
    rw [stripNode.eq_def] at hn
    simp only [hsub, hstrip] at hn
    injection hn with hn
    rw [Prod.mk.injEq] at hn
    obtain ⟨hn1, hn2⟩ := hn
    subst hn1
    subst hn2
    rw [linkedN, Bool.and_eq_true, decide_eq_true_eq] at hl
    obtain ⟨ih1, ih2⟩ := ih hl.2 ns' collected hstrip
    constructor
    · intro sid hs
      rw [SNode.core, hl.1] at hs
      injection hs with hs
      subst hs
      exact List.mem_cons_self _ _
    · intro v hv m hm sid hs
      rcases List.mem_cons.mp hv with hv | hv
      · subst hv
        exact List.mem_cons_of_mem _ (ih1 m hm sid hs)
      · exact List.mem_cons_of_mem _ (ih2 v hv m hm sid hs)
  · intro c val hsub _ n' c1 hn
    rw [stripNode.eq_def] at hn
    simp only [hsub] at hn
    cases hn
  · intro c gs hsub _ n' c1 hn
    rw [stripNode.eq_def] at hn
    simp only [hsub] at hn
    injection hn with hn
    rw [Prod.mk.injEq] at hn
    obtain ⟨hn1, hn2⟩ := hn
    subst hn1
    subst hn2
    constructor
    · intro sid hs
      rw [SNode.core, hsub] at hs
      cases hs
    · intro v hv
      cases hv
  · intro _ ns₂ coll h
    rw [stripNodes] at h
    injection h with h
    rw [Prod.mk.injEq] at h
    obtain ⟨h1, h2⟩ := h
    subst h1
    subst h2
    constructor
    · intro m hm
      cases hm
    · intro v hv
      cases hv
  · intro n ns hn _ _ ns₂ coll h
    rw [stripNodes.eq_def] at h
    simp only [hn] at h
    cases h
  · intro n ns n' c1 hn hns _ _ _ ns₂ coll h
    rw [stripNodes.eq_def] at h
    simp only [hn, hns] at h
    cases h
  · intro n ns n' c1 hn ns' collected hns ihn ihns hl ns₂ coll h
    rw [stripNodes.eq_def] at h
    simp only [hn, hns] at h
    injection h with h
    rw [Prod.mk.injEq] at h
    obtain ⟨h1, h2⟩ := h
    subst h1
    subst h2
    rw [linkedNs, Bool.and_eq_true] at hl
    obtain ⟨ihn1, ihn2⟩ := ihn hl.1 n' c1 hn
    obtain ⟨ihl1, ihl2⟩ := ihns hl.2 ns' collected hns
    rw [List.map_append]
    constructor
    · intro m hm sid hs
      rcases List.mem_cons.mp hm with hm | hm
      · subst hm
        exact List.mem_append_left _ (ihn1 sid hs)
      · exact List.mem_append_right _ (ihl1 m hm sid hs)
    · intro v hv m hm sid hs
      rcases List.mem_append.mp hv with hv | hv
      · exact List.mem_append_left _ (ihn2 v hv m hm sid hs)
      · exact List.mem_append_right _ (ihl2 v hv m hm sid hs)

/-- A linked tree whose serialization collects nothing is already flat. -/
theorem strip_plain : ∀ (ns ns₂ : List SNode),
    stripNodes ns = some (ns₂, []) → linkedNs ns = true →
    ns₂ = ns ∧ ∀ n ∈ ns, n.graphState = none ∧ n.core.subgraph = none := by
  intro ns
  induction ns with
  | nil =>
    intro ns₂ h _
    rw [stripNodes] at h
    injection h with h
    rw [Prod.mk.injEq] at h
    exact ⟨h.1.symm, fun n hn => absurd hn (List.not_mem_nil n)⟩
  | cons n ns ih =>
    intro ns₂ h hl
    rw [stripNodes.eq_def] at h
    rcases hn : stripNode n with _ | ⟨n', c1⟩
    · simp only [hn] at h
      cases h
    · simp only [hn] at h
      rcases hns : stripNodes ns with _ | ⟨ns', c2⟩
      · simp only [hns] at h
        cases h
      · simp only [hns] at h
        injection h with h
        rw [Prod.mk.injEq] at h
        obtain ⟨h1, h2⟩ := h
        have hc1 : c1 = [] := by
          rcases List.append_eq_nil.mp h2 with ⟨ha, _⟩
          exact ha
        have hc2 : c2 = [] := by
          rcases List.append_eq_nil.mp h2 with ⟨_, hb⟩
          exact hb
        subst hc1
        subst hc2
        rw [linkedNs, Bool.and_eq_true] at hl
        obtain ⟨hns2, hplain⟩ := ih ns' hns hl.2
        subst hns2
        rcases n with ⟨c, _ | ⟨gc, gns⟩⟩
        · have hcs : c.subgraph = none := by
            have := hl.1
            rw [linkedN] at this
            exact Option.isNone_iff_eq_none.mp this
          rw [stripNode.eq_def] at hn
          simp only [hcs] at hn
          injection hn with hn
          rw [Prod.mk.injEq] at hn
          rw [← h1, ← hn.1]
          refine ⟨rfl, ?_⟩
          intro m hm
          rcases List.mem_cons.mp hm with hm | hm
          · subst hm
            exact ⟨rfl, hcs⟩
          · exact hplain m hm
        · exfalso
          have hls := hl.1
          rw [linkedN, Bool.and_eq_true, decide_eq_true_eq] at hls
          rw [stripNode.eq_def] at hn
          simp only [hls.1] at hn
          rcases hst : stripNodes gns with _ | ⟨gns', collI⟩
          · simp only [hst] at hn
            cases hn
          · simp only [hst] at hn
            injection hn with hn
            rw [Prod.mk.injEq] at hn
            cases hn.2

/-- The nesting depth of a linked tree is bounded by one more than the
number of templates its serialization collects. -/
theorem depth_le_strip : ∀ ns : List SNode, linkedNs ns = true →
    ∀ ns₂ coll, stripNodes ns = some (ns₂, coll) →
    depthNodes ns ≤ coll.length + 1 := by
  refine stripNodes.induct
    (fun n => linkedN n = true → ∀ n' c1, stripNode n = some (n', c1) →
      depthNode n ≤ c1.length + 1)
    (fun ns => linkedNs ns = true → ∀ ns₂ coll, stripNodes ns = some (ns₂, coll) →
      depthNodes ns ≤ coll.length + 1)
    ?_ ?_ ?_ ?_ ?_ ?_ ?_ ?_
  · intro c val g ns hsub hstrip _ _ n' c1 hn
    rw [stripNode.eq_def] at hn
    simp only [hsub, hstrip] at hn
    cases hn
  · intro c val g ns hsub ns' collected hstrip ih hl n' c1 hn
    rw [stripNode.eq_def] at hn
    simp only [hsub, hstrip] at hn
    injection hn with hn
    rw [Prod.mk.injEq] at hn
    obtain ⟨hn1, hn2⟩ := hn
    subst hn2
    rw [linkedN, Bool.and_eq_true] at hl
    have hrec := ih hl.2 ns' collected hstrip
    rw [depthNode, List.length_cons]
    omega
  · intro c val hsub _ n' c1 hn
    rw [stripNode.eq_def] at hn
    simp only [hsub] at hn
    cases hn
  · intro c gs hsub hl n' c1 hn
    rw [stripNode.eq_def] at hn
    simp only [hsub] at hn
    injection hn with hn
    rw [Prod.mk.injEq] at hn
    obtain ⟨hn1, hn2⟩ := hn
    subst hn2
    rcases gs with _ | ⟨gc, gns⟩
    · rw [depthNode]
      omega
    · exfalso
      rw [linkedN, Bool.and_eq_true, decide_eq_true_eq, hsub] at hl
      cases hl.1
  · intro _ ns₂ coll h
    rw [stripNodes] at h
    injection h with h
    rw [Prod.mk.injEq] at h
    obtain ⟨h1, h2⟩ := h
    subst h2
    rw [depthNodes]
    omega
  · intro n ns hn _ _ ns₂ coll h
    rw [stripNodes.eq_def] at h
    simp only [hn] at h
    cases h
  · intro n ns n' c1 hn hns _ _ _ ns₂ coll h
    rw [stripNodes.eq_def] at h
    simp only [hn, hns] at h
    cases h
  · intro n ns n' c1 hn ns' collected hns ihn ihns hl ns₂ coll h
    rw [stripNodes.eq_def] at h
    simp only [hn, hns] at h
    injection h with h
    rw [Prod.mk.injEq] at h
    obtain ⟨h1, h2⟩ := h
    subst h2
    rw [linkedNs, Bool.and_eq_true] at hl
    have hd1 := ihn hl.1 n' c1 hn
    have hd2 := ihns hl.2 ns' collected hns
    rw [depthNodes, List.length_append]
    omega

/-- `findNode` at a member's id returns that member when ids are unique. -/
theorem findNode_self : ∀ (l : List SNode) (n : SNode), n ∈ l →
    (l.map (fun m => m.core.id)).Nodup → findNode l n.core.id = some n := by
  intro l
  induction l with
  | nil => intro n hn; cases hn
  | cons a l ih =>
    intro n hn hnd
    rw [List.map_cons, List.nodup_cons] at hnd
    obtain ⟨ha, hnd⟩ := hnd
    rw [findNode, List.find?]
    rcases List.mem_cons.mp hn with hn | hn
    · subst hn
      simp
    · have hne : (decide (a.core.id = n.core.id)) = false := by
        rw [decide_eq_false_iff_not]
        intro hcon
        exact ha (hcon ▸ List.mem_map_of_mem (fun m => m.core.id) hn)
      simp only [hne]
      exact ih n hn hnd

/-- The path computed by the `dfs` helper of `load` is either empty or a
well-formed navigation path from the searched node list to a graph carrying
the entry id. -/
theorem dfs_valid (eid : String) : ∀ (ns : List SNode) (p : List String),
    consDeepNs ns = true →
    dfsNodes eid ns p = [] ∨
    ∃ q, dfsNodes eid ns p = p ++ q ∧ q ≠ [] ∧
      ∀ ambient : List SNode, (∀ m ∈ ns, m ∈ ambient) →
        (ambient.map (fun m => m.core.id)).Nodup →
        pathN ambient q = true ∧
          ∃ h, descendN ambient q = some h ∧ h.core.id = eid := by
  have main := dfsNodes.induct eid
    (fun n path => consDeepN n = true →
      dfsNode eid n path = [] ∨
      ∃ q, dfsNode eid n path = path ++ q ∧ q ≠ [] ∧
        ∀ ambient : List SNode, n ∈ ambient →
          (ambient.map (fun m => m.core.id)).Nodup →
          pathN ambient q = true ∧
            ∃ h, descendN ambient q = some h ∧ h.core.id = eid)
    (fun ns path => consDeepNs ns = true →
      dfsNodes eid ns path = [] ∨
      ∃ q, dfsNodes eid ns path = path ++ q ∧ q ≠ [] ∧
        ∀ ambient : List SNode, (∀ m ∈ ns, m ∈ ambient) →
          (ambient.map (fun m => m.core.id)).Nodup →
          pathN ambient q = true ∧
            ∃ h, descendN ambient q = some h ∧ h.core.id = eid)
  refine fun ns p h => main ?_ ?_ ?_ ?_ ?_ ?_ ns p h
  · intro core x _
    exact Or.inl rfl
  · intro c gc gns path heq hcons
    right
    refine ⟨[c.id], ?_, by simp, ?_⟩
    · have hrw : dfsNode eid (.mk c (some (gc, gns))) path =
          if gc.id = eid then path ++ [c.id]
          else dfsNodes eid gns (path ++ [c.id]) := rfl
      rw [hrw, if_pos heq]
    · intro amb hmemb hnd
      have hf : findNode amb c.id = some (.mk c (some (gc, gns))) :=
        findNode_self amb (.mk c (some (gc, gns))) hmemb hnd
      constructor
      · rw [pathN]
        simp only [hf, SNode.graphState]
        rw [Bool.and_eq_true]
        exact ⟨decide_eq_true hnd, rfl⟩
      · refine ⟨⟨gc, gns⟩, ?_, heq⟩
        rw [descendN]
        simp only [hf, SNode.graphState]
  · intro c gc gns path hne ih hcons
    have hrw : dfsNode eid (.mk c (some (gc, gns))) path =
        if gc.id = eid then path ++ [c.id]
        else dfsNodes eid gns (path ++ [c.id]) := rfl
    rw [hrw, if_neg hne]
    obtain ⟨_, _, _, _, _, hndg, hcg⟩ := consDeepN_some hcons
    rcases ih hcg with hz | ⟨q, heq2, hqne, hfacts⟩
    · exact Or.inl hz
    · right
      refine ⟨c.id :: q, ?_, by simp, ?_⟩
      · rw [heq2]
        simp
      · intro amb hmemb hnd
        have hf : findNode amb c.id = some (.mk c (some (gc, gns))) :=
          findNode_self amb (.mk c (some (gc, gns))) hmemb hnd
        obtain ⟨hpq, h, hdq, hid⟩ := hfacts gns (fun m hm => hm) hndg
        constructor
        · rw [pathN]
          simp only [hf, SNode.graphState]
          rw [Bool.and_eq_true]
          exact ⟨decide_eq_true hnd, hpq⟩
        · refine ⟨h, ?_, hid⟩
          rw [descendN]
          simp only [hf, SNode.graphState]
          rcases q with _ | ⟨b, q'⟩
          · exact absurd rfl hqne
          · exact hdq
  · intro x _
    exact Or.inl rfl
  · intro n ns path hz _ ih2 hcons
    rw [consDeepNs, Bool.and_eq_true] at hcons
    have he : dfsNodes eid (n :: ns) path = dfsNodes eid ns path := by
      have hrw : dfsNodes eid (n :: ns) path =
          (match dfsNode eid n path with
           | [] => dfsNodes eid ns path
           | rp => rp) := rfl
      rw [hrw]
      simp only [hz]
    rw [he]
    rcases ih2 hcons.2 with hz2 | ⟨q, heq2, hqne, hfacts⟩
    · exact Or.inl hz2
    · right
      exact ⟨q, heq2, hqne, fun amb hmemb hnd =>
        hfacts amb (fun m hm => hmemb m (List.mem_cons_of_mem n hm)) hnd⟩
  · intro n ns path hnz ih1 hcons
    rw [consDeepNs, Bool.and_eq_true] at hcons
    rcases hr : dfsNode eid n path with _ | ⟨r, rs⟩
    · exact absurd hr hnz
    · have he : dfsNodes eid (n :: ns) path = dfsNode eid n path := by
        have hrw : dfsNodes eid (n :: ns) path =
            (match dfsNode eid n path with
             | [] => dfsNodes eid ns path
             | rp => rp) := rfl
        rw [hrw]
        simp only [hr]
      rcases ih1 hcons.1 with hz | ⟨q, heq2, hqne, hfacts⟩
      · rw [hr] at hz
        cases hz
      · right
        exact ⟨q, he.trans heq2, hqne, fun amb hmemb hnd =>
          hfacts amb (hmemb n (List.mem_cons_self n ns)) hnd⟩

/-- Rebuild: instantiating the serialized output of `recurrentSubgraphSave`
against a template list that resolves each collected template uniquely
reproduces the original live tree without errors, consuming the collected
ids in preorder. -/
theorem instB : ∀ ns : List SNode, linkedNs ns = true →
    ∀ ns₂ coll, stripNodes ns = some (ns₂, coll) →
    ∀ T : List SGraph,
    (∀ u ∈ coll, T.filter (fun x => x.core.id = u.core.id) = [u]) →
    (coll.map (fun t => t.core.id)).Nodup →
    ∀ fuel used,
    (∀ i ∈ coll.map (fun t => t.core.id), i ∉ used) →
    depthNodes ns ≤ fuel →
    instSeq (some T) fuel used ns₂ =
      some (ns, [], used ++ coll.map (fun t => t.core.id)) := by
  refine stripNodes.induct
    (fun n => linkedN n = true → ∀ n' c1, stripNode n = some (n', c1) →
      ∀ T : List SGraph,
      (∀ u ∈ c1, T.filter (fun x => x.core.id = u.core.id) = [u]) →
      (c1.map (fun t => t.core.id)).Nodup →
      ∀ fuel used,
      (∀ i ∈ c1.map (fun t => t.core.id), i ∉ used) →
      depthNode n ≤ fuel →
      instNode (some T) fuel used n' =
        some (n, [], used ++ c1.map (fun t => t.core.id)))
    (fun ns => linkedNs ns = true → ∀ ns₂ coll, stripNodes ns = some (ns₂, coll) →
      ∀ T : List SGraph,
      (∀ u ∈ coll, T.filter (fun x => x.core.id = u.core.id) = [u]) →
      (coll.map (fun t => t.core.id)).Nodup →
      ∀ fuel used,
      (∀ i ∈ coll.map (fun t => t.core.id), i ∉ used) →
      depthNodes ns ≤ fuel →
      instSeq (some T) fuel used ns₂ =
        some (ns, [], used ++ coll.map (fun t => t.core.id)))
    ?_ ?_ ?_ ?_ ?_ ?_ ?_ ?_
  · intro c val g ns hsub hstrip _ _ n' c1 hn
    rw [stripNode.eq_def] at hn
    simp only [hsub, hstrip] at hn
    cases hn
  · intro c val g ns hsub ns' collected hstrip ih hl n' c1 hn T hTfil hnodup
      fuel used hfresh hdepth
    rw [stripNode.eq_def] at hn
    simp only [hsub, hstrip] at hn
    injection hn with hn
    rw [Prod.mk.injEq] at hn
    obtain ⟨hn1, hn2⟩ := hn
    subst hn1
    subst hn2
    rw [linkedN, Bool.and_eq_true, decide_eq_true_eq] at hl
    rw [depthNode] at hdepth
    rcases fuel with _ | k
    · omega
    · have hk : depthNodes ns ≤ k := by omega
      have hgid : c.subgraph = some g.id := hl.1
      have hfil : T.filter (fun x => x.core.id = g.id) = [⟨g, ns'⟩] :=
        hTfil ⟨g, ns'⟩ (List.mem_cons_self _ collected)
      have hnu : g.id ∉ used :=
        hfresh g.id (List.mem_cons_self _ _)
      rw [instNode_owner none T k used g.id ⟨g, ns'⟩ hgid hfil hnu]
      rw [List.map_cons, List.nodup_cons] at hnodup
      have hrec := ih hl.2 ns' collected hstrip T
        (fun u hu => hTfil u (List.mem_cons_of_mem _ hu))
        hnodup.2 k (used ++ [g.id])
        (by
          intro i hi hmem
          rcases List.mem_append.mp hmem with hmem | hmem
          · exact hfresh i (List.mem_cons_of_mem _ hi) hmem
          · rw [List.mem_singleton] at hmem
            subst hmem
            exact hnodup.1 hi)
        hk
      rw [hrec]
      simp
  · intro c val hsub _ n' c1 hn
    rw [stripNode.eq_def] at hn
    simp only [hsub] at hn
    cases hn
  · intro c gs hsub hl n' c1 hn T _ _ fuel used _ hdepth
    rw [stripNode.eq_def] at hn
    simp only [hsub] at hn
    injection hn with hn
    rw [Prod.mk.injEq] at hn
    obtain ⟨hn1, hn2⟩ := hn
    subst hn1
    subst hn2
    rcases gs with _ | ⟨gc, gns⟩
    · rw [depthNode] at hdepth
      rcases fuel with _ | k
      · omega
      · rw [instNode_plain none (some T) k used hsub]
        simp
    · exfalso
      rw [linkedN, Bool.and_eq_true, decide_eq_true_eq, hsub] at hl
      cases hl.1
  · intro _ ns₂ coll h T _ _ fuel used _ _
    rw [stripNodes] at h
    injection h with h
    rw [Prod.mk.injEq] at h
    obtain ⟨h1, h2⟩ := h
    subst h1
    subst h2
    rw [instSeq]
    simp
  · intro n ns hn _ _ ns₂ coll h
    rw [stripNodes.eq_def] at h
    simp only [hn] at h
    cases h
  · intro n ns n' c1 hn hns _ _ _ ns₂ coll h
    rw [stripNodes.eq_def] at h
    simp only [hn, hns] at h
    cases h
  · intro n ns n' c1 hn ns' collected hns ihn ihns hl ns₂ coll h T hTfil hnodup
      fuel used hfresh hdepth
    rw [stripNodes.eq_def] at h
    simp only [hn, hns] at h
    injection h with h
    rw [Prod.mk.injEq] at h
    obtain ⟨h1, h2⟩ := h
    subst h1
    subst h2
    rw [linkedNs, Bool.and_eq_true] at hl
    rw [depthNodes] at hdepth
    have hdn : depthNode n ≤ fuel := le_trans (Nat.le_max_left _ _) hdepth
    have hdns : depthNodes ns ≤ fuel := le_trans (Nat.le_max_right _ _) hdepth
    rw [List.map_append] at hnodup hfresh ⊢
    rw [List.nodup_append] at hnodup
    obtain ⟨hnd1, hnd2, hdisj⟩ := hnodup
    have hstep := ihn hl.1 n' c1 hn T
      (fun u hu => hTfil u (List.mem_append_left collected hu)) hnd1 fuel used
      (fun i hi => hfresh i (List.mem_append_left _ hi)) hdn
    have hrest := ihns hl.2 ns' collected hns T
      (fun u hu => hTfil u (List.mem_append_right c1 hu)) hnd2 fuel
      (used ++ c1.map (fun t => t.core.id))
      (by
        intro i hi hmem
        rcases List.mem_append.mp hmem with hmem | hmem
        · exact hfresh i (List.mem_append_right _ hi) hmem
        · exact hdisj hmem hi)
      hdns
    rw [instSeq, hstep]
    simp only [hrest]
    simp

/-- Boundary inputs only depend on node cores. -/
theorem boundaryInputsOf_eq_cores (ns ms : List SNode)
    (h : ns.map SNode.core = ms.map SNode.core) :
    boundaryInputsOf ns = boundaryInputsOf ms := by
  rw [boundaryInputsOf, boundaryInputsOf,
    show (fun (n : SNode) =>
        if n.core.type = SUBGRAPH_INPUT_NODE_TYPE ∨
            n.core.type = SUBGRAPH_INOUT_NODE_TYPE then
          n.core.boundary
        else none) =
      (fun (c : NodeCore) =>
        if c.type = SUBGRAPH_INPUT_NODE_TYPE ∨
            c.type = SUBGRAPH_INOUT_NODE_TYPE then
          c.boundary
        else none) ∘ SNode.core from rfl,
    ← List.filterMap_map, ← List.filterMap_map, h]

/-- Boundary outputs only depend on node cores. -/
theorem boundaryOutputsOf_eq_cores (ns ms : List SNode)
    (h : ns.map SNode.core = ms.map SNode.core) :
    boundaryOutputsOf ns = boundaryOutputsOf ms := by
  rw [boundaryOutputsOf, boundaryOutputsOf,
    show (fun (n : SNode) =>
        if n.core.type = SUBGRAPH_OUTPUT_NODE_TYPE then n.core.boundary
        else none) =
      (fun (c : NodeCore) =>
        if c.type = SUBGRAPH_OUTPUT_NODE_TYPE then c.boundary else none) ∘
        SNode.core from rfl,
    ← List.filterMap_map, ← List.filterMap_map, h]

/-- Boundary-key well-formedness only depends on node cores. -/
theorem boundaryKeysOk_eq_cores (ns ms : List SNode)
    (h : ns.map SNode.core = ms.map SNode.core) :
    boundaryKeysOk ns = boundaryKeysOk ms := by
  rw [boundaryKeysOk, boundaryKeysOk, boundaryInputsOf_eq_cores ns ms h,
    boundaryOutputsOf_eq_cores ns ms h]

/-- Node ids only depend on node cores. -/
theorem ids_eq_cores (ns ms : List SNode)
    (h : ns.map SNode.core = ms.map SNode.core) :
    ns.map (fun n => n.core.id) = ms.map (fun n => n.core.id) := by
  rw [show (fun (n : SNode) => n.core.id) = (fun (c : NodeCore) => c.id) ∘
      SNode.core from rfl,
    ← List.map_map, ← List.map_map, h]

/-- The content of `flatOK`. -/
theorem flatOK_facts {subs : List SGraph} {g : SGraph}
    (h : flatOK subs g = true) :
    (g.nodes.map (fun n => n.core.id)).Nodup ∧
      ∀ n ∈ g.nodes, n.graphState = none ∧ ownerOK subs n.core = true := by
  rw [flatOK, Bool.and_eq_true, decide_eq_true_eq] at h
  refine ⟨h.1, ?_⟩
  intro n hn
  have := List.all_eq_true.mp h.2 n hn
  rw [Bool.and_eq_true] at this
  exact ⟨Option.isNone_iff_eq_none.mp this.1, this.2⟩

/-- The content of `templateOK`. -/
theorem templateOK_facts {subs : List SGraph} {t : SGraph}
    (h : templateOK subs t = true) :
    flatOK subs t = true ∧ t.core.inputs = boundaryInputsOf t.nodes ∧
      t.core.outputs = boundaryOutputsOf t.nodes := by
  rw [templateOK, Bool.and_eq_true, Bool.and_eq_true, decide_eq_true_eq,
    decide_eq_true_eq] at h
  exact ⟨h.1.1, h.1.2, h.2⟩

/-- Characterization of a successful `recurrentSubgraphLoad` run over a
structurally valid document: node cores are preserved, the result is linked
and deeply consistent, the `usedInstances` set stays duplicate-free, and
`recurrentSubgraphSave` inverts the instantiation, collecting exactly the
instantiated templates (as stored in the document) in preorder. -/
theorem instA : ∀ (fuel : Nat) (subsOpt : Option (List SGraph)),
    (∀ t ∈ subsOpt.getD [], templateOK (subsOpt.getD []) t = true) →
    ∀ ns0 : List SNode,
    (∀ n ∈ ns0, n.graphState = none ∧ ownerOK (subsOpt.getD []) n.core = true) →
    ∀ (used : List String) (ns1 : List SNode) (used1 : List String),
    instSeq subsOpt fuel used ns0 = some (ns1, [], used1) →
    ns1.map SNode.core = ns0.map SNode.core ∧
    linkedNs ns1 = true ∧
    consDeepNs ns1 = true ∧
    (used.Nodup → used1.Nodup) ∧
    ∃ coll, stripNodes ns1 = some (ns0, coll) ∧
      used1 = used ++ coll.map (fun t => t.core.id) ∧
      ∀ u ∈ coll, ∃ t ∈ subsOpt.getD [], u.core = t.core ∧ u.nodes = t.nodes := by
  intro fuel
  induction fuel with
  | zero =>
    intro subsOpt hT ns0 hflat used ns1 used1 hrun
    rcases ns0 with _ | ⟨n, ns0'⟩
    · rw [instSeq] at hrun
      injection hrun with hrun
      rw [Prod.mk.injEq] at hrun
      obtain ⟨h1, h2⟩ := hrun
      rw [Prod.mk.injEq] at h2
      obtain ⟨h2a, h2b⟩ := h2
      subst h1
      subst h2b
      exact ⟨rfl, rfl, rfl, fun h => h, [], rfl, by simp,
        fun u hu => absurd hu (List.not_mem_nil u)⟩
    · rw [instSeq] at hrun
      have hIN : instNode subsOpt 0 used n =
          some (n, ["instantiation fuel exhausted"], used) := rfl
      simp only [hIN] at hrun
      rcases hrest : instSeq subsOpt 0 used ns0' with _ | ⟨ns', e2, u2⟩
      · simp only [hrest] at hrun
        cases hrun
      · simp only [hrest] at hrun
        injection hrun with hrun
        rw [Prod.mk.injEq] at hrun
        have h2 := hrun.2
        rw [Prod.mk.injEq] at h2
        exact absurd h2.1 (List.cons_ne_nil _ _)
  | succ k ihf =>
    intro subsOpt hT ns0
    induction ns0 with
    | nil =>
      intro _ used ns1 used1 hrun
      rw [instSeq] at hrun
      injection hrun with hrun
      rw [Prod.mk.injEq] at hrun
      obtain ⟨h1, h2⟩ := hrun
      rw [Prod.mk.injEq] at h2
      obtain ⟨h2a, h2b⟩ := h2
      subst h1
      subst h2b
      exact ⟨rfl, rfl, rfl, fun h => h, [], rfl, by simp,
        fun u hu => absurd hu (List.not_mem_nil u)⟩
    | cons n ns0' ihl =>
      intro hflat used ns1 used1 hrun
      obtain ⟨hgs, hown⟩ := hflat n (List.mem_cons_self n ns0')
      have hflatR : ∀ m ∈ ns0', m.graphState = none ∧
          ownerOK (subsOpt.getD []) m.core = true :=
        fun m hm => hflat m (List.mem_cons_of_mem n hm)
      rcases n with ⟨c, gs⟩
      have hgsn : gs = none := by
        rcases gs with _ | p
        · rfl
        · rw [SNode.graphState] at hgs
          cases hgs
      subst hgsn
      simp only [SNode.core] at hown
      rw [instSeq] at hrun
      rcases hsub : c.subgraph with _ | sid
      · simp only [instNode_plain none subsOpt k used hsub] at hrun
        rcases hrest : instSeq subsOpt (k + 1) used ns0' with _ | ⟨ns', e2, u2⟩
        · simp only [hrest] at hrun
          cases hrun
        · simp only [hrest] at hrun
          injection hrun with hrun
          rw [Prod.mk.injEq] at hrun
          obtain ⟨h1, h2⟩ := hrun
          rw [Prod.mk.injEq] at h2
          obtain ⟨h2a, h2b⟩ := h2
          rw [List.nil_append] at h2a
          subst h2a
          subst h1
          rw [h2b] at hrest
          obtain ⟨coresR, linkedR, consR, nodupR, collR, stripR, usedR, tmplR⟩ :=
            ihl hflatR used ns' used1 hrest
          refine ⟨?_, ?_, ?_, nodupR, collR, ?_, usedR, tmplR⟩
          · rw [List.map_cons, List.map_cons, coresR]
          · rw [linkedNs, Bool.and_eq_true]
            refine ⟨?_, linkedR⟩
            rw [linkedN, hsub]
            rfl
          · rw [consDeepNs, Bool.and_eq_true]
            refine ⟨?_, consR⟩
            rw [consDeepN, hsub]
            rfl
          · have hsn : stripNode (.mk c none) = some (.mk c none, []) := by
              rw [stripNode.eq_def]
              simp only [hsub]
            rw [stripNodes.eq_def]
            simp only [hsn, stripR]
            rw [List.nil_append]
      · rcases subsOpt with _ | subs
        · have hIN : instNode none (k + 1) used (.mk c none) = none := by
            rw [instNode.eq_def]
            simp only [hsub]
          simp only [hIN] at hrun
          cases hrun
        · simp only [Option.getD_some] at hown
          rw [ownerOK.eq_def, hsub] at hown
          rcases hfil : subs.filter (fun t => t.core.id = sid) with _ | ⟨t, fs'⟩
          · simp only [hfil] at hown
            cases hown
          · rcases fs' with _ | ⟨t2, fs''⟩
            · simp only [hfil] at hown
              rw [Bool.and_eq_true, Bool.and_eq_true, decide_eq_true_eq,
                decide_eq_true_eq] at hown
              obtain ⟨⟨hcin, hcout⟩, hbko⟩ := hown
              have htmemf : t ∈ subs.filter (fun x => x.core.id = sid) := by
                rw [hfil]
                exact List.mem_cons_self t []
              have hmf := List.mem_filter.mp htmemf
              have htmem : t ∈ subs := hmf.1
              have htid : t.core.id = sid := of_decide_eq_true hmf.2
              by_cases hsidu : sid ∈ used
              · have hIN : instNode (some subs) (k + 1) used (.mk c none) =
                    some (.mk c none,
                      ["Subgraph " ++ sid ++
                       " has multiple nodes pointing to it - only unique IDs are allowed"],
                      used) := by
                  rw [instNode.eq_def]
                  simp only [hsub, hfil]
                  rw [if_pos hsidu]
                simp only [hIN] at hrun
                rcases hrest : instSeq (some subs) (k + 1) used ns0' with _ | ⟨ns', e2, u2⟩
                · simp only [hrest] at hrun
                  cases hrun
                · simp only [hrest] at hrun
                  injection hrun with hrun
                  rw [Prod.mk.injEq] at hrun
                  have h2 := hrun.2
                  rw [Prod.mk.injEq] at h2
                  exact absurd h2.1 (List.cons_ne_nil _ _)
              · rw [instNode_owner none subs k used sid t hsub hfil hsidu] at hrun
                rcases hinner : instSeq (some subs) k (used ++ [sid]) t.nodes
                  with _ | ⟨gns1, errsI, usedI⟩
                · simp only [hinner] at hrun
                  cases hrun
                · simp only [hinner] at hrun
                  rcases hrest : instSeq (some subs) (k + 1) usedI ns0'
                    with _ | ⟨ns', e2, u2⟩
                  · simp only [hrest] at hrun
                    cases hrun
                  · simp only [hrest] at hrun
                    injection hrun with hrun
                    rw [Prod.mk.injEq] at hrun
                    obtain ⟨h1, h2⟩ := hrun
                    rw [Prod.mk.injEq] at h2
                    obtain ⟨h2a, h2b⟩ := h2
                    rcases List.append_eq_nil.mp h2a with ⟨hei, he2⟩
                    subst hei
                    subst he2
                    subst h1
                    rw [h2b] at hrest
                    obtain ⟨hfT, htin, htout⟩ := templateOK_facts (hT t htmem)
                    obtain ⟨hndT, hflatT⟩ := flatOK_facts hfT
                    obtain ⟨coresI, linkedI, consI, nodupI, collI, stripI, usedIeq, tmplI⟩ :=
                      ihf (some subs) hT t.nodes hflatT (used ++ [sid]) gns1 usedI hinner
                    obtain ⟨coresR, linkedR, consR, nodupR, collR, stripR, usedR, tmplR⟩ :=
                      ihl hflatR usedI ns' used1 hrest
                    refine ⟨?_, ?_, ?_, ?_,
                      (⟨t.core, t.nodes⟩ :: collI) ++ collR, ?_, ?_, ?_⟩
                    · rw [List.map_cons, List.map_cons, coresR]
                      rfl
                    · rw [linkedNs, Bool.and_eq_true]
                      refine ⟨?_, linkedR⟩
                      rw [linkedN, Bool.and_eq_true, decide_eq_true_eq]
                      exact ⟨by rw [hsub, htid], linkedI⟩
                    · rw [consDeepNs, Bool.and_eq_true]
                      refine ⟨?_, consR⟩
                      rw [consDeepN]
                      simp only [Bool.and_eq_true, decide_eq_true_eq]
                      refine ⟨⟨⟨⟨⟨⟨?_, ?_⟩, ?_⟩, ?_⟩, ?_⟩, ?_⟩, consI⟩
                      · rw [hcin, boundaryInputsOf_eq_cores gns1 t.nodes coresI]
                      · rw [hcout, boundaryOutputsOf_eq_cores gns1 t.nodes coresI]
                      · rw [htin, boundaryInputsOf_eq_cores gns1 t.nodes coresI]
                      · rw [htout, boundaryOutputsOf_eq_cores gns1 t.nodes coresI]
                      · rw [boundaryKeysOk_eq_cores gns1 t.nodes coresI]
                        exact hbko
                      · rw [ids_eq_cores gns1 t.nodes coresI]
                        exact hndT
                    · intro hu
                      apply nodupR
                      apply nodupI
                      rw [List.nodup_append]
                      refine ⟨hu, List.nodup_singleton sid, ?_⟩
                      intro a ha hb
                      rw [List.mem_singleton] at hb
                      subst hb
                      exact hsidu ha
                    · have hsn : stripNode (.mk c (some (t.core, gns1))) =
                          some (.mk c none, ⟨t.core, t.nodes⟩ :: collI) := by
                        rw [stripNode.eq_def]
                        simp only [hsub, stripI]
                      rw [stripNodes.eq_def]
                      simp only [hsn, stripR]
                    · rw [usedR, usedIeq, List.map_append, List.map_cons, htid]
                      simp [List.append_assoc]
                    · intro u hu
                      rcases List.mem_append.mp hu with hu | hu
                      · rcases List.mem_cons.mp hu with hu | hu
                        · subst hu
                          exact ⟨t, htmem, rfl, rfl⟩
                        · exact tmplI u hu
                      · exact tmplR u hu
            · simp only [hfil] at hown
              cases hown

/-- Deleting already-absent root `inputs`/`outputs` is the identity. -/
theorem core_io_self (c : GraphCore) (h1 : c.inputs = []) (h2 : c.outputs = []) :
    ({ c with inputs := [], outputs := [] } : GraphCore) = c := by
  rcases c with ⟨a, b, d, e, f, g, h⟩
  simp only at h1 h2
  subst h1
  subst h2
  rfl

/-- When the saved `panning`/`scaling` agree with the displayed graph's
current values, the view epilogue of `load` is the identity. -/
theorem applyViewState_self (st : EState) (h : SGraph) (pan : Option (ℚ × ℚ))
    (scal : Option ℚ)
    (hp : pathOk st.root st.path = true)
    (hd : descend st.root st.path = some h)
    (hpan : ∀ p, pan = some p → h.core.panning = some p)
    (hscal : ∀ s, scal = some s → h.core.scaling = some s) :
    applyViewState st pan scal = st := by
  have hidp : ∀ p, pan = some p →
      (fun g => ({ g with core := { g.core with panning := some p } } : SGraph)) h
        = h := by
    intro p hpp
    have hpn := hpan p hpp
    rcases h with ⟨⟨a1, a2, a3, a4, a5, a6, a7⟩, hns⟩
    simp only at hpn
    subst hpn
    rfl
  have hids : ∀ s, scal = some s →
      (fun g => ({ g with core := { g.core with scaling := some s } } : SGraph)) h
        = h := by
    intro s hss
    have hsn := hscal s hss
    rcases h with ⟨⟨a1, a2, a3, a4, a5, a6, a7⟩, hns⟩
    simp only at hsn
    subst hsn
    rfl
  rw [applyViewState.eq_def]
  rcases pan with _ | p
  · rcases scal with _ | sc
    · rfl
    · dsimp only
      rw [modifyAt_of st.path st.root h _ hp hd (hids sc rfl)]
  · have hm1 : modifyAt st.root
        (fun g => { g with core := { g.core with panning := some p } })
        st.path = st.root :=
      modifyAt_of st.path st.root h _ hp hd (hidp p rfl)
    rcases scal with _ | sc
    · dsimp only
      rw [hm1]
    · dsimp only
      rw [hm1]
      rw [modifyAt_of st.path st.root h _ hp hd (hids sc rfl)]

/-- With an empty navigation path, the view epilogue only rewrites the root
graph's `panning`/`scaling` core fields. -/
theorem applyViewState_nil (st : EState) (pan : Option (ℚ × ℚ))
    (scal : Option ℚ) (hpath : st.path = []) :
    ∃ cw : GraphCore,
      applyViewState st pan scal = { st with root := ⟨cw, st.root.nodes⟩ } ∧
      cw.id = st.root.core.id ∧ cw.name = st.root.core.name ∧
      cw.connections = st.root.core.connections ∧
      cw.inputs = st.root.core.inputs ∧ cw.outputs = st.root.core.outputs := by
  rcases st with ⟨⟨⟨a1, a2, a3, a4, a5, a6, a7⟩, rn⟩, pp, ro, gn, sp⟩
  simp only at hpath
  subst hpath
  rcases pan with _ | p
  · rcases scal with _ | sc
    · exact ⟨⟨a1, a2, a3, a4, a5, a6, a7⟩, rfl, rfl, rfl, rfl, rfl, rfl⟩
    · exact ⟨⟨a1, a2, a3, a4, a5, a6, some sc⟩, rfl, rfl, rfl, rfl, rfl, rfl⟩
  · rcases scal with _ | sc
    · exact ⟨⟨a1, a2, a3, a4, a5, some p, a7⟩, rfl, rfl, rfl, rfl, rfl, rfl⟩
    · exact ⟨⟨a1, a2, a3, a4, a5, some p, some sc⟩, rfl, rfl, rfl, rfl, rfl, rfl⟩

/-- `switchAlong` is the same iteration as `pushAll`. -/
theorem switchAlong_eq_pushAll : ∀ (q : List String) (st : EState),
    switchAlong st q = pushAll q st := by
  intro q
  induction q with
  | nil => intro st; rfl
  | cons nid rest ih =>
    intro st
    rw [switchAlong, pushAll]
    rcases hs : switchToSubgraphE st nid with _ | st'
    · rfl
    · exact ih st'

/-- Successful tail of `load`: with a clean instantiation, no connection
errors and a successful navigation replay, `loadBody` returns the empty
error list and the replayed state with the view epilogue applied. -/
theorem loadBody_ok (D : Document) (st : EState) (ro : Bool) (root : SGraph)
    (eidOpt : Option String) (pan : Option (ℚ × ℚ)) (scal : Option ℚ)
    (entryName : String) (ns1 : List SNode) (usedF : List String) (st3 : EState)
    (hinst : instNodes D.subgraphs (fuelOf D) [] root.nodes =
      some (ns1, [], usedF))
    (hge : graphLoadErrors
      ⟨{ root.core with inputs := [], outputs := [] }, ns1⟩ = [])
    (hsw : (match eidOpt with
        | some eid => switchAlong
            { st with
              root := (⟨{ root.core with inputs := [], outputs := [] }, ns1⟩ : SGraph),
              path := ([] : List String), graphName := some entryName,
              readonly := ro }
            (dfsNodes eid ns1 [])
        | none => some
            { st with
              root := (⟨{ root.core with inputs := [], outputs := [] }, ns1⟩ : SGraph),
              path := ([] : List String), graphName := some entryName,
              readonly := ro }) = some st3) :
    loadBody D st ro root eidOpt pan scal entryName =
      (.ret [], applyViewState st3 pan scal) := by
  rw [loadBody.eq_def]
  simp only [hinst]
  rw [if_neg (by intro hcon; exact hcon rfl)]
  rw [if_neg (by intro hcon; exact hcon.1 hge)]
  simp only [hsw, hge]

/-- If some member's search succeeds, the list search succeeds. -/
theorem dfsNodes_ne_of_mem (eid : String) (p : List String) :
    ∀ (ns : List SNode) (n : SNode), n ∈ ns → dfsNode eid n p ≠ [] →
    dfsNodes eid ns p ≠ [] := by
  intro ns
  induction ns with
  | nil => intro n hn; cases hn
  | cons m ms ih =>
    intro n hn hne
    have hrw : dfsNodes eid (m :: ms) p =
        (match dfsNode eid m p with
         | [] => dfsNodes eid ms p
         | rp => rp) := rfl
    rcases hdm : dfsNode eid m p with _ | ⟨r, rs⟩
    · rw [hrw]
      simp only [hdm]
      rcases List.mem_cons.mp hn with hn | hn
      · subst hn
        exact absurd hdm hne
      · exact ih n hn hne
    · rw [hrw]
      simp only [hdm]
      exact List.cons_ne_nil r rs

/-- Completeness of the `dfs` helper: a graph with the entry id reachable
through a well-formed path is found. -/
theorem dfs_complete (eid : String) : ∀ (q : List String), q ≠ [] →
    ∀ (ns : List SNode) (h : SGraph) (p : List String),
    pathN ns q = true → descendN ns q = some h → h.core.id = eid →
    dfsNodes eid ns p ≠ [] := by
  intro q
  induction q with
  | nil => intro hq; exact absurd rfl hq
  | cons nid rest ih =>
    intro _ ns h p hpN hdN hid
    rw [pathN, Bool.and_eq_true] at hpN
    obtain ⟨_, hpN⟩ := hpN
    rw [descendN] at hdN
    rcases hfn : findNode ns nid with _ | n
    · simp only [hfn] at hdN
      cases hdN
    · simp only [hfn] at hdN hpN
      rcases hgs : n.graphState with _ | sg
      · simp only [hgs] at hdN
        cases hdN
      · simp only [hgs] at hdN hpN
        rcases n with ⟨c, _ | ⟨gc, gns⟩⟩
        · rw [SNode.graphState] at hgs
          cases hgs
        · rw [SNode.graphState] at hgs
          injection hgs with hgs
          subst hgs
          have hmem := List.mem_of_find?_eq_some hfn
          apply dfsNodes_ne_of_mem eid p ns _ hmem
          have hrw : dfsNode eid (.mk c (some (gc, gns))) p =
              if gc.id = eid then p ++ [c.id]
              else dfsNodes eid gns (p ++ [c.id]) := rfl
          rw [hrw]
          by_cases hgid : gc.id = eid
          · rw [if_pos hgid]
            simp
          · rw [if_neg hgid]
            rcases rest with _ | ⟨b, rest'⟩
            · injection hdN with hdN
              rw [← hdN] at hid
              exact absurd hid hgid
            · exact ih (by simp) gns h (p ++ [c.id]) hpN hdN hid

/-- `load` on a single-graph document of plain nodes. -/
theorem loadE_single_ok (st0 : EState) (core : GraphCore) (ns : List SNode)
    (hplain : ∀ n ∈ ns, n.core.subgraph = none)
    (hge : graphLoadErrors ⟨{ core with inputs := [], outputs := [] }, ns⟩ = []) :
    loadE ⟨some (.single ⟨core, ns⟩), none⟩ st0 =
      (.ret [], applyViewState
        { { unregisterGraphsE st0 with readonly := true } with
          root := (⟨{ core with inputs := [], outputs := [] }, ns⟩ : SGraph),
          path := ([] : List String), graphName := some core.name,
          readonly := (unregisterGraphsE st0).readonly }
        core.panning core.scaling) := by
  rw [loadE.eq_def]
  dsimp only
  exact loadBody_ok ⟨some (.single ⟨core, ns⟩), none⟩
    { unregisterGraphsE st0 with readonly := true }
    (unregisterGraphsE st0).readonly ⟨core, ns⟩ none core.panning core.scaling
    core.name ns [] _
    (by
      rw [instNodes_eq_instSeq]
      exact instSeq_plain none 0 ns [] hplain)
    hge rfl

/-- `load` on a multi-graph document with resolvable root and entry. -/
theorem loadE_entry_ok (st0 : EState) (eid : String) (subs : List SGraph)
    (root entry : SGraph) (ns1 : List SNode) (usedF : List String) (st3 : EState)
    (hfr : subs.find? (fun g => !((usedSubgraphIds subs).contains g.core.id)) =
      some root)
    (hfe : subs.find? (fun g => g.core.id = eid) = some entry)
    (hinst : instNodes (some subs) (fuelOf ⟨some (.entry eid), some subs⟩) []
      root.nodes = some (ns1, [], usedF))
    (hge : graphLoadErrors
      ⟨{ root.core with inputs := [], outputs := [] }, ns1⟩ = [])
    (hsw : switchAlong
        { { unregisterGraphsE st0 with readonly := true } with
          root := (⟨{ root.core with inputs := [], outputs := [] }, ns1⟩ : SGraph),
          path := ([] : List String), graphName := some entry.core.name,
          readonly := (unregisterGraphsE st0).readonly }
        (dfsNodes eid ns1 []) = some st3) :
    loadE ⟨some (.entry eid), some subs⟩ st0 =
      (.ret [], applyViewState st3 entry.core.panning entry.core.scaling) := by
  rw [loadE.eq_def]
  dsimp only
  simp only [hfr, hfe]
  exact loadBody_ok ⟨some (.entry eid), some subs⟩
    { unregisterGraphsE st0 with readonly := true }
    (unregisterGraphsE st0).readonly root (some eid) entry.core.panning
    entry.core.scaling entry.core.name ns1 usedF st3 hinst hge hsw

/-- Master round trip: on a consistent, linked state whose root graph is in
freshly-loaded shape (empty root `inputs`/`outputs`, valid connections, root
id fresh with respect to the collected templates), `save()` succeeds and
`load`ing the document it produced restores exactly the same graph tree. -/
theorem loadE_of_saveE (st1 : EState)
    (hg : consDeepG st1.root = true)
    (hl : linkedNs st1.root.nodes = true)
    (hp : pathOk st1.root st1.path = true)
    (hcc : st1.subgraphNodePositions = [])
    (hio1 : st1.root.core.inputs = [])
    (hio2 : st1.root.core.outputs = [])
    (hge : graphLoadErrors st1.root = [])
    (hfresh : ∀ ns₂ coll, stripNodes st1.root.nodes = some (ns₂, coll) →
      st1.root.core.id ∉ coll.map (fun t => t.core.id) ∧
      (coll.map (fun t => t.core.id)).Nodup) :
    ∃ doc st1' st2, saveE st1 = some (doc, st1') ∧
      loadE doc st1' = (.ret [], st2) ∧ st2.root = st1.root := by
  obtain ⟨ag, hdag⟩ := descend_of_pathOk st1.path st1.root hp
  have hag : activeOf st1 = some ag := hdag
  obtain ⟨ns₂, coll, st1', hstrip, hsave, hroot', hpath', hcc', hro', hact'⟩ :=
    saveE_spec st1 ag hg hp hcc hag
  obtain ⟨hrid, hndcoll⟩ := hfresh ns₂ coll hstrip
  have hcore : ({ st1.root.core with inputs := [], outputs := [] } : GraphCore)
      = st1.root.core := core_io_self _ hio1 hio2
  have hgN : consDeepNs st1.root.nodes = true := by
    have hx := hg
    rw [consDeepG, Bool.and_eq_true] at hx
    exact hx.2
  have hndroot : (st1.root.nodes.map (fun n => n.core.id)).Nodup := by
    have hx := hg
    rw [consDeepG, Bool.and_eq_true] at hx
    exact of_decide_eq_true hx.1
  by_cases hcoll : coll = []
  · -- single-graph document
    subst hcoll
    rw [if_pos (show ([] : List SGraph).length = 0 from rfl)] at hsave
    rw [hcore] at hsave
    obtain ⟨hns₂, hplain⟩ := strip_plain st1.root.nodes ns₂ hstrip hl
    subst hns₂
    have hplain2 : ∀ n ∈ st1.root.nodes, n.core.subgraph = none :=
      fun n hn => (hplain n hn).2
    have hload := loadE_single_ok st1' st1.root.core st1.root.nodes hplain2
      (by rw [hcore]; exact hge)
    have hview := applyViewState_self
      ({ { unregisterGraphsE st1' with readonly := true } with
        root := (⟨{ st1.root.core with inputs := [], outputs := [] },
          st1.root.nodes⟩ : SGraph),
        path := ([] : List String), graphName := some st1.root.core.name,
        readonly := (unregisterGraphsE st1').readonly } : EState)
      (⟨{ st1.root.core with inputs := [], outputs := [] },
        st1.root.nodes⟩ : SGraph)
      st1.root.core.panning st1.root.core.scaling (by rfl) (by rfl)
      (fun p hpp => hpp) (fun s hss => hss)
    rw [hview] at hload
    refine ⟨_, st1', _, hsave, hload, ?_⟩
    show (⟨{ st1.root.core with inputs := [], outputs := [] },
      st1.root.nodes⟩ : SGraph) = st1.root
    rw [hcore]
  · -- multi-graph document
    rw [if_neg (fun h0 => hcoll (List.length_eq_zero.mp h0))] at hsave
    rw [hcore] at hsave
    obtain ⟨hrefTop, hrefTmpl⟩ := strip_refs_sub st1.root.nodes hl ns₂ coll hstrip
    have howners := strip_refs st1.root.nodes hl ns₂ coll hstrip
    have hused2 : ∀ u ∈ coll, u.core.id ∈
        usedSubgraphIds (coll ++ [(⟨st1.root.core, ns₂⟩ : SGraph)]) := by
      intro u hu
      rw [mem_usedSubgraphIds]
      rcases howners u hu with ⟨m, hm, hr⟩ | ⟨v, hv, m, hm, hr⟩
      · exact ⟨⟨st1.root.core, ns₂⟩,
          List.mem_append_right coll (List.mem_singleton.mpr rfl), m, hm, hr⟩
      · exact ⟨v, List.mem_append_left _ hv, m, hm, hr⟩
    have hrootfresh : st1.root.core.id ∉
        usedSubgraphIds (coll ++ [(⟨st1.root.core, ns₂⟩ : SGraph)]) := by
      intro hcon
      rw [mem_usedSubgraphIds] at hcon
      obtain ⟨g, hgmem, m, hm, hr⟩ := hcon
      rcases List.mem_append.mp hgmem with hgm | hgm
      · exact hrid (hrefTmpl g hgm m hm _ hr)
      · rw [List.mem_singleton] at hgm
        subst hgm
        exact hrid (hrefTop m hm _ hr)
    have hfr : (coll ++ [(⟨st1.root.core, ns₂⟩ : SGraph)]).find?
        (fun g => !((usedSubgraphIds
          (coll ++ [(⟨st1.root.core, ns₂⟩ : SGraph)])).contains g.core.id)) =
        some ⟨st1.root.core, ns₂⟩ := by
      rw [find_append_right]
      · rw [List.find?]
        have hcf : ((usedSubgraphIds
            (coll ++ [(⟨st1.root.core, ns₂⟩ : SGraph)])).contains
            (⟨st1.root.core, ns₂⟩ : SGraph).core.id) = false := by
          rcases hb : ((usedSubgraphIds
              (coll ++ [(⟨st1.root.core, ns₂⟩ : SGraph)])).contains
              (⟨st1.root.core, ns₂⟩ : SGraph).core.id) with _ | _
          · rfl
          · exact absurd (List.mem_of_elem_eq_true hb) hrootfresh
        rw [hcf]
        rfl
      · intro u hu
        have hct : ((usedSubgraphIds
            (coll ++ [(⟨st1.root.core, ns₂⟩ : SGraph)])).contains u.core.id) = true :=
          List.elem_eq_true_of_mem (hused2 u hu)
        rw [hct]
        rfl
    have hTfil : ∀ u ∈ coll,
        (coll ++ [(⟨st1.root.core, ns₂⟩ : SGraph)]).filter
          (fun x => x.core.id = u.core.id) = [u] := by
      intro u hu
      rw [List.filter_append, filter_id_unique coll u hu hndcoll]
      have hone : ([(⟨st1.root.core, ns₂⟩ : SGraph)].filter
          (fun x => x.core.id = u.core.id)) = [] := by
        rw [List.filter_eq_nil_iff]
        intro x hx
        rw [List.mem_singleton] at hx
        subst hx
        intro hcon
        apply hrid
        have hxid : st1.root.core.id = u.core.id := of_decide_eq_true hcon
        rw [hxid]
        exact List.mem_map_of_mem (fun t => t.core.id) hu
      rw [hone, List.append_nil]
    have hdepthF : depthNodes st1.root.nodes ≤
        fuelOf ⟨some (.entry ag.core.id),
          some (coll ++ [(⟨st1.root.core, ns₂⟩ : SGraph)])⟩ := by
      have h1 := depth_le_strip st1.root.nodes hl ns₂ coll hstrip
      have h2 : fuelOf ⟨some (.entry ag.core.id),
          some (coll ++ [(⟨st1.root.core, ns₂⟩ : SGraph)])⟩ =
          (coll ++ [(⟨st1.root.core, ns₂⟩ : SGraph)]).length + 1 := rfl
      rw [h2, List.length_append]
      simp only [List.length_singleton]
      omega
    have hinstSeq := instB st1.root.nodes hl ns₂ coll hstrip
      (coll ++ [(⟨st1.root.core, ns₂⟩ : SGraph)]) hTfil hndcoll
      (fuelOf ⟨some (.entry ag.core.id),
        some (coll ++ [(⟨st1.root.core, ns₂⟩ : SGraph)])⟩)
      [] (fun i _ => List.not_mem_nil i) hdepthF
    have hinstN : instNodes (some (coll ++ [(⟨st1.root.core, ns₂⟩ : SGraph)]))
        (fuelOf ⟨some (.entry ag.core.id),
          some (coll ++ [(⟨st1.root.core, ns₂⟩ : SGraph)])⟩)
        [] (⟨st1.root.core, ns₂⟩ : SGraph).nodes =
        some (st1.root.nodes, [], [] ++ coll.map (fun t => t.core.id)) := by
      rw [instNodes_eq_instSeq]
      exact hinstSeq
    have hgeW : graphLoadErrors
        ⟨{ (⟨st1.root.core, ns₂⟩ : SGraph).core with
            inputs := [], outputs := [] }, st1.root.nodes⟩ = [] := by
      rw [show ({ (⟨st1.root.core, ns₂⟩ : SGraph).core with
          inputs := [], outputs := [] } : GraphCore) =
        ({ st1.root.core with inputs := [], outputs := [] } : GraphCore)
        from rfl, hcore]
      exact hge
    rcases hpe : st1.path with _ | ⟨pa, pp'⟩
    · -- the root graph was displayed at save time
      rw [hpe, descend] at hdag
      injection hdag with hdag
      subst hdag
      have hfe : (coll ++ [(⟨st1.root.core, ns₂⟩ : SGraph)]).find?
          (fun g => g.core.id = st1.root.core.id) =
          some ⟨st1.root.core, ns₂⟩ := by
        rw [find_append_right]
        · rw [List.find?]
          have hdx : (decide ((⟨st1.root.core, ns₂⟩ : SGraph).core.id =
              st1.root.core.id)) = true := decide_eq_true rfl
          rw [hdx]
        · intro u hu
          have hne : (decide (u.core.id = st1.root.core.id)) = false := by
            rw [decide_eq_false_iff_not]
            intro hcon
            apply hrid
            rw [← hcon]
            exact List.mem_map_of_mem (fun t => t.core.id) hu
          exact hne
      have hdfs : dfsNodes st1.root.core.id st1.root.nodes [] = [] := by
        rcases dfs_valid st1.root.core.id st1.root.nodes [] hgN with
          hz | ⟨q, heq, hqne, hfacts⟩
        · exact hz
        · exfalso
          obtain ⟨hpq, h2, hd2, hid2⟩ := hfacts st1.root.nodes (fun m hm => hm) hndroot
          obtain ⟨h2ns, h2coll, _, h2mem, _⟩ :=
            strip_descend q st1.root.nodes ns₂ coll h2 hstrip hl hd2
          apply hrid
          rw [← hid2]
          exact List.mem_map_of_mem (fun t => t.core.id) h2mem
      have hload := loadE_entry_ok st1' st1.root.core.id
        (coll ++ [(⟨st1.root.core, ns₂⟩ : SGraph)])
        ⟨st1.root.core, ns₂⟩ ⟨st1.root.core, ns₂⟩ st1.root.nodes
        ([] ++ coll.map (fun t => t.core.id)) _ hfr hfe hinstN hgeW
        (by rw [hdfs]; rfl)
      have hview := applyViewState_self
        ({ { unregisterGraphsE st1' with readonly := true } with
          root := (⟨{ (⟨st1.root.core, ns₂⟩ : SGraph).core with
            inputs := [], outputs := [] }, st1.root.nodes⟩ : SGraph),
          path := ([] : List String),
          graphName := some (⟨st1.root.core, ns₂⟩ : SGraph).core.name,
          readonly := (unregisterGraphsE st1').readonly } : EState)
        (⟨{ (⟨st1.root.core, ns₂⟩ : SGraph).core with
          inputs := [], outputs := [] }, st1.root.nodes⟩ : SGraph)
        (⟨st1.root.core, ns₂⟩ : SGraph).core.panning
        (⟨st1.root.core, ns₂⟩ : SGraph).core.scaling (by rfl) (by rfl)
        (fun p hpp => hpp) (fun s hss => hss)
      rw [hview] at hload
      refine ⟨_, st1', _, hsave, hload, ?_⟩
      show (⟨{ (⟨st1.root.core, ns₂⟩ : SGraph).core with
        inputs := [], outputs := [] }, st1.root.nodes⟩ : SGraph) = st1.root
      rw [show ({ (⟨st1.root.core, ns₂⟩ : SGraph).core with
          inputs := [], outputs := [] } : GraphCore) =
        ({ st1.root.core with inputs := [], outputs := [] } : GraphCore)
        from rfl, hcore]
    · -- a nested subgraph was displayed at save time
      rw [hpe] at hdag hp
      have hdagN : descendN st1.root.nodes (pa :: pp') = some ag := by
        rw [← descend_eq_descendN (pa :: pp') (List.cons_ne_nil pa pp') st1.root]
        exact hdag
      obtain ⟨agns, agcoll, hagstrip, hagmem, _⟩ :=
        strip_descend (pa :: pp') st1.root.nodes ns₂ coll ag hstrip hl hdagN
      have hfe : (coll ++ [(⟨st1.root.core, ns₂⟩ : SGraph)]).find?
          (fun g => g.core.id = ag.core.id) = some ⟨ag.core, agns⟩ := by
        apply find_append_left
        exact find_id_unique coll ⟨ag.core, agns⟩ ag.core.id hagmem hndcoll rfl
      have hdfsne : dfsNodes ag.core.id st1.root.nodes [] ≠ [] := by
        apply dfs_complete ag.core.id (pa :: pp') (List.cons_ne_nil pa pp')
          st1.root.nodes ag [] ?_ hdagN rfl
        rw [← pathOk_eq_pathN]
        exact hp
      rcases dfs_valid ag.core.id st1.root.nodes [] hgN with
        hz | ⟨q2, heq2, hq2ne, hfacts⟩
      · exact absurd hz hdfsne
      obtain ⟨hpq2, h2, hd2, hid2⟩ := hfacts st1.root.nodes (fun m hm => hm) hndroot
      rw [List.nil_append] at heq2
      obtain ⟨h2ns, h2coll, _, h2mem, _⟩ :=
        strip_descend q2 st1.root.nodes ns₂ coll h2 hstrip hl hd2
      have hcoreq : (⟨h2.core, h2ns⟩ : SGraph) = (⟨ag.core, agns⟩ : SGraph) :=
        List.inj_on_of_nodup_map hndcoll h2mem hagmem hid2
      have hch2 : h2.core = ag.core := by
        have hpr := congrArg SGraph.core hcoreq
        exact hpr
      have hpush := pushAll_consistent q2 []
        ({ { unregisterGraphsE st1' with readonly := true } with
          root := (⟨{ (⟨st1.root.core, ns₂⟩ : SGraph).core with
            inputs := [], outputs := [] }, st1.root.nodes⟩ : SGraph),
          path := ([] : List String),
          graphName := some (⟨ag.core, agns⟩ : SGraph).core.name,
          readonly := (unregisterGraphsE st1').readonly } : EState)
        (⟨{ (⟨st1.root.core, ns₂⟩ : SGraph).core with
          inputs := [], outputs := [] }, st1.root.nodes⟩ : SGraph)
        hg (hcc'.trans hcc) (by rfl) (by rfl)
        (by rw [pathOk_eq_pathN]; exact hpq2) (by rfl)
      obtain ⟨hfin, hdfin, hpush⟩ := hpush
      rw [List.nil_append] at hdfin hpush
      have hdq2 : descend
          (⟨{ (⟨st1.root.core, ns₂⟩ : SGraph).core with
            inputs := [], outputs := [] }, st1.root.nodes⟩ : SGraph) q2 =
          some h2 := by
        rw [descend_eq_descendN q2 hq2ne]
        exact hd2
      rw [hdq2] at hdfin
      injection hdfin with hfeq
      subst hfeq
      have hload := loadE_entry_ok st1' ag.core.id
        (coll ++ [(⟨st1.root.core, ns₂⟩ : SGraph)])
        ⟨st1.root.core, ns₂⟩ ⟨ag.core, agns⟩ st1.root.nodes
        ([] ++ coll.map (fun t => t.core.id)) _ hfr hfe hinstN hgeW
        (by rw [heq2, switchAlong_eq_pushAll]; exact hpush)
      have hview := applyViewState_self
        ({ ({ { unregisterGraphsE st1' with readonly := true } with
            root := (⟨{ (⟨st1.root.core, ns₂⟩ : SGraph).core with
              inputs := [], outputs := [] }, st1.root.nodes⟩ : SGraph),
            path := ([] : List String),
            graphName := some (⟨ag.core, agns⟩ : SGraph).core.name,
            readonly := (unregisterGraphsE st1').readonly } : EState) with
          path := q2,
          graphName := if q2.isEmpty then
            (some (⟨ag.core, agns⟩ : SGraph).core.name : Option String)
            else some h2.core.name } : EState)
        h2
        (⟨ag.core, agns⟩ : SGraph).core.panning
        (⟨ag.core, agns⟩ : SGraph).core.scaling
        (by rw [pathOk_eq_pathN]; exact hpq2) hdq2
        (fun p hpp => by rw [hch2]; exact hpp)
        (fun s hss => by rw [hch2]; exact hss)
      rw [hview] at hload
      refine ⟨_, st1', _, hsave, hload, ?_⟩
      show (⟨{ (⟨st1.root.core, ns₂⟩ : SGraph).core with
        inputs := [], outputs := [] }, st1.root.nodes⟩ : SGraph) = st1.root
      rw [show ({ (⟨st1.root.core, ns₂⟩ : SGraph).core with
          inputs := [], outputs := [] } : GraphCore) =
        ({ st1.root.core with inputs := [], outputs := [] } : GraphCore)
        from rfl, hcore]

/-- Connection validation only reads connections and nodes. -/
theorem graphLoadErrors_congr (c1 c2 : GraphCore) (ns : List SNode)
    (h : c1.connections = c2.connections) :
    graphLoadErrors ⟨c1, ns⟩ = graphLoadErrors ⟨c2, ns⟩ := by
  rw [graphLoadErrors, graphLoadErrors]
  dsimp only
  rw [h]

/-- A collected template id is never the ambient root id when the root id is
unreferenced in the ambient document. -/
theorem collFresh (ns1 ns₂ : List SNode) (coll : List SGraph)
    (ambientSubs : List SGraph) (rid : String)
    (hstrip : stripNodes ns1 = some (ns₂, coll))
    (hl : linkedNs ns1 = true)
    (hmemsub : ∀ u ∈ coll, ∃ t ∈ ambientSubs, u.core = t.core ∧ u.nodes = t.nodes)
    (hgSub : ∃ gA ∈ ambientSubs, gA.nodes = ns₂)
    (hrfresh : rid ∉ usedSubgraphIds ambientSubs) :
    rid ∉ coll.map (fun t => t.core.id) := by
  intro hin
  rw [List.mem_map] at hin
  obtain ⟨u, hu, huid⟩ := hin
  have how := strip_refs ns1 hl ns₂ coll hstrip u hu
  apply hrfresh
  rw [mem_usedSubgraphIds]
  rcases how with ⟨m, hm, hr⟩ | ⟨v, hv, m, hm, hr⟩
  · obtain ⟨gA, hgA, hgAn⟩ := hgSub
    exact ⟨gA, hgA, m, by rw [hgAn]; exact hm, by rw [hr, huid]⟩
  · obtain ⟨t, ht, _, htn⟩ := hmemsub v hv
    exact ⟨t, ht, m, by rw [← htn]; exact hm, by rw [hr, huid]⟩

/-- Inversion of a successful single-graph `load`. -/
theorem loadE_single_inv (st0 : EState) (g : SGraph)
    (subsOpt : Option (List SGraph)) (st1 : EState)
    (hrun : loadE ⟨some (.single g), subsOpt⟩ st0 = (.ret [], st1)) :
    ∃ ns1 usedF,
      instNodes subsOpt (fuelOf ⟨some (.single g), subsOpt⟩) [] g.nodes =
        some (ns1, [], usedF) ∧
      graphLoadErrors ⟨{ g.core with inputs := [], outputs := [] }, ns1⟩ = [] ∧
      st1 = applyViewState
        { { unregisterGraphsE st0 with readonly := true } with
          root := (⟨{ g.core with inputs := [], outputs := [] }, ns1⟩ : SGraph),
          path := ([] : List String), graphName := some g.core.name,
          readonly := (unregisterGraphsE st0).readonly }
        g.core.panning g.core.scaling := by
  rw [loadE.eq_def] at hrun
  dsimp only at hrun
  rw [loadBody.eq_def] at hrun
  dsimp only at hrun
  split at hrun
  · rw [Prod.mk.injEq] at hrun
    obtain ⟨h1, _⟩ := hrun
    injection h1 with h1
    exact absurd h1 (List.cons_ne_nil _ _)
  · rename_i ns1 errs usedF hinst
    split at hrun
    · rename_i hne
      rw [Prod.mk.injEq] at hrun
      obtain ⟨h1, _⟩ := hrun
      injection h1 with h1
      exact absurd h1 hne
    · rename_i hnne
      have herrs : errs = [] := not_not.mp hnne
      subst herrs
      split at hrun
      · rename_i hcond
        rw [Prod.mk.injEq] at hrun
        obtain ⟨h1, _⟩ := hrun
        injection h1 with h1
        exact absurd h1 hcond.1
      · rw [Prod.mk.injEq] at hrun
        obtain ⟨h1, h2⟩ := hrun
        injection h1 with h1
        exact ⟨ns1, usedF, hinst, h1, h2.symm⟩

/-- Inversion of a successful multi-graph `load`. -/
theorem loadE_entry_inv (st0 : EState) (eid : String) (subs : List SGraph)
    (st1 : EState)
    (hrun : loadE ⟨some (.entry eid), some subs⟩ st0 = (.ret [], st1)) :
    ∃ root entry ns1 usedF st3,
      subs.find? (fun g => !((usedSubgraphIds subs).contains g.core.id)) =
        some root ∧
      subs.find? (fun g => g.core.id = eid) = some entry ∧
      instNodes (some subs) (fuelOf ⟨some (.entry eid), some subs⟩) []
        root.nodes = some (ns1, [], usedF) ∧
      graphLoadErrors ⟨{ root.core with inputs := [], outputs := [] }, ns1⟩ = [] ∧
      switchAlong
        { { unregisterGraphsE st0 with readonly := true } with
          root := (⟨{ root.core with inputs := [], outputs := [] }, ns1⟩ : SGraph),
          path := ([] : List String), graphName := some entry.core.name,
          readonly := (unregisterGraphsE st0).readonly }
        (dfsNodes eid ns1 []) = some st3 ∧
      st1 = applyViewState st3 entry.core.panning entry.core.scaling := by
  rw [loadE.eq_def] at hrun
  dsimp only at hrun
  split at hrun
  · rw [Prod.mk.injEq] at hrun
    obtain ⟨h1, _⟩ := hrun
    injection h1 with h1
    exact absurd h1 (List.cons_ne_nil _ _)
  · rename_i root hfr
    split at hrun
    · rw [Prod.mk.injEq] at hrun
      obtain ⟨h1, _⟩ := hrun
      injection h1 with h1
      exact absurd h1 (List.cons_ne_nil _ _)
    · rename_i entry hfe
      rw [loadBody.eq_def] at hrun
      dsimp only at hrun
      split at hrun
      · rw [Prod.mk.injEq] at hrun
        obtain ⟨h1, _⟩ := hrun
        injection h1 with h1
        exact absurd h1 (List.cons_ne_nil _ _)
      · rename_i ns1 errs usedF hinst
        split at hrun
        · rename_i hne
          rw [Prod.mk.injEq] at hrun
          obtain ⟨h1, _⟩ := hrun
          injection h1 with h1
          exact absurd h1 hne
        · rename_i hnne
          have herrs : errs = [] := not_not.mp hnne
          subst herrs
          split at hrun
          · rename_i hcond
            rw [Prod.mk.injEq] at hrun
            obtain ⟨h1, _⟩ := hrun
            injection h1 with h1
            exact absurd h1 hcond.1
          · rename_i hncond
            split at hrun
            · rw [Prod.mk.injEq] at hrun
              obtain ⟨h1, _⟩ := hrun
              injection h1
            · rename_i st3 hsw
              rw [Prod.mk.injEq] at hrun
              obtain ⟨h1, h2⟩ := hrun
              injection h1 with h1
              exact ⟨root, entry, ns1, usedF, st3, hfr, hfe, hinst, h1, hsw,
                h2.symm⟩

/-- C1: for every structurally valid dataflow document `D`, if `load(D)`
succeeds with an empty error list then `save()` succeeds on the resulting
editor and `load(save(load(D)))` succeeds with an empty error list and
rebuilds exactly the same in-memory graph tree as `load(D)` — equality on
the nose, hence in particular up to navigation-stack state and
view-transform (panning/scaling) fields. -/
theorem c1_load_save_load_round_trip (D : Document) (st0 st1 : EState)
    (hv : structValidB D = true)
    (hcc : st0.subgraphNodePositions = [])
    (hrun : loadE D st0 = (.ret [], st1)) :
    ∃ doc st1' st2, saveE st1 = some (doc, st1') ∧
      loadE doc st1' = (.ret [], st2) ∧ st2.root = st1.root := by
  rcases D with ⟨Dg, Dsubs⟩
  rcases Dg with _ | dr
  · rw [structValidB.eq_def] at hv
    dsimp only at hv
    cases hv
  rcases dr with eid | g
  · -- multi-graph document
    rcases Dsubs with _ | subsD
    · rw [structValidB.eq_def] at hv
      dsimp only at hv
      cases hv
    rw [structValidB.eq_def] at hv
    dsimp only at hv
    rw [Bool.and_eq_true, decide_eq_true_eq] at hv
    obtain ⟨hallT, hndsubs⟩ := hv
    have hT : ∀ t ∈ subsD, templateOK subsD t = true :=
      fun t ht => List.all_eq_true.mp hallT t ht
    obtain ⟨rootD, entryD, ns1, usedF, st3, hfr, hfe, hinst, hle, hsw, hst1⟩ :=
      loadE_entry_inv st0 eid subsD st1 hrun
    have hrootmem : rootD ∈ subsD := List.mem_of_find?_eq_some hfr
    have hrootpred := List.find?_some hfr
    have hrootfreshD : rootD.core.id ∉ usedSubgraphIds subsD := by
      intro hcon
      have hct : (usedSubgraphIds subsD).contains rootD.core.id = true :=
        List.elem_eq_true_of_mem hcon
      rw [hct] at hrootpred
      simp at hrootpred
    have hentrymem : entryD ∈ subsD := List.mem_of_find?_eq_some hfe
    have hentryid : entryD.core.id = eid := by
      have hq := List.find?_some hfe
      exact of_decide_eq_true hq
    obtain ⟨hfT, _, _⟩ := templateOK_facts (hT rootD hrootmem)
    obtain ⟨hndRoot, hflatR⟩ := flatOK_facts hfT
    rw [instNodes_eq_instSeq] at hinst
    obtain ⟨coresF, linkedF, consF, nodupF, coll, hstripF, husedF, htmplF⟩ :=
      instA (fuelOf ⟨some (.entry eid), some subsD⟩) (some subsD) hT
        rootD.nodes hflatR [] ns1 usedF hinst
    have hidsF : ns1.map (fun n => n.core.id) =
        rootD.nodes.map (fun n => n.core.id) := ids_eq_cores ns1 rootD.nodes coresF
    have hndns1 : (ns1.map (fun n => n.core.id)).Nodup := by
      rw [hidsF]
      exact hndRoot
    have hgroot : consDeepG
        (⟨{ rootD.core with inputs := [], outputs := [] }, ns1⟩ : SGraph) = true := by
      rw [consDeepG, Bool.and_eq_true]
      exact ⟨decide_eq_true hndns1, consF⟩
    have hndcoll : (coll.map (fun t => t.core.id)).Nodup := by
      have hnu := nodupF List.nodup_nil
      rw [husedF, List.nil_append] at hnu
      exact hnu
    have hrfresh : rootD.core.id ∉ coll.map (fun t => t.core.id) :=
      collFresh ns1 rootD.nodes coll subsD rootD.core.id hstripF linkedF
        htmplF ⟨rootD, hrootmem, rfl⟩ hrootfreshD
    have hfreshF : ∀ ns₂' coll', stripNodes ns1 = some (ns₂', coll') →
        rootD.core.id ∉ coll'.map (fun t => t.core.id) ∧
        (coll'.map (fun t => t.core.id)).Nodup := by
      intro ns₂' coll' hstrip'
      rw [hstripF] at hstrip'
      injection hstrip' with hstrip'
      rw [Prod.mk.injEq] at hstrip'
      obtain ⟨_, he2⟩ := hstrip'
      subst he2
      exact ⟨hrfresh, hndcoll⟩
    rcases dfs_valid eid ns1 [] consF with hz | ⟨q2, heq2, hq2ne, hfacts⟩
    · -- entry not nested: navigation remains at the root
      rw [hz, switchAlong] at hsw
      injection hsw with hsw
      subst hsw
      obtain ⟨cw, hav, hcwid, _, hcwcn, hcwin, hcwout⟩ :=
        applyViewState_nil
          { { unregisterGraphsE st0 with readonly := true } with
            root := (⟨{ rootD.core with inputs := [], outputs := [] },
              ns1⟩ : SGraph),
            path := ([] : List String), graphName := some entryD.core.name,
            readonly := (unregisterGraphsE st0).readonly }
          entryD.core.panning entryD.core.scaling (by rfl)
      rw [hav] at hst1
      subst hst1
      refine loadE_of_saveE _ ?_ ?_ ?_ ?_ ?_ ?_ ?_ ?_
      · exact hgroot
      · exact linkedF
      · rfl
      · exact hcc
      · exact hcwin
      · exact hcwout
      · rw [graphLoadErrors_congr cw
          ({ rootD.core with inputs := [], outputs := [] }) ns1 hcwcn]
        exact hle
      · intro ns₂' coll' hstrip'
        obtain ⟨ha, hb⟩ := hfreshF ns₂' coll' hstrip'
        refine ⟨?_, hb⟩
        show cw.id ∉ coll'.map (fun t => t.core.id)
        rw [hcwid]
        exact ha
    · -- entry nested: navigation replays the dfs path
      rw [List.nil_append] at heq2
      obtain ⟨hpq2, h2, hd2, hid2⟩ := hfacts ns1 (fun m hm => hm) hndns1
      obtain ⟨h2ns, _, _, h2mem, _⟩ :=
        strip_descend q2 ns1 rootD.nodes coll h2 hstripF linkedF hd2
      obtain ⟨t, htmem, htc, _⟩ := htmplF ⟨h2.core, h2ns⟩ h2mem
      have hteq : t = entryD := by
        apply List.inj_on_of_nodup_map hndsubs htmem hentrymem
        show t.core.id = entryD.core.id
        rw [← htc, hentryid]
        exact hid2
      have hch2 : h2.core = entryD.core := by
        rw [htc, hteq]
      have hpush := pushAll_consistent q2 []
        ({ { unregisterGraphsE st0 with readonly := true } with
          root := (⟨{ rootD.core with inputs := [], outputs := [] },
            ns1⟩ : SGraph),
          path := ([] : List String), graphName := some entryD.core.name,
          readonly := (unregisterGraphsE st0).readonly } : EState)
        (⟨{ rootD.core with inputs := [], outputs := [] }, ns1⟩ : SGraph)
        hgroot hcc (by rfl) (by rfl)
        (by rw [pathOk_eq_pathN]; exact hpq2) (by rfl)
      obtain ⟨hfin, hdfin, hpush⟩ := hpush
      rw [List.nil_append] at hdfin hpush
      have hdq2 : descend
          (⟨{ rootD.core with inputs := [], outputs := [] }, ns1⟩ : SGraph) q2 =
          some h2 := by
        rw [descend_eq_descendN q2 hq2ne]
        exact hd2
      rw [hdq2] at hdfin
      injection hdfin with hfeq
      subst hfeq
      rw [heq2, switchAlong_eq_pushAll, hpush] at hsw
      injection hsw with hsweq
      have hst3path : st3.path = q2 := by rw [← hsweq]
      have hst3root : st3.root =
          (⟨{ rootD.core with inputs := [], outputs := [] }, ns1⟩ : SGraph) := by
        rw [← hsweq]
      have hst3snp : st3.subgraphNodePositions = st0.subgraphNodePositions := by
        rw [← hsweq]
        rfl
      have hview := applyViewState_self st3 h2
        entryD.core.panning entryD.core.scaling
        (by rw [hst3root, hst3path, pathOk_eq_pathN]; exact hpq2)
        (by rw [hst3root, hst3path]; exact hdq2)
        (fun p hpp => by rw [hch2]; exact hpp)
        (fun s hss => by rw [hch2]; exact hss)
      rw [hview] at hst1
      subst hst1
      refine loadE_of_saveE st1 ?_ ?_ ?_ ?_ ?_ ?_ ?_ ?_
      · rw [hst3root]
        exact hgroot
      · rw [hst3root]
        exact linkedF
      · rw [hst3root, hst3path, pathOk_eq_pathN]
        exact hpq2
      · rw [hst3snp]
        exact hcc
      · rw [hst3root]
      · rw [hst3root]
      · rw [hst3root]
        exact hle
      · rw [hst3root]
        exact hfreshF
  · -- single-graph document
    rw [structValidB.eq_def] at hv
    dsimp only at hv
    rw [Bool.and_eq_true, Bool.and_eq_true, Bool.and_eq_true,
      decide_eq_true_eq] at hv
    obtain ⟨⟨⟨hflatG, hallT⟩, hndall⟩, hunref⟩ := hv
    have hT : ∀ t ∈ Dsubs.getD [], templateOK (Dsubs.getD []) t = true :=
      fun t ht => List.all_eq_true.mp hallT t ht
    obtain ⟨ns1, usedF, hinst, hle, hst1⟩ :=
      loadE_single_inv st0 g Dsubs st1 hrun
    obtain ⟨hndG, hflatN⟩ := flatOK_facts hflatG
    rw [instNodes_eq_instSeq] at hinst
    obtain ⟨coresF, linkedF, consF, nodupF, coll, hstripF, husedF, htmplF⟩ :=
      instA (fuelOf ⟨some (.single g), Dsubs⟩) Dsubs hT g.nodes hflatN
        [] ns1 usedF hinst
    have hidsF : ns1.map (fun n => n.core.id) =
        g.nodes.map (fun n => n.core.id) := ids_eq_cores ns1 g.nodes coresF
    have hndns1 : (ns1.map (fun n => n.core.id)).Nodup := by
      rw [hidsF]
      exact hndG
    have hgroot : consDeepG
        (⟨{ g.core with inputs := [], outputs := [] }, ns1⟩ : SGraph) = true := by
      rw [consDeepG, Bool.and_eq_true]
      exact ⟨decide_eq_true hndns1, consF⟩
    have hndcoll : (coll.map (fun t => t.core.id)).Nodup := by
      have hnu := nodupF List.nodup_nil
      rw [husedF, List.nil_append] at hnu
      exact hnu
    have hgfresh : g.core.id ∉ usedSubgraphIds (g :: Dsubs.getD []) := by
      intro hcon
      have hct : (usedSubgraphIds (g :: Dsubs.getD [])).contains g.core.id = true :=
        List.elem_eq_true_of_mem hcon
      rw [hct] at hunref
      simp at hunref
    have hrfresh : g.core.id ∉ coll.map (fun t => t.core.id) :=
      collFresh ns1 g.nodes coll (g :: Dsubs.getD []) g.core.id hstripF linkedF
        (fun u hu => by
          obtain ⟨t, ht, h1, h2⟩ := htmplF u hu
          exact ⟨t, List.mem_cons_of_mem g ht, h1, h2⟩)
        ⟨g, List.mem_cons_self g _, rfl⟩ hgfresh
    have hfreshF : ∀ ns₂' coll', stripNodes ns1 = some (ns₂', coll') →
        g.core.id ∉ coll'.map (fun t => t.core.id) ∧
        (coll'.map (fun t => t.core.id)).Nodup := by
      intro ns₂' coll' hstrip'
      rw [hstripF] at hstrip'
      injection hstrip' with hstrip'
      rw [Prod.mk.injEq] at hstrip'
      obtain ⟨_, he2⟩ := hstrip'
      subst he2
      exact ⟨hrfresh, hndcoll⟩
    obtain ⟨cw, hav, hcwid, _, hcwcn, hcwin, hcwout⟩ :=
      applyViewState_nil
        { { unregisterGraphsE st0 with readonly := true } with
          root := (⟨{ g.core with inputs := [], outputs := [] },
            ns1⟩ : SGraph),
          path := ([] : List String), graphName := some g.core.name,
          readonly := (unregisterGraphsE st0).readonly }
        g.core.panning g.core.scaling (by rfl)
    rw [hav] at hst1
    subst hst1
    refine loadE_of_saveE _ ?_ ?_ ?_ ?_ ?_ ?_ ?_ ?_
    · exact hgroot
    · exact linkedF
    · rfl
    · exact hcc
    · exact hcwin
    · exact hcwout
    · rw [graphLoadErrors_congr cw
        ({ g.core with inputs := [], outputs := [] }) ns1 hcwcn]
      exact hle
    · intro ns₂' coll' hstrip'
      obtain ⟨ha, hb⟩ := hfreshF ns₂' coll' hstrip'
      refine ⟨?_, hb⟩
      show cw.id ∉ coll'.map (fun t => t.core.id)
      rw [hcwid]
      exact ha

/-- C1, witness: on the nested two-template document the load–save–load
round trip succeeds and reproduces the loaded graph tree exactly. -/
theorem c1_witness :
    structValidB docNest = true ∧
    ∃ doc st1' st2, saveE (loadE docNest initE).2 = some (doc, st1') ∧
      loadE doc st1' = (.ret [], st2) ∧
      st2.root = (loadE docNest initE).2.root :=
  ⟨by decide, c1_load_save_load_round_trip docNest initE
    (loadE docNest initE).2 (by decide) rfl rfl⟩
